import Mathlib

/-!
Weighted round-robin scheduling class.

A shallow embedding of `hmwk4/android-tegra-3.1/kernel/sched_wrr.c`; the linked list
and the command history of `hmwk1/shell` follow it with their own conventions.

Representation choices.

* A task is named by a natural number (its address in the C code); the task
  table `State.tasks` maps that name to the fields of `task_struct` which the
  scheduling class reads or writes.
* There are `n` possible CPUs, `cpu_rq(cpu)` is `State.rqs cpu`.
* The intrusive circular list `wrr_rq.wrr_list` is the list of the tasks whose
  `wrr.run_list` node is linked on it, head first.  A node is linked on at most
  one list, so `list_empty(&p->wrr.run_list)` is "no run queue lists `p`" and
  unlinking a node removes the task from whichever list holds it.
* The priority list `wrr_rq.movable_tasks` is the list of its nodes in
  iteration order (`plist_for_each_entry` order), each node carrying its `prio`.
* `int` values (`wrr_weight`, `weight_sum`) are mathematical integers: the
  sums involved are sums of task weights and stay far below `INT_MAX`.
  `unsigned int time_slice` and the `u64` clocks wrap explicitly.
* Locks, RCU sections, the hrtimer and scheduler statistics have no effect on
  the fields modelled here and are left out.
* `HZ` and `SCHED_WRR` are defined outside this file of the kernel and are
  parameters.
-/

namespace WRR

/-! ## Constants -/

/-- Modulus of `unsigned int` arithmetic. -/
def UINT_MOD : Nat := 2 ^ 32

/-- Modulus of `unsigned long` arithmetic on the 32-bit Tegra target. -/
def ULONG_MOD : Nat := 2 ^ 32

/-- Modulus of `u64` arithmetic. -/
def U64_MOD : Nat := 2 ^ 64

/-- The largest `int`. -/
def INT_MAX : Int := 2147483647

/-- The macro `DEFAULT_WRR_WEIGHT`. -/
def DEFAULT_WRR_WEIGHT : Int := 10

/-- The macro `BASE_WRR_TIMESLICE`, `(10 * HZ / 1000)`, with C's truncating division. -/
def BASE_WRR_TIMESLICE (HZ : Int) : Int := (10 * HZ).tdiv 1000

/-! ## Data model -/

/-- A node of a priority list: its key and the task that embeds it. -/
structure plist_node where
  prio : Int
  task : Nat
deriving DecidableEq

/-- The fields of `task_struct` used by the scheduling class. -/
structure task_struct (n : Nat) where
  /-- The field `p->wrr_weight`, an `int`. -/
  wrr_weight : Int
  /-- The field `p->wrr.time_slice`, an `unsigned int`. -/
  time_slice : Nat
  /-- The field `p->policy`. -/
  policy : Nat
  /-- The value of `task_cpu(p)`. -/
  cpu : Fin n
  /-- The mask `p->cpus_allowed`. -/
  cpus_allowed : Fin n → Bool
  /-- The field `p->on_cpu`. -/
  on_cpu : Bool
  /-- Whether `p->sched_class == &wrr_sched_class`. -/
  wrr_class : Bool
  /-- The field `p->se.exec_start`, a `u64`. -/
  exec_start : Nat
  /-- The field `p->se.sum_exec_runtime`, a `u64`. -/
  sum_exec_runtime : Nat
  /-- The flag set by `set_tsk_need_resched`. -/
  need_resched : Bool

/-- The structure `struct wrr_rq`. -/
structure wrr_rq where
  /-- Tasks linked on `wrr_list`, head first. -/
  wrr_list : List Nat
  /-- The counter `wrr_nr_running`, an `unsigned long`. -/
  wrr_nr_running : Nat
  /-- The field `weight_sum`, an `int`. -/
  weight_sum : Int
  /-- Nodes of `movable_tasks` in iteration order. -/
  movable_tasks : List plist_node
deriving DecidableEq

/-- The fields of `struct rq` used by the scheduling class. -/
structure rq where
  wrr : wrr_rq
  /-- The task `rq->curr`. -/
  curr : Nat
  /-- The clock `rq->clock_task`, a `u64`. -/
  clock_task : Nat
deriving DecidableEq

/-- The scheduler state: online mask, one run queue per CPU, the task table. -/
structure State (n : Nat) where
  cpu_online_mask : Fin n → Bool
  rqs : Fin n → rq
  tasks : Nat → task_struct n

variable {n : Nat}

/-- Replace the `wrr_rq` of one CPU. -/
def State.mod_wrr (s : State n) (cpu : Fin n) (f : wrr_rq → wrr_rq) : State n :=
  { s with rqs := Function.update s.rqs cpu { s.rqs cpu with wrr := f (s.rqs cpu).wrr } }

/-- Replace the fields of one task. -/
def State.mod_task (s : State n) (p : Nat) (f : task_struct n → task_struct n) : State n :=
  { s with tasks := Function.update s.tasks p (f (s.tasks p)) }

/-! ## Kernel list primitives -/

/-- The test `!list_empty(&p->wrr.run_list)` of `on_wrr_rq`: the node is linked on a list. -/
def on_wrr_rq (s : State n) (p : Nat) : Bool :=
  decide (∃ c : Fin n, p ∈ (s.rqs c).wrr.wrr_list)

/-- The call `list_del_init(&p->wrr.run_list)`: unlink the node from the list that holds it. -/
def list_del_init (s : State n) (p : Nat) : State n :=
  { s with rqs := fun c =>
      { s.rqs c with wrr := { (s.rqs c).wrr with
          wrr_list := (s.rqs c).wrr.wrr_list.filter (fun q => q != p) } } }

/-- The call `list_add_tail(&p->wrr.run_list, &cpu_rq(cpu)->wrr.wrr_list)`. -/
def list_add_tail (s : State n) (p : Nat) (cpu : Fin n) : State n :=
  s.mod_wrr cpu (fun w => { w with wrr_list := w.wrr_list ++ [p] })

/-- The call `list_move_tail`: unlink the node, then link it at the tail. -/
def list_move_tail (s : State n) (p : Nat) (cpu : Fin n) : State n :=
  list_add_tail (list_del_init s p) p cpu

/-- The test `p->wrr.run_list.prev != p->wrr.run_list.next`: on a circular list with a
head this holds exactly when the node is linked on a list that has another node. -/
def run_list_prev_ne_next (s : State n) (p : Nat) : Bool :=
  decide (∃ c : Fin n, p ∈ (s.rqs c).wrr.wrr_list ∧ 2 ≤ (s.rqs c).wrr.wrr_list.length)

/-- The call `plist_del(&p->pushable_tasks, head)`: unlink the node from the priority
list that holds it (the head argument is only used by debug checks). -/
def plist_del (s : State n) (p : Nat) : State n :=
  { s with rqs := fun c =>
      { s.rqs c with wrr := { (s.rqs c).wrr with
          movable_tasks := (s.rqs c).wrr.movable_tasks.filter (fun x => x.task != p) } } }

/-- Insertion of `plist_add`: before the first node of strictly greater `prio`. -/
def plist_insert (node : plist_node) : List plist_node → List plist_node
  | [] => [node]
  | x :: xs => if node.prio < x.prio then node :: x :: xs else x :: plist_insert node xs

/-- The call `plist_add(node, &cpu_rq(cpu)->wrr.movable_tasks)`. -/
def plist_add (s : State n) (node : plist_node) (cpu : Fin n) : State n :=
  s.mod_wrr cpu (fun w => { w with movable_tasks := plist_insert node w.movable_tasks })

/-- The kernel helper `task_current(rq, p)`: `rq->curr == p`. -/
def task_current (s : State n) (cpu : Fin n) (p : Nat) : Bool :=
  decide ((s.rqs cpu).curr = p)

/-- The kernel helper `task_running(rq, p)`, which on SMP is `p->on_cpu`. -/
def task_running (s : State n) (_cpu : Fin n) (p : Nat) : Bool :=
  (s.tasks p).on_cpu

/-- The kernel helper `cpumask_test_cpu(cpu, &p->cpus_allowed)`. -/
def cpumask_test_cpu (cpu : Fin n) (mask : Fin n → Bool) : Bool :=
  mask cpu

/-- The CPUs visited by `for_each_cpu(cpu, mask)`, in ascending order. -/
def for_each_cpu (mask : Fin n → Bool) : List (Fin n) :=
  (List.finRange n).filter (fun c => mask c)

/-! ## sched_wrr.c -/

/-- The function `get_wrr_timeslice`: `BASE_WRR_TIMESLICE * weight` as `unsigned int`. -/
def get_wrr_timeslice (HZ : Int) (weight : Int) : Nat :=
  ((BASE_WRR_TIMESLICE HZ * weight) % (UINT_MOD : Int)).toNat

/-- The function `inc_wrr_tasks`. -/
def inc_wrr_tasks (s : State n) (cpu : Fin n) : State n :=
  s.mod_wrr cpu (fun w => { w with wrr_nr_running := (w.wrr_nr_running + 1) % ULONG_MOD })

/-- The function `dec_wrr_tasks`. -/
def dec_wrr_tasks (s : State n) (cpu : Fin n) : State n :=
  s.mod_wrr cpu (fun w =>
    { w with wrr_nr_running := (w.wrr_nr_running + ULONG_MOD - 1) % ULONG_MOD })

/-- The function `add_wrr_rq_weight`. -/
def add_wrr_rq_weight (s : State n) (cpu : Fin n) (weight : Int) : State n :=
  s.mod_wrr cpu (fun w => { w with weight_sum := w.weight_sum + weight })

/-- The function `sub_wrr_rq_weight`: subtract, then clamp at zero. -/
def sub_wrr_rq_weight (s : State n) (cpu : Fin n) (weight : Int) : State n :=
  s.mod_wrr cpu (fun w =>
    { w with weight_sum := if w.weight_sum - weight < 0 then 0 else w.weight_sum - weight })

/-- The function `__enqueue_plist_task`. -/
def __enqueue_plist_task (s : State n) (cpu : Fin n) (p : Nat) : State n :=
  plist_add (plist_del s p) { prio := (s.tasks p).wrr_weight, task := p } cpu

/-- The function `__dequeue_plist_task`. -/
def __dequeue_plist_task (s : State n) (_cpu : Fin n) (p : Nat) : State n :=
  plist_del s p

/-- One step of the scan in `find_lowest_wrr_rq`. -/
def lowest_step (s : State n) (acc : Int × Fin n) (cpu : Fin n) : Int × Fin n :=
  if (s.rqs cpu).wrr.weight_sum < acc.1 then ((s.rqs cpu).wrr.weight_sum, cpu) else acc

/-- The function `find_lowest_wrr_rq`; `this_cpu` is `smp_processor_id()`. -/
def find_lowest_wrr_rq (s : State n) (this_cpu : Fin n) : Fin n :=
  ((for_each_cpu s.cpu_online_mask).foldl (lowest_step s) (INT_MAX, this_cpu)).2

/-- One step of the scan in `find_highest_wrr_rq`. -/
def highest_step (s : State n) (acc : Int × Fin n) (cpu : Fin n) : Int × Fin n :=
  if (s.rqs cpu).wrr.weight_sum > acc.1 then ((s.rqs cpu).wrr.weight_sum, cpu) else acc

/-- The function `find_highest_wrr_rq`; `this_cpu` is `smp_processor_id()`. -/
def find_highest_wrr_rq (s : State n) (this_cpu : Fin n) : Fin n :=
  ((for_each_cpu s.cpu_online_mask).foldl (highest_step s) (0, this_cpu)).2

/-- The function `update_curr_wrr`. -/
def update_curr_wrr (s : State n) (cpu : Fin n) : State n :=
  let curr := (s.rqs cpu).curr
  if (s.tasks curr).wrr_class = false then s
  else
    let delta := ((s.rqs cpu).clock_task + U64_MOD - (s.tasks curr).exec_start % U64_MOD) % U64_MOD
    let delta_exec := if 2 ^ 63 ≤ delta then 0 else delta
    s.mod_task curr (fun t =>
      { t with sum_exec_runtime := (t.sum_exec_runtime + delta_exec) % U64_MOD
               exec_start := (s.rqs cpu).clock_task })

/-- The function `requeue_task_wrr`. -/
def requeue_task_wrr (HZ : Int) (s : State n) (cpu : Fin n) (p : Nat) : State n :=
  let s1 := s.mod_task p (fun t => { t with time_slice := get_wrr_timeslice HZ t.wrr_weight })
  let s2 := __enqueue_plist_task s1 cpu p
  list_move_tail s2 p cpu

/-- The function `__enqueue_wrr_entity`. -/
def __enqueue_wrr_entity (HZ : Int) (s : State n) (cpu : Fin n) (p : Nat) (weight : Int) :
    State n :=
  let s1 := list_add_tail s p cpu
  let s2 := inc_wrr_tasks s1 cpu
  let s3 := s2.mod_task p (fun t => { t with time_slice := get_wrr_timeslice HZ weight })
  add_wrr_rq_weight s3 cpu weight

/-- The function `enqueue_task_wrr`. -/
def enqueue_task_wrr (HZ : Int) (s : State n) (cpu : Fin n) (p : Nat) : State n :=
  let weight := (s.tasks p).wrr_weight
  let s1 := __enqueue_wrr_entity HZ s cpu p weight
  if task_current s1 cpu p = false then __enqueue_plist_task s1 cpu p else s1

/-- The function `__dequeue_wrr_entity`. -/
def __dequeue_wrr_entity (s : State n) (cpu : Fin n) (p : Nat) (weight : Int) : State n :=
  let s1 := if on_wrr_rq s p then list_del_init s p else s
  let s2 := dec_wrr_tasks s1 cpu
  sub_wrr_rq_weight s2 cpu weight

/-- The function `dequeue_task_wrr`. -/
def dequeue_task_wrr (s : State n) (cpu : Fin n) (p : Nat) : State n :=
  let weight := (s.tasks p).wrr_weight
  let s1 := update_curr_wrr s cpu
  if on_wrr_rq s1 p then __dequeue_plist_task (__dequeue_wrr_entity s1 cpu p weight) cpu p
  else s1

/-- The function `yield_task_wrr`. -/
def yield_task_wrr (HZ : Int) (s : State n) (cpu : Fin n) : State n :=
  requeue_task_wrr HZ s cpu (s.rqs cpu).curr

/-- The function `__wrr_set_weight`. -/
def __wrr_set_weight (s : State n) (cpu : Fin n) (p : Nat) (weight : Int) : State n :=
  let s1 := sub_wrr_rq_weight s cpu (s.tasks p).wrr_weight
  let s2 := s1.mod_task p (fun t => { t with wrr_weight := weight })
  let s3 := add_wrr_rq_weight s2 cpu (s2.tasks p).wrr_weight
  if task_running s3 cpu p = false && on_wrr_rq s3 p then __enqueue_plist_task s3 cpu p else s3

/-- The function `put_prev_task_wrr`. -/
def put_prev_task_wrr (s : State n) (cpu : Fin n) (prev : Nat) : State n :=
  let s1 := update_curr_wrr s cpu
  let s2 := s1.mod_task prev (fun t => { t with exec_start := 0 })
  if on_wrr_rq s2 prev then __enqueue_plist_task s2 cpu prev else s2

/-- The function `set_curr_task_wrr`. -/
def set_curr_task_wrr (s : State n) (cpu : Fin n) : State n :=
  let p := (s.rqs cpu).curr
  let s1 := s.mod_task p (fun t => { t with exec_start := (s.rqs cpu).clock_task })
  __dequeue_plist_task s1 cpu p

/-- The function `task_tick_wrr`. -/
def task_tick_wrr (HZ : Int) (s : State n) (cpu : Fin n) (p : Nat) : State n :=
  let s1 := update_curr_wrr s cpu
  let s2 := s1.mod_task p (fun t => { t with time_slice := (t.time_slice + UINT_MOD - 1) % UINT_MOD })
  if 0 < (s2.tasks p).time_slice then s2
  else
    let s3 := s2.mod_task p (fun t => { t with time_slice := get_wrr_timeslice HZ t.wrr_weight })
    if run_list_prev_ne_next s3 p then
      (requeue_task_wrr HZ s3 cpu p).mod_task p (fun t => { t with need_resched := true })
    else s3

/-- The function `get_rr_interval_wrr`. -/
def get_rr_interval_wrr (HZ : Int) (s : State n) (task : Nat) : Nat :=
  get_wrr_timeslice HZ (s.tasks task).wrr_weight

/-- The function `task_fork_wrr` (starting the balancing timer changes no modelled field). -/
def task_fork_wrr (HZ : Int) (s : State n) (p : Nat) : State n :=
  let s1 :=
    if (s.tasks p).wrr_weight < 1 ∨ (s.tasks p).wrr_weight > 20 then
      s.mod_task p (fun t => { t with wrr_weight := DEFAULT_WRR_WEIGHT })
    else s
  s1.mod_task p (fun t => { t with time_slice := get_wrr_timeslice HZ t.wrr_weight })

/-- The function `select_task_rq_wrr`; the result is the C `int`. -/
def select_task_rq_wrr (SCHED_WRR : Nat) (s : State n) (this_cpu : Fin n) (p : Nat) : Int :=
  let cpu : Int := ((s.tasks p).cpu : Nat)
  let target : Int :=
    if (s.tasks p).policy = SCHED_WRR then ((find_lowest_wrr_rq s this_cpu : Nat) : Int) else -1
  if target ≠ -1 then target else cpu

/-! ## Load balancer -/

/-- Modelled from the spec: `deactivate_task` of the scheduler core (kernel/sched.c, not
part of this file) - "deactivate from source", which for a task of this class is the
class's `dequeue_task`. -/
def deactivate_task (s : State n) (cpu : Fin n) (p : Nat) : State n :=
  dequeue_task_wrr s cpu p

/-- Modelled from the spec: `set_task_cpu` of the scheduler core - "reassign CPU". -/
def set_task_cpu (s : State n) (p : Nat) (cpu : Fin n) : State n :=
  s.mod_task p (fun t => { t with cpu := cpu })

/-- Modelled from the spec: `activate_task` of the scheduler core - "activate on
destination", which for a task of this class is the class's `enqueue_task`. -/
def activate_task (HZ : Int) (s : State n) (cpu : Fin n) (p : Nat) : State n :=
  enqueue_task_wrr HZ s cpu p

/-- The loop of `find_and_move_job` over `movable_tasks`: the first node whose task is
not running, is allowed on `lowest_cpu` and keeps the imbalance from reversing. -/
def find_job (s : State n) (lowest_cpu highest_cpu : Fin n) : List plist_node → Option Nat
  | [] => none
  | x :: xs =>
    if task_running s highest_cpu x.task then find_job s lowest_cpu highest_cpu xs
    else if cpumask_test_cpu lowest_cpu (s.tasks x.task).cpus_allowed = false then
      find_job s lowest_cpu highest_cpu xs
    else
      let low_new_weight := (s.rqs lowest_cpu).wrr.weight_sum + (s.tasks x.task).wrr_weight
      let high_new_weight := (s.rqs highest_cpu).wrr.weight_sum - (s.tasks x.task).wrr_weight
      if low_new_weight ≥ high_new_weight then find_job s lowest_cpu highest_cpu xs
      else some x.task

/-- The function `find_and_move_job`. -/
def find_and_move_job (HZ : Int) (s : State n) (lowest_cpu highest_cpu : Fin n) : State n :=
  if lowest_cpu = highest_cpu then s
  else
    match find_job s lowest_cpu highest_cpu (s.rqs highest_cpu).wrr.movable_tasks with
    | none => s
    | some p =>
      activate_task HZ (set_task_cpu (deactivate_task s highest_cpu p) p lowest_cpu) lowest_cpu p

/-- The function `do_sched_wrr_load_timer`; `this_cpu` is the CPU the timer fires on. -/
def do_sched_wrr_load_timer (HZ : Int) (s : State n) (this_cpu : Fin n) : State n :=
  let lowest_cpu := find_lowest_wrr_rq s this_cpu
  let highest_cpu := find_highest_wrr_rq s this_cpu
  if lowest_cpu = highest_cpu then s
  else find_and_move_job HZ s lowest_cpu highest_cpu


/-! ## Predicates used to state the properties -/

/-- The three tests of the loop of `find_and_move_job` all pass for this node: its task
is not running, is allowed on `lowest_cpu`, and moving it leaves the destination
strictly lighter than the source. -/
def job_eligible (s : State n) (lowest_cpu highest_cpu : Fin n) (x : plist_node) : Bool :=
  (s.tasks x.task).on_cpu = false &&
  (s.tasks x.task).cpus_allowed lowest_cpu &&
  decide ((s.rqs lowest_cpu).wrr.weight_sum + (s.tasks x.task).wrr_weight <
    (s.rqs highest_cpu).wrr.weight_sum - (s.tasks x.task).wrr_weight)

/-- Sum of `wrr_weight` over the tasks linked on the `wrr_list` of a CPU. -/
def list_weight (s : State n) (c : Fin n) : Int :=
  ((s.rqs c).wrr.wrr_list.map (fun p => (s.tasks p).wrr_weight)).sum

/-- The queue operations of the weight-sum invariant: the class's enqueue and dequeue
hooks and the migration step of the load balancer. -/
inductive Op (n : Nat) where
  | enqueue (cpu : Fin n) (p : Nat)
  | dequeue (cpu : Fin n) (p : Nat)
  | migrate (lowest_cpu highest_cpu : Fin n)

/-- Effect of one operation. -/
def Op.apply (HZ : Int) (s : State n) : Op n → State n
  | .enqueue cpu p => enqueue_task_wrr HZ s cpu p
  | .dequeue cpu p => dequeue_task_wrr s cpu p
  | .migrate lowest_cpu highest_cpu => find_and_move_job HZ s lowest_cpu highest_cpu

/-- The calling contract of the scheduler core: a task is enqueued only when it is not
queued, and a queued task is dequeued from the run queue it is on. -/
def Op.admissible (s : State n) : Op n → Bool
  | .enqueue _ p => !on_wrr_rq s p
  | .dequeue cpu p => !on_wrr_rq s p || decide (p ∈ (s.rqs cpu).wrr.wrr_list)
  | .migrate _ _ => true

/-- Effect of a sequence of operations, first operation first. -/
def run (HZ : Int) : State n → List (Op n) → State n
  | s, [] => s
  | s, op :: ops => run HZ (op.apply HZ s) ops

/-- Every operation of the sequence meets the calling contract in the state it runs in. -/
def admissible_run (HZ : Int) : State n → List (Op n) → Bool
  | _, [] => true
  | s, op :: ops => op.admissible s && admissible_run HZ (op.apply HZ s) ops

/-- Consistency of the queues: weights are not negative, every run list is free of
repetitions, a task is on at most one run list, every node of a migratable index is on
the run list of the same CPU, and `weight_sum` is the sum of the queued weights. -/
structure queues_wf (s : State n) : Prop where
  weight_nonneg : ∀ p, 0 ≤ (s.tasks p).wrr_weight
  nodup : ∀ c, (s.rqs c).wrr.wrr_list.Nodup
  one_list : ∀ c d q, q ∈ (s.rqs c).wrr.wrr_list → q ∈ (s.rqs d).wrr.wrr_list → c = d
  index_queued : ∀ c, ∀ x ∈ (s.rqs c).wrr.movable_tasks, x.task ∈ (s.rqs c).wrr.wrr_list
  weight_sum_eq : ∀ c, (s.rqs c).wrr.weight_sum = list_weight s c

/-! ## Concrete states -/

/-- A task of the class with the given weight, allowed on every CPU, not running. -/
def demo_task (weight : Int) : task_struct 2 :=
  { wrr_weight := weight, time_slice := 1, policy := 6, cpu := 0,
    cpus_allowed := fun _ => true, on_cpu := false, wrr_class := true,
    exec_start := 0, sum_exec_runtime := 0, need_resched := false }

/-- Two online CPUs with empty run queues; every task has weight 10. -/
def demo_empty : State 2 :=
  { cpu_online_mask := fun _ => true,
    rqs := fun _ =>
      { wrr := { wrr_list := [], wrr_nr_running := 0, weight_sum := 0, movable_tasks := [] },
        curr := 0, clock_task := 0 },
    tasks := fun _ => demo_task 10 }

/-- Tasks 1, 2 and 3 enqueued on CPU0 (tick rate 100), CPU1 empty. -/
def demo_loaded : State 2 :=
  enqueue_task_wrr 100 (enqueue_task_wrr 100 (enqueue_task_wrr 100 demo_empty 0 1) 0 2) 0 3

/-- Task 1 enqueued on CPU0 and task 2 on CPU1: both queues weigh 10. -/
def demo_balanced : State 2 :=
  enqueue_task_wrr 100 (enqueue_task_wrr 100 demo_empty 0 1) 1 2

/-- Enqueue three tasks on CPU0, balance, dequeue one, balance again. -/
def demo_ops : List (Op 2) :=
  [.enqueue 0 1, .enqueue 0 2, .enqueue 0 3, .migrate 1 0, .dequeue 0 2, .migrate 0 1,
   .enqueue 1 2, .dequeue 1 1]

/-- The state `demo_loaded` with task 1 pinned to CPU0. -/
def demo_pinned : State 2 :=
  demo_loaded.mod_task 1 (fun t => { t with cpus_allowed := fun c => decide (c = 0) })

/-- Two online CPUs with empty run queues; every task asks for weight 25. -/
def demo_wide : State 2 :=
  { demo_empty with tasks := fun _ => demo_task 25 }

/-- Tasks 1 (weight 5), 2 (weight 1) and 3 (weight 14) enqueued on CPU0 at tick rate
100; CPU1 is empty. -/
def demo_mixed : State 2 :=
  enqueue_task_wrr 100 (enqueue_task_wrr 100 (enqueue_task_wrr 100
    { demo_empty with
      tasks := fun p =>
        if p = 1 then demo_task 5 else if p = 2 then demo_task 1 else demo_task 14 }
    0 1) 0 2) 0 3

/-! ## Picking the next task -/

/-- What `__pick_next_entity_wrr` returns: `NULL`, a task, or the entry that `list_entry`
computes from the head of an empty `wrr_list` (no task at all). -/
inductive pick_result where
  | null
  | task (p : Nat)
  | list_head
deriving DecidableEq

/-- The function `get_first_entity`: the entry after the list head; `none` stands for the
entry computed from the head itself, which is what the list yields when it is empty. -/
def get_first_entity (s : State n) (cpu : Fin n) : Option Nat :=
  (s.rqs cpu).wrr.wrr_list.head?

/-- The function `__pick_next_entity_wrr`.  A write through the entry of an empty list
lands outside the modelled fields and is left out. -/
def __pick_next_entity_wrr (s : State n) (cpu : Fin n) : State n × pick_result :=
  if (s.rqs cpu).wrr.wrr_nr_running = 0 then (s, pick_result.null)
  else
    match get_first_entity s cpu with
    | none => (s, pick_result.list_head)
    | some p =>
      (s.mod_task p (fun t => { t with exec_start := (s.rqs cpu).clock_task }),
        pick_result.task p)

/-- The function `pick_next_task_wrr`. -/
def pick_next_task_wrr (s : State n) (cpu : Fin n) : State n × pick_result :=
  match __pick_next_entity_wrr s cpu with
  | (s1, pick_result.task p) => (__dequeue_plist_task s1 cpu p, pick_result.task p)
  | r => r

/-- The outcome of the test `--p->wrr.time_slice > 0` of `task_tick_wrr` being false:
the decremented `unsigned int` is zero. -/
def slice_exhausted (s : State n) (p : Nat) : Bool :=
  decide (((s.tasks p).time_slice + UINT_MOD - 1) % UINT_MOD = 0)

/-! ## The pick, run, put cycle -/

/-- Tick task `p` until a tick finds its slice exhausted.  The result is the state after
that tick and the number of ticks made, or `none` when `fuel` ticks were not enough. -/
def tick_until_exhausted (HZ : Int) (cpu : Fin n) (p : Nat) : Nat → State n → Option (State n × Nat)
  | 0, _ => none
  | fuel + 1, s =>
    if slice_exhausted s p then some (task_tick_wrr HZ s cpu p, 1)
    else
      match tick_until_exhausted HZ cpu p fuel (task_tick_wrr HZ s cpu p) with
      | none => none
      | some (s1, k) => some (s1, k + 1)

/-- One cycle: `pick_next_task_wrr`, then `task_tick_wrr` of the picked task until its
slice is exhausted, then `put_prev_task_wrr` of it.  The result is the state after the
cycle, the picked task and the number of ticks it ran. -/
def pick_run_put (HZ : Int) (fuel : Nat) (cpu : Fin n) (s : State n) :
    Option (State n × Nat × Nat) :=
  match pick_next_task_wrr s cpu with
  | (s1, pick_result.task p) =>
    match tick_until_exhausted HZ cpu p fuel s1 with
    | none => none
    | some (s2, k) => some (put_prev_task_wrr s2 cpu p, p, k)
  | _ => none

/-- The cycle repeated: the final state and, per cycle, the picked task with its ticks. -/
def rounds (HZ : Int) (fuel : Nat) (cpu : Fin n) : Nat → State n → Option (State n × List (Nat × Nat))
  | 0, s => some (s, [])
  | r + 1, s =>
    match pick_run_put HZ fuel cpu s with
    | none => none
    | some (s1, p, k) =>
      match rounds HZ fuel cpu r s1 with
      | none => none
      | some (s2, trace) => some (s2, (p, k) :: trace)

/-- A queue of freshly enqueued tasks of equal weight `w`: `wrr_list` is `l` without
repetition, its tasks are on no other run list, the counter is the length of `l`, and
every task of `l` has weight `w` and the slice that enqueueing gives it. -/
structure fresh_queue (HZ : Int) (s : State n) (cpu : Fin n) (l : List Nat) (w : Int) : Prop where
  list_eq : (s.rqs cpu).wrr.wrr_list = l
  nodup : l.Nodup
  alone : ∀ c, c ≠ cpu → ∀ p ∈ l, p ∉ (s.rqs c).wrr.wrr_list
  counter : (s.rqs cpu).wrr.wrr_nr_running = l.length
  weight : ∀ p ∈ l, (s.tasks p).wrr_weight = w
  slice : ∀ p ∈ l, (s.tasks p).time_slice = get_wrr_timeslice HZ w

/-- Two states with the same run lists and counters and the same weights. -/
def same_run (s t : State n) : Prop :=
  (∀ c, (t.rqs c).wrr.wrr_list = (s.rqs c).wrr.wrr_list ∧
    (t.rqs c).wrr.wrr_nr_running = (s.rqs c).wrr.wrr_nr_running) ∧
  ∀ q, (t.tasks q).wrr_weight = (s.tasks q).wrr_weight

/-- The migratable index of a CPU holds exactly the tasks that are on its `wrr_list` and
are not its current task. -/
def index_matches (s : State n) (cpu : Fin n) : Prop :=
  ∀ p, (∃ x ∈ (s.rqs cpu).wrr.movable_tasks, x.task = p) ↔
    (p ∈ (s.rqs cpu).wrr.wrr_list ∧ (s.rqs cpu).curr ≠ p)

/-- CPU0 runs task 1 (picked, so out of the index, one tick of its slice left) with
task 2 waiting behind it; CPU1 is empty. -/
def demo_running : State 2 :=
  { cpu_online_mask := fun _ => true,
    rqs := fun c =>
      if c = 0 then
        { wrr := { wrr_list := [1, 2], wrr_nr_running := 2, weight_sum := 20,
                   movable_tasks := [{ prio := 10, task := 2 }] },
          curr := 1, clock_task := 0 }
      else
        { wrr := { wrr_list := [], wrr_nr_running := 0, weight_sum := 0, movable_tasks := [] },
          curr := 0, clock_task := 0 },
    tasks := fun p =>
      if p = 1 then { demo_task 10 with on_cpu := true, time_slice := 1 }
      else { demo_task 10 with time_slice := 10 } }

/-- Consistency of the queues with their counters: every run list is free of
repetitions, a task is on at most one run list, every node of a migratable index is on
the run list of the same CPU, and `wrr_nr_running` is the length of `wrr_list` as an
`unsigned long` holds it. -/
structure counted_wf (s : State n) : Prop where
  nodup : ∀ c, (s.rqs c).wrr.wrr_list.Nodup
  one_list : ∀ c d q, q ∈ (s.rqs c).wrr.wrr_list → q ∈ (s.rqs d).wrr.wrr_list → c = d
  index_queued : ∀ c, ∀ x ∈ (s.rqs c).wrr.movable_tasks, x.task ∈ (s.rqs c).wrr.wrr_list
  counter : ∀ c, (s.rqs c).wrr.wrr_nr_running = (s.rqs c).wrr.wrr_list.length % ULONG_MOD

/-- Every migratable index is in ascending order of its keys. -/
def index_sorted (s : State n) : Prop :=
  ∀ c, (s.rqs c).wrr.movable_tasks.Pairwise (fun a b => a.prio ≤ b.prio)

end WRR

/-!
## The shell's linked list and command history (hmwk1/shell)

The list of `list.c` is the list of the `data` pointers of its nodes, head first; a
`void *` is an `Option`, with `none` for `NULL`.  The `prev`/`next` links are the list
order.  `malloc` succeeds or fails as its flag says.
-/

namespace Shell

/-- The macro `MAXHISTORY`. -/
def MAXHISTORY : Int := 100

/-- The structure `struct List`: the `data` of its nodes from `head` on. -/
structure LinkedList (α : Type) where
  nodes : List (Option α)
deriving DecidableEq

variable {α : Type}

/-- The function `initList`: `head = NULL`. -/
def initList : LinkedList α := { nodes := [] }

/-- The function `isEmptyList`: `head == NULL`. -/
def isEmptyList (list : LinkedList α) : Bool := list.nodes.isEmpty

/-- The function `addNodeBack`: the list afterwards and whether a node was returned
(`false` is the `NULL` returned when `malloc` fails). -/
def addNodeBack (malloc_ok : Bool) (list : LinkedList α) (data : Option α) :
    LinkedList α × Bool :=
  if malloc_ok = false then (list, false)
  else
    match list.nodes with
    | [] => ({ nodes := [data] }, true)
    | x :: xs => ({ nodes := (x :: xs) ++ [data] }, true)

/-- The function `remvNodeFront`: the list afterwards and the returned `data` pointer
(`NULL` for an empty list). -/
def remvNodeFront (list : LinkedList α) : LinkedList α × Option α :=
  match list.nodes with
  | [] => (list, none)
  | x :: xs => ({ nodes := xs }, x)

/-- The loop of `removeAllNodes`, entered with `temp != NULL`: each round sets `temp` to
the pointer `remvNodeFront` returns, which is the `data` of the removed node, or `NULL`
for an empty list; the loop ends when `temp` is `NULL`.  The argument is the list of
nodes, the result the nodes left on the list. -/
def removeAllNodes_loop : List (Option α) → List (Option α)
  | [] => []
  | none :: xs => xs
  | some _ :: xs => removeAllNodes_loop xs

/-- The function `removeAllNodes`: `temp` starts as `list->head`. -/
def removeAllNodes (list : LinkedList α) : LinkedList α :=
  if isEmptyList list then list else { nodes := removeAllNodes_loop list.nodes }

/-- The loop of `numNodes`, at a node with the nodes that follow it. -/
def numNodes_loop (counter : Int) : List (Option α) → Int
  | [] => counter
  | [_] => counter
  | _ :: y :: ys => numNodes_loop (counter + 1) (y :: ys)

/-- The function `numNodes`. -/
def numNodes (list : LinkedList α) : Int :=
  if isEmptyList list then 0 else numNodes_loop 1 list.nodes

/-- The function `addToHistory` on the list `HISTORY`; `none` is the `exit` taken when
the allocation fails.  Freeing the dropped command changes no list. -/
def addToHistory (malloc_ok : Bool) (HISTORY : LinkedList α) (cmd : Option α) :
    Option (LinkedList α) :=
  let h1 := if numNodes HISTORY ≥ MAXHISTORY then (remvNodeFront HISTORY).1 else HISTORY
  match addNodeBack malloc_ok h1 cmd with
  | (h2, true) => some h2
  | (_, false) => none

/-- The history after adding the commands in order to an empty history, every
allocation succeeding. -/
def history_after (cmds : List (Option α)) : Option (LinkedList α) :=
  cmds.foldl (fun h cmd => h.bind (fun l => addToHistory true l cmd)) (some initList)

end Shell

/-! # Theorems -/

namespace WRR

variable {n : Nat}


/-! ## Frame lemmas -/

@[simp] theorem mod_wrr_tasks (s : State n) (cpu : Fin n) (f : wrr_rq → wrr_rq) :
    (s.mod_wrr cpu f).tasks = s.tasks := rfl

@[simp] theorem mod_wrr_online (s : State n) (cpu : Fin n) (f : wrr_rq → wrr_rq) :
    (s.mod_wrr cpu f).cpu_online_mask = s.cpu_online_mask := rfl

@[simp] theorem mod_wrr_rqs_same (s : State n) (cpu : Fin n) (f : wrr_rq → wrr_rq) :
    (s.mod_wrr cpu f).rqs cpu = { s.rqs cpu with wrr := f (s.rqs cpu).wrr } := by
  simp [State.mod_wrr]

theorem mod_wrr_rqs_ne (s : State n) {cpu c : Fin n} (f : wrr_rq → wrr_rq) (h : c ≠ cpu) :
    (s.mod_wrr cpu f).rqs c = s.rqs c := by
  simp [State.mod_wrr, h]

@[simp] theorem mod_task_rqs (s : State n) (p : Nat) (f : task_struct n → task_struct n) :
    (s.mod_task p f).rqs = s.rqs := rfl

@[simp] theorem mod_task_online (s : State n) (p : Nat) (f : task_struct n → task_struct n) :
    (s.mod_task p f).cpu_online_mask = s.cpu_online_mask := rfl

@[simp] theorem mod_task_tasks_same (s : State n) (p : Nat) (f : task_struct n → task_struct n) :
    (s.mod_task p f).tasks p = f (s.tasks p) := by
  simp [State.mod_task]

theorem mod_task_tasks_ne (s : State n) {p q : Nat} (f : task_struct n → task_struct n)
    (h : q ≠ p) : (s.mod_task p f).tasks q = s.tasks q := by
  simp [State.mod_task, h]

@[simp] theorem update_curr_wrr_rqs (s : State n) (cpu : Fin n) :
    (update_curr_wrr s cpu).rqs = s.rqs := by
  unfold update_curr_wrr
  by_cases hc : (s.tasks (s.rqs cpu).curr).wrr_class = false <;> simp [hc]

@[simp] theorem update_curr_wrr_online (s : State n) (cpu : Fin n) :
    (update_curr_wrr s cpu).cpu_online_mask = s.cpu_online_mask := by
  unfold update_curr_wrr
  by_cases hc : (s.tasks (s.rqs cpu).curr).wrr_class = false <;> simp [hc]

/-- Charging the running task touches only its `exec_start` and `sum_exec_runtime`. -/
theorem update_curr_wrr_task (s : State n) (cpu : Fin n) (q : Nat) :
    ((update_curr_wrr s cpu).tasks q).wrr_weight = (s.tasks q).wrr_weight ∧
    ((update_curr_wrr s cpu).tasks q).time_slice = (s.tasks q).time_slice ∧
    ((update_curr_wrr s cpu).tasks q).on_cpu = (s.tasks q).on_cpu ∧
    ((update_curr_wrr s cpu).tasks q).cpus_allowed = (s.tasks q).cpus_allowed ∧
    ((update_curr_wrr s cpu).tasks q).cpu = (s.tasks q).cpu ∧
    ((update_curr_wrr s cpu).tasks q).policy = (s.tasks q).policy := by
  unfold update_curr_wrr
  by_cases hc : (s.tasks (s.rqs cpu).curr).wrr_class = false
  · simp [hc]
  · by_cases hq : q = (s.rqs cpu).curr
    · subst hq; simp [hc]
    · simp [hc, mod_task_tasks_ne _ _ hq]

@[simp] theorem update_curr_wrr_weight (s : State n) (cpu : Fin n) (q : Nat) :
    ((update_curr_wrr s cpu).tasks q).wrr_weight = (s.tasks q).wrr_weight :=
  (update_curr_wrr_task s cpu q).1

@[simp] theorem update_curr_wrr_time_slice (s : State n) (cpu : Fin n) (q : Nat) :
    ((update_curr_wrr s cpu).tasks q).time_slice = (s.tasks q).time_slice :=
  (update_curr_wrr_task s cpu q).2.1

@[simp] theorem update_curr_wrr_on_cpu (s : State n) (cpu : Fin n) (q : Nat) :
    ((update_curr_wrr s cpu).tasks q).on_cpu = (s.tasks q).on_cpu :=
  (update_curr_wrr_task s cpu q).2.2.1

@[simp] theorem update_curr_wrr_cpus_allowed (s : State n) (cpu : Fin n) (q : Nat) :
    ((update_curr_wrr s cpu).tasks q).cpus_allowed = (s.tasks q).cpus_allowed :=
  (update_curr_wrr_task s cpu q).2.2.2.1

/-- A slice of a weight whose product with the base unit fits `unsigned int` is that product. -/
theorem get_wrr_timeslice_eq (HZ w : Int) (h0 : 0 ≤ BASE_WRR_TIMESLICE HZ * w)
    (h1 : BASE_WRR_TIMESLICE HZ * w < 2 ^ 32) :
    ((get_wrr_timeslice HZ w : Nat) : Int) = BASE_WRR_TIMESLICE HZ * w := by
  unfold get_wrr_timeslice UINT_MOD
  have h : (BASE_WRR_TIMESLICE HZ * w) % ((2 ^ 32 : Nat) : Int) = BASE_WRR_TIMESLICE HZ * w :=
    Int.emod_eq_of_lt h0 (by simpa using h1)
  rw [h]
  exact Int.toNat_of_nonneg h0

/-- For a sane tick rate the base unit is between 0 and `INT_MAX / 1000`. -/
theorem BASE_WRR_TIMESLICE_bounds (HZ : Int) (hz0 : 0 ≤ HZ) (hz1 : 10 * HZ ≤ INT_MAX) :
    0 ≤ BASE_WRR_TIMESLICE HZ ∧ BASE_WRR_TIMESLICE HZ ≤ 2147483 := by
  unfold BASE_WRR_TIMESLICE INT_MAX at *
  have h10 : (0 : Int) ≤ 10 * HZ := by omega
  rw [Int.tdiv_eq_ediv h10 (by norm_num)]
  omega

/-- C9: after `task_fork_wrr` the stored `wrr_weight` is the requested weight `w` when
`1 ≤ w ≤ 20` and 10 otherwise (0 becomes 10, 25 becomes 10), so it lies in [1,20], and
`time_slice` equals `BASE_WRR_TIMESLICE` times the stored weight.  The tick rate `HZ` is
not negative and `10 * HZ` fits an `int`. -/
theorem task_fork_wrr_clamps (HZ : Int) (s : State n) (p : Nat)
    (hz0 : 0 ≤ HZ) (hz1 : 10 * HZ ≤ INT_MAX) :
    ((task_fork_wrr HZ s p).tasks p).wrr_weight =
        (if 1 ≤ (s.tasks p).wrr_weight ∧ (s.tasks p).wrr_weight ≤ 20
          then (s.tasks p).wrr_weight else 10) ∧
      ((s.tasks p).wrr_weight = 0 → ((task_fork_wrr HZ s p).tasks p).wrr_weight = 10) ∧
      ((s.tasks p).wrr_weight = 25 → ((task_fork_wrr HZ s p).tasks p).wrr_weight = 10) ∧
      1 ≤ ((task_fork_wrr HZ s p).tasks p).wrr_weight ∧
      ((task_fork_wrr HZ s p).tasks p).wrr_weight ≤ 20 ∧
      (((task_fork_wrr HZ s p).tasks p).time_slice : Int) =
        BASE_WRR_TIMESLICE HZ * ((task_fork_wrr HZ s p).tasks p).wrr_weight := by
  obtain ⟨hb0, hb1⟩ := BASE_WRR_TIMESLICE_bounds HZ hz0 hz1
  have key : ((task_fork_wrr HZ s p).tasks p).wrr_weight =
        (if 1 ≤ (s.tasks p).wrr_weight ∧ (s.tasks p).wrr_weight ≤ 20
          then (s.tasks p).wrr_weight else 10) ∧
      (((task_fork_wrr HZ s p).tasks p).time_slice) =
        get_wrr_timeslice HZ ((task_fork_wrr HZ s p).tasks p).wrr_weight := by
    unfold task_fork_wrr DEFAULT_WRR_WEIGHT
    by_cases h : (s.tasks p).wrr_weight < 1 ∨ (s.tasks p).wrr_weight > 20
    · have h2 : ¬ (1 ≤ (s.tasks p).wrr_weight ∧ (s.tasks p).wrr_weight ≤ 20) := by omega
      simp [h, h2]
    · have h2 : (1 ≤ (s.tasks p).wrr_weight ∧ (s.tasks p).wrr_weight ≤ 20) := by omega
      simp [h, h2]
  obtain ⟨kw, kt⟩ := key
  have hr : 1 ≤ ((task_fork_wrr HZ s p).tasks p).wrr_weight ∧
      ((task_fork_wrr HZ s p).tasks p).wrr_weight ≤ 20 := by
    rw [kw]; split <;> omega
  refine ⟨kw, ?_, ?_, hr.1, hr.2, ?_⟩
  · intro h0; rw [kw, h0]; simp
  · intro h0; rw [kw, h0]; simp
  · rw [kt]
    apply get_wrr_timeslice_eq
    · exact mul_nonneg hb0 (by omega)
    · nlinarith


@[simp] theorem list_add_tail_tasks (s : State n) (p : Nat) (cpu : Fin n) :
    (list_add_tail s p cpu).tasks = s.tasks := rfl

@[simp] theorem list_del_init_tasks (s : State n) (p : Nat) :
    (list_del_init s p).tasks = s.tasks := rfl

@[simp] theorem list_move_tail_tasks (s : State n) (p : Nat) (cpu : Fin n) :
    (list_move_tail s p cpu).tasks = s.tasks := rfl

@[simp] theorem plist_del_tasks (s : State n) (p : Nat) :
    (plist_del s p).tasks = s.tasks := rfl

@[simp] theorem plist_add_tasks (s : State n) (x : plist_node) (cpu : Fin n) :
    (plist_add s x cpu).tasks = s.tasks := rfl

@[simp] theorem enqueue_plist_task_tasks (s : State n) (cpu : Fin n) (p : Nat) :
    (__enqueue_plist_task s cpu p).tasks = s.tasks := rfl

@[simp] theorem dequeue_plist_task_tasks (s : State n) (cpu : Fin n) (p : Nat) :
    (__dequeue_plist_task s cpu p).tasks = s.tasks := rfl

@[simp] theorem inc_wrr_tasks_tasks (s : State n) (cpu : Fin n) :
    (inc_wrr_tasks s cpu).tasks = s.tasks := rfl

@[simp] theorem dec_wrr_tasks_tasks (s : State n) (cpu : Fin n) :
    (dec_wrr_tasks s cpu).tasks = s.tasks := rfl

@[simp] theorem add_wrr_rq_weight_tasks (s : State n) (cpu : Fin n) (w : Int) :
    (add_wrr_rq_weight s cpu w).tasks = s.tasks := rfl

@[simp] theorem sub_wrr_rq_weight_tasks (s : State n) (cpu : Fin n) (w : Int) :
    (sub_wrr_rq_weight s cpu w).tasks = s.tasks := rfl

/-- Enqueueing writes the slice of the enqueued task and no other task field. -/
theorem enqueue_task_wrr_tasks (HZ : Int) (s : State n) (cpu : Fin n) (p : Nat) :
    (enqueue_task_wrr HZ s cpu p).tasks =
      (s.mod_task p (fun t =>
        { t with time_slice := get_wrr_timeslice HZ (s.tasks p).wrr_weight })).tasks := by
  unfold enqueue_task_wrr __enqueue_wrr_entity
  by_cases h : task_current (add_wrr_rq_weight ((inc_wrr_tasks (list_add_tail s p cpu) cpu).mod_task p
      (fun t => { t with time_slice := get_wrr_timeslice HZ (s.tasks p).wrr_weight })) cpu
        (s.tasks p).wrr_weight) cpu p = false
  · simp only [h, if_true]; rfl
  · simp only [h, if_false]; rfl

/-- Requeueing writes the slice of the requeued task and no other task field. -/
theorem requeue_task_wrr_tasks (HZ : Int) (s : State n) (cpu : Fin n) (p : Nat) :
    (requeue_task_wrr HZ s cpu p).tasks =
      (s.mod_task p (fun t =>
        { t with time_slice := get_wrr_timeslice HZ t.wrr_weight })).tasks := rfl

/-- C10: for a task of weight `w`, right after `enqueue_task_wrr`, and right after a
`task_tick_wrr` that finds the slice exhausted (`time_slice` was 1 before the tick), the
task's `time_slice` equals `BASE_WRR_TIMESLICE * w`, and the weight is still `w`.  The
product fits `unsigned int`, as it does for every weight of the data model. -/
theorem fresh_slice_is_base_times_weight (HZ : Int) (s : State n) (cpu : Fin n) (p : Nat)
    (h0 : 0 ≤ BASE_WRR_TIMESLICE HZ * (s.tasks p).wrr_weight)
    (h1 : BASE_WRR_TIMESLICE HZ * (s.tasks p).wrr_weight < 2 ^ 32) :
    ((((enqueue_task_wrr HZ s cpu p).tasks p).time_slice : Nat) : Int) =
        BASE_WRR_TIMESLICE HZ * (s.tasks p).wrr_weight ∧
      ((enqueue_task_wrr HZ s cpu p).tasks p).wrr_weight = (s.tasks p).wrr_weight ∧
      ((s.tasks p).time_slice = 1 →
        ((((task_tick_wrr HZ s cpu p).tasks p).time_slice : Nat) : Int) =
            BASE_WRR_TIMESLICE HZ * (s.tasks p).wrr_weight ∧
          ((task_tick_wrr HZ s cpu p).tasks p).wrr_weight = (s.tasks p).wrr_weight) := by
  refine ⟨?_, ?_, ?_⟩
  · rw [enqueue_task_wrr_tasks]
    simp only [mod_task_tasks_same]
    exact get_wrr_timeslice_eq HZ _ h0 h1
  · rw [enqueue_task_wrr_tasks]
    simp only [mod_task_tasks_same]
  · intro hts
    have hz : (1 + UINT_MOD - 1) % UINT_MOD = 0 := by decide
    have key : ((task_tick_wrr HZ s cpu p).tasks p).time_slice =
          get_wrr_timeslice HZ (s.tasks p).wrr_weight ∧
        ((task_tick_wrr HZ s cpu p).tasks p).wrr_weight = (s.tasks p).wrr_weight := by
      unfold task_tick_wrr
      simp only [mod_task_tasks_same, update_curr_wrr_time_slice, hts, hz, lt_irrefl, if_false,
        update_curr_wrr_weight]
      split
      · simp [requeue_task_wrr_tasks]
      · simp
    rw [key.1, key.2]
    exact ⟨get_wrr_timeslice_eq HZ _ h0 h1, rfl⟩



/-- The CPUs of `for_each_cpu` come in strictly ascending order. -/
theorem for_each_cpu_sorted (mask : Fin n → Bool) :
    (for_each_cpu mask).Pairwise (fun a b => a < b) :=
  List.Pairwise.filter _ (List.pairwise_lt_finRange n)

theorem mem_for_each_cpu (mask : Fin n → Bool) (c : Fin n) :
    c ∈ for_each_cpu mask ↔ mask c = true := by
  simp [for_each_cpu]

/-- The scan of `find_lowest_wrr_rq` over an ascending list either keeps its start value
(no queue is below it) or stops on the first CPU of least weight. -/
theorem lowest_scan_spec (s : State n) (l : List (Fin n))
    (hl : l.Pairwise (fun a b => a < b)) (acc : Int × Fin n) :
    (l.foldl (lowest_step s) acc = acc ∧ ∀ d ∈ l, acc.1 ≤ (s.rqs d).wrr.weight_sum) ∨
    ((l.foldl (lowest_step s) acc).2 ∈ l ∧
      (l.foldl (lowest_step s) acc).1 = (s.rqs (l.foldl (lowest_step s) acc).2).wrr.weight_sum ∧
      (l.foldl (lowest_step s) acc).1 < acc.1 ∧
      (∀ d ∈ l, (l.foldl (lowest_step s) acc).1 ≤ (s.rqs d).wrr.weight_sum) ∧
      (∀ d ∈ l, (s.rqs d).wrr.weight_sum = (l.foldl (lowest_step s) acc).1 →
        (l.foldl (lowest_step s) acc).2 ≤ d)) := by
  induction l generalizing acc with
  | nil => left; simp
  | cons x xs ih =>
    rw [List.pairwise_cons] at hl
    obtain ⟨hx, hxs⟩ := hl
    rw [List.foldl_cons]
    by_cases hlt : (s.rqs x).wrr.weight_sum < acc.1
    · have hstep : lowest_step s acc x = ((s.rqs x).wrr.weight_sum, x) := by
        simp [lowest_step, hlt]
      rw [hstep]
      rcases ih hxs ((s.rqs x).wrr.weight_sum, x) with ⟨he, hall⟩ | ⟨hm, hw, hlt2, hall, hfirst⟩
      · right
        rw [he]
        refine ⟨by simp, rfl, hlt, ?_, ?_⟩
        · intro d hd
          rcases List.mem_cons.1 hd with rfl | hd
          · exact le_refl _
          · exact hall d hd
        · intro d hd _
          rcases List.mem_cons.1 hd with rfl | hd
          · exact le_refl _
          · exact le_of_lt (hx d hd)
      · right
        simp only at hlt2
        refine ⟨List.mem_cons_of_mem _ hm, hw, lt_trans hlt2 hlt, ?_, ?_⟩
        · intro d hd
          rcases List.mem_cons.1 hd with rfl | hd
          · exact le_of_lt hlt2
          · exact hall d hd
        · intro d hd hd2
          rcases List.mem_cons.1 hd with rfl | hd
          · exact absurd hd2 (ne_of_gt hlt2)
          · exact hfirst d hd hd2
    · have hstep : lowest_step s acc x = acc := by
        simp [lowest_step, hlt]
      rw [hstep]
      have hge : acc.1 ≤ (s.rqs x).wrr.weight_sum := not_lt.1 hlt
      rcases ih hxs acc with ⟨he, hall⟩ | ⟨hm, hw, hlt2, hall, hfirst⟩
      · left
        refine ⟨he, ?_⟩
        intro d hd
        rcases List.mem_cons.1 hd with rfl | hd
        · exact hge
        · exact hall d hd
      · right
        refine ⟨List.mem_cons_of_mem _ hm, hw, hlt2, ?_, ?_⟩
        · intro d hd
          rcases List.mem_cons.1 hd with rfl | hd
          · exact le_of_lt (lt_of_lt_of_le hlt2 hge)
          · exact hall d hd
        · intro d hd hd2
          rcases List.mem_cons.1 hd with rfl | hd
          · exact absurd hd2 (ne_of_gt (lt_of_lt_of_le hlt2 hge))
          · exact hfirst d hd hd2

/-- When some online queue is below `INT_MAX`, `find_lowest_wrr_rq` is the online CPU of
least `weight_sum` with the lowest identity. -/
theorem find_lowest_wrr_rq_spec (s : State n) (this_cpu : Fin n)
    (h : ∃ c, s.cpu_online_mask c = true ∧ (s.rqs c).wrr.weight_sum < INT_MAX) :
    s.cpu_online_mask (find_lowest_wrr_rq s this_cpu) = true ∧
    (∀ d, s.cpu_online_mask d = true →
      (s.rqs (find_lowest_wrr_rq s this_cpu)).wrr.weight_sum ≤ (s.rqs d).wrr.weight_sum) ∧
    (∀ d, s.cpu_online_mask d = true →
      (s.rqs d).wrr.weight_sum = (s.rqs (find_lowest_wrr_rq s this_cpu)).wrr.weight_sum →
      find_lowest_wrr_rq s this_cpu ≤ d) := by
  obtain ⟨c, hc, hcw⟩ := h
  unfold find_lowest_wrr_rq
  rcases lowest_scan_spec s (for_each_cpu s.cpu_online_mask) (for_each_cpu_sorted _)
      (INT_MAX, this_cpu) with ⟨_, hall⟩ | ⟨hm, hw, _, hall, hfirst⟩
  · exact absurd (hall c ((mem_for_each_cpu _ _).2 hc)) (not_le.2 hcw)
  · refine ⟨(mem_for_each_cpu _ _).1 hm, ?_, ?_⟩
    · intro d hd
      rw [← hw]
      exact hall d ((mem_for_each_cpu _ _).2 hd)
    · intro d hd hd2
      rw [← hw] at hd2
      exact hfirst d ((mem_for_each_cpu _ _).2 hd) hd2

/-- C8: for a task whose policy is `SCHED_WRR`, `select_task_rq_wrr` returns an online
CPU whose `weight_sum` is the least over the online CPUs, and among the CPUs of least
`weight_sum` the one of lowest identity; for a task of another policy it returns the
task's current CPU.  Some online queue is below `INT_MAX`, the value the scan starts
from (an `int` above it does not exist, and a queue reaches it only with more than a
hundred million tasks). -/
theorem select_task_rq_wrr_least_loaded (SCHED_WRR : Nat) (s : State n) (this_cpu : Fin n)
    (p : Nat)
    (h : ∃ c, s.cpu_online_mask c = true ∧ (s.rqs c).wrr.weight_sum < INT_MAX) :
    ((s.tasks p).policy = SCHED_WRR →
      ∃ c : Fin n, select_task_rq_wrr SCHED_WRR s this_cpu p = ((c : Nat) : Int) ∧
        s.cpu_online_mask c = true ∧
        (∀ d, s.cpu_online_mask d = true →
          (s.rqs c).wrr.weight_sum ≤ (s.rqs d).wrr.weight_sum) ∧
        (∀ d, s.cpu_online_mask d = true →
          (s.rqs d).wrr.weight_sum = (s.rqs c).wrr.weight_sum → c ≤ d)) ∧
    ((s.tasks p).policy ≠ SCHED_WRR →
      select_task_rq_wrr SCHED_WRR s this_cpu p = (((s.tasks p).cpu : Nat) : Int)) := by
  constructor
  · intro hp
    obtain ⟨h1, h2, h3⟩ := find_lowest_wrr_rq_spec s this_cpu h
    refine ⟨find_lowest_wrr_rq s this_cpu, ?_, h1, h2, h3⟩
    unfold select_task_rq_wrr
    have hne : (((find_lowest_wrr_rq s this_cpu : Fin n) : Nat) : Int) ≠ -1 := by omega
    simp [hp, hne]
  · intro hp
    unfold select_task_rq_wrr
    simp [hp]



/-! ## Run queues after each operation -/

theorem mod_wrr_wrr (s : State n) (cpu c : Fin n) (f : wrr_rq → wrr_rq) :
    ((s.mod_wrr cpu f).rqs c).wrr = if c = cpu then f (s.rqs c).wrr else (s.rqs c).wrr := by
  by_cases h : c = cpu
  · subst h; simp
  · simp [h, mod_wrr_rqs_ne s f h]

@[simp] theorem on_wrr_rq_iff (s : State n) (p : Nat) :
    on_wrr_rq s p = true ↔ ∃ c : Fin n, p ∈ (s.rqs c).wrr.wrr_list := by
  simp [on_wrr_rq]

theorem on_wrr_rq_congr (s t : State n) (p : Nat) (h : s.rqs = t.rqs) :
    on_wrr_rq s p = on_wrr_rq t p := by
  simp [on_wrr_rq, h]

/-- Run list of every CPU after `enqueue_task_wrr`. -/
theorem enqueue_task_wrr_wrr_list (HZ : Int) (s : State n) (cpu c : Fin n) (p : Nat) :
    ((enqueue_task_wrr HZ s cpu p).rqs c).wrr.wrr_list =
      if c = cpu then (s.rqs c).wrr.wrr_list ++ [p] else (s.rqs c).wrr.wrr_list := by
  unfold enqueue_task_wrr __enqueue_wrr_entity
  simp only []
  split <;>
  · by_cases hc : c = cpu
    · subst hc
      simp [__enqueue_plist_task, plist_add, plist_del, add_wrr_rq_weight, inc_wrr_tasks,
        list_add_tail, mod_wrr_wrr, State.mod_task]
    · simp [__enqueue_plist_task, plist_add, plist_del, add_wrr_rq_weight, inc_wrr_tasks,
        list_add_tail, mod_wrr_wrr, State.mod_task, hc]

/-- Weight sum of every CPU after `enqueue_task_wrr`. -/
theorem enqueue_task_wrr_weight_sum (HZ : Int) (s : State n) (cpu c : Fin n) (p : Nat) :
    ((enqueue_task_wrr HZ s cpu p).rqs c).wrr.weight_sum =
      if c = cpu then (s.rqs c).wrr.weight_sum + (s.tasks p).wrr_weight
      else (s.rqs c).wrr.weight_sum := by
  unfold enqueue_task_wrr __enqueue_wrr_entity
  simp only []
  split <;>
  · by_cases hc : c = cpu
    · subst hc
      simp [__enqueue_plist_task, plist_add, plist_del, add_wrr_rq_weight, inc_wrr_tasks,
        list_add_tail, mod_wrr_wrr, State.mod_task]
    · simp [__enqueue_plist_task, plist_add, plist_del, add_wrr_rq_weight, inc_wrr_tasks,
        list_add_tail, mod_wrr_wrr, State.mod_task, hc]

/-- Migratable index of every CPU after `enqueue_task_wrr`. -/
theorem enqueue_task_wrr_movable (HZ : Int) (s : State n) (cpu c : Fin n) (p : Nat) :
    ((enqueue_task_wrr HZ s cpu p).rqs c).wrr.movable_tasks =
      if (s.rqs cpu).curr = p then (s.rqs c).wrr.movable_tasks
      else if c = cpu then
        plist_insert { prio := (s.tasks p).wrr_weight, task := p }
          ((s.rqs c).wrr.movable_tasks.filter (fun x => x.task != p))
      else (s.rqs c).wrr.movable_tasks.filter (fun x => x.task != p) := by
  unfold enqueue_task_wrr __enqueue_wrr_entity
  simp only []
  by_cases hcur : (s.rqs cpu).curr = p
  · by_cases hc : c = cpu
    · subst hc
      simp [task_current, __enqueue_plist_task, plist_add, plist_del, add_wrr_rq_weight,
        inc_wrr_tasks, list_add_tail, mod_wrr_wrr, State.mod_task, hcur]
    · simp [task_current, __enqueue_plist_task, plist_add, plist_del, add_wrr_rq_weight,
        inc_wrr_tasks, list_add_tail, mod_wrr_wrr, State.mod_task, hcur, hc]
  · by_cases hc : c = cpu
    · subst hc
      simp [task_current, __enqueue_plist_task, plist_add, plist_del, add_wrr_rq_weight,
        inc_wrr_tasks, list_add_tail, mod_wrr_wrr, State.mod_task, hcur]
    · simp [task_current, __enqueue_plist_task, plist_add, plist_del, add_wrr_rq_weight,
        inc_wrr_tasks, list_add_tail, mod_wrr_wrr, State.mod_task, hcur, hc]

/-- Run list of every CPU after `dequeue_task_wrr`. -/
theorem dequeue_task_wrr_wrr_list (s : State n) (cpu c : Fin n) (p : Nat) :
    ((dequeue_task_wrr s cpu p).rqs c).wrr.wrr_list =
      if on_wrr_rq s p then (s.rqs c).wrr.wrr_list.filter (fun q => q != p)
      else (s.rqs c).wrr.wrr_list := by
  unfold dequeue_task_wrr __dequeue_wrr_entity
  simp only []
  have h1 : on_wrr_rq (update_curr_wrr s cpu) p = on_wrr_rq s p :=
    on_wrr_rq_congr _ _ _ (update_curr_wrr_rqs s cpu)
  rw [h1]
  by_cases hq : on_wrr_rq s p = true
  · by_cases hc : c = cpu
    · subst hc
      simp [hq, __dequeue_plist_task, plist_del, sub_wrr_rq_weight, dec_wrr_tasks,
        list_del_init, mod_wrr_wrr]
    · simp [hq, __dequeue_plist_task, plist_del, sub_wrr_rq_weight, dec_wrr_tasks,
        list_del_init, mod_wrr_wrr, hc]
  · simp [hq]

/-- Weight sum of every CPU after `dequeue_task_wrr`. -/
theorem dequeue_task_wrr_weight_sum (s : State n) (cpu c : Fin n) (p : Nat) :
    ((dequeue_task_wrr s cpu p).rqs c).wrr.weight_sum =
      if on_wrr_rq s p = true ∧ c = cpu then
        (if (s.rqs c).wrr.weight_sum - (s.tasks p).wrr_weight < 0 then 0
          else (s.rqs c).wrr.weight_sum - (s.tasks p).wrr_weight)
      else (s.rqs c).wrr.weight_sum := by
  unfold dequeue_task_wrr __dequeue_wrr_entity
  simp only []
  have h1 : on_wrr_rq (update_curr_wrr s cpu) p = on_wrr_rq s p :=
    on_wrr_rq_congr _ _ _ (update_curr_wrr_rqs s cpu)
  rw [h1]
  by_cases hq : on_wrr_rq s p = true
  · by_cases hc : c = cpu
    · subst hc
      simp [hq, __dequeue_plist_task, plist_del, sub_wrr_rq_weight, dec_wrr_tasks,
        list_del_init, mod_wrr_wrr]
    · simp [hq, __dequeue_plist_task, plist_del, sub_wrr_rq_weight, dec_wrr_tasks,
        list_del_init, mod_wrr_wrr, hc]
  · simp [hq]

/-- Migratable index of every CPU after `dequeue_task_wrr`. -/
theorem dequeue_task_wrr_movable (s : State n) (cpu c : Fin n) (p : Nat) :
    ((dequeue_task_wrr s cpu p).rqs c).wrr.movable_tasks =
      if on_wrr_rq s p then (s.rqs c).wrr.movable_tasks.filter (fun x => x.task != p)
      else (s.rqs c).wrr.movable_tasks := by
  unfold dequeue_task_wrr __dequeue_wrr_entity
  simp only []
  have h1 : on_wrr_rq (update_curr_wrr s cpu) p = on_wrr_rq s p :=
    on_wrr_rq_congr _ _ _ (update_curr_wrr_rqs s cpu)
  rw [h1]
  by_cases hq : on_wrr_rq s p = true
  · by_cases hc : c = cpu
    · subst hc
      simp [hq, __dequeue_plist_task, plist_del, sub_wrr_rq_weight, dec_wrr_tasks,
        list_del_init, mod_wrr_wrr]
    · simp [hq, __dequeue_plist_task, plist_del, sub_wrr_rq_weight, dec_wrr_tasks,
        list_del_init, mod_wrr_wrr, hc]
  · simp [hq]

/-- The field `curr` of every run queue is the same after `dequeue_task_wrr`. -/
theorem dequeue_task_wrr_curr (s : State n) (cpu c : Fin n) (p : Nat) :
    ((dequeue_task_wrr s cpu p).rqs c).curr = (s.rqs c).curr := by
  unfold dequeue_task_wrr __dequeue_wrr_entity
  simp only []
  by_cases hq : on_wrr_rq (update_curr_wrr s cpu) p = true
  · by_cases hq2 : on_wrr_rq s p = true <;>
    by_cases hc : c = cpu <;>
    simp [hq, __dequeue_plist_task, plist_del, sub_wrr_rq_weight, dec_wrr_tasks,
        list_del_init, State.mod_wrr, Function.update, hc]
  · simp [hq]

/-- Dequeueing changes no weight. -/
theorem dequeue_task_wrr_weight (s : State n) (cpu : Fin n) (p q : Nat) :
    ((dequeue_task_wrr s cpu p).tasks q).wrr_weight = (s.tasks q).wrr_weight := by
  unfold dequeue_task_wrr __dequeue_wrr_entity
  simp only []
  split <;> simp

/-- Dequeueing changes no task's CPU. -/
theorem dequeue_task_wrr_cpu (s : State n) (cpu : Fin n) (p q : Nat) :
    ((dequeue_task_wrr s cpu p).tasks q).cpu = (s.tasks q).cpu := by
  unfold dequeue_task_wrr __dequeue_wrr_entity
  simp only []
  split <;> simp [(update_curr_wrr_task s cpu q).2.2.2.2.1]

/-- Enqueueing changes no weight. -/
theorem enqueue_task_wrr_weight (HZ : Int) (s : State n) (cpu : Fin n) (p q : Nat) :
    ((enqueue_task_wrr HZ s cpu p).tasks q).wrr_weight = (s.tasks q).wrr_weight := by
  rw [enqueue_task_wrr_tasks]
  by_cases h : q = p
  · subst h; simp
  · rw [mod_task_tasks_ne _ _ h]



/-! ## The migration step -/

/-- The loop of `find_and_move_job` returns the task of the first eligible node. -/
theorem find_job_eq_find (s : State n) (lo hi : Fin n) (l : List plist_node) :
    find_job s lo hi l = (l.find? (job_eligible s lo hi)).map (fun x => x.task) := by
  induction l with
  | nil => rfl
  | cons x xs ih =>
    unfold find_job
    rw [List.find?_cons]
    by_cases h1 : (s.tasks x.task).on_cpu = true
    · simp [task_running, h1, job_eligible, ih]
    · by_cases h2 : (s.tasks x.task).cpus_allowed lo = true
      · by_cases h3 : (s.rqs lo).wrr.weight_sum + (s.tasks x.task).wrr_weight <
            (s.rqs hi).wrr.weight_sum - (s.tasks x.task).wrr_weight
        · simp [task_running, cpumask_test_cpu, h1, h2, h3, job_eligible]
          intro h4
          omega
        · simp [task_running, cpumask_test_cpu, h1, h2, h3, job_eligible, ih, not_lt.1 h3]
      · simp [task_running, cpumask_test_cpu, h1, h2, job_eligible, ih]

/-- A task returned by the loop sits in the scanned index and passed the three tests. -/
theorem find_job_some (s : State n) (lo hi : Fin n) (l : List plist_node) (p : Nat)
    (h : find_job s lo hi l = some p) :
    (∃ x ∈ l, x.task = p) ∧ (s.tasks p).on_cpu = false ∧
      (s.tasks p).cpus_allowed lo = true ∧
      (s.rqs lo).wrr.weight_sum + (s.tasks p).wrr_weight <
        (s.rqs hi).wrr.weight_sum - (s.tasks p).wrr_weight := by
  rw [find_job_eq_find] at h
  rcases hx : l.find? (job_eligible s lo hi) with _ | x
  · rw [hx] at h; simp at h
  · rw [hx] at h
    simp only [Option.map_some', Option.some.injEq] at h
    have hmem := List.mem_of_find?_eq_some hx
    have hel := List.find?_some hx
    subst h
    simp only [job_eligible, Bool.and_eq_true, decide_eq_true_eq] at hel
    exact ⟨⟨x, hmem, rfl⟩, by simpa using hel.1.1, hel.1.2, hel.2⟩

/-- The loop finds nothing exactly when no node is eligible. -/
theorem find_job_none_iff (s : State n) (lo hi : Fin n) (l : List plist_node) :
    find_job s lo hi l = none ↔ ∀ x ∈ l, job_eligible s lo hi x = false := by
  rw [find_job_eq_find]
  simp [List.find?_eq_none]

/-- Without an accepted task `find_and_move_job` changes nothing. -/
theorem find_and_move_job_none (HZ : Int) (s : State n) (lo hi : Fin n)
    (h : find_job s lo hi (s.rqs hi).wrr.movable_tasks = none) :
    find_and_move_job HZ s lo hi = s := by
  unfold find_and_move_job
  split
  · rfl
  · rw [h]

/-- With an accepted task `find_and_move_job` dequeues it from the source, retargets it
and enqueues it on the destination. -/
theorem find_and_move_job_some (HZ : Int) (s : State n) (lo hi : Fin n) (p : Nat)
    (hne : lo ≠ hi) (h : find_job s lo hi (s.rqs hi).wrr.movable_tasks = some p) :
    find_and_move_job HZ s lo hi =
      enqueue_task_wrr HZ (set_task_cpu (dequeue_task_wrr s hi p) p lo) lo p := by
  unfold find_and_move_job
  rw [if_neg hne, h]
  rfl

/-- Run lists after a migration of `p`. -/
theorem move_wrr_list (HZ : Int) (s : State n) (lo hi c : Fin n) (p : Nat) :
    ((enqueue_task_wrr HZ (set_task_cpu (dequeue_task_wrr s hi p) p lo) lo p).rqs c).wrr.wrr_list =
      if c = lo then
        (if on_wrr_rq s p then (s.rqs c).wrr.wrr_list.filter (fun q => q != p)
          else (s.rqs c).wrr.wrr_list) ++ [p]
      else if on_wrr_rq s p then (s.rqs c).wrr.wrr_list.filter (fun q => q != p)
      else (s.rqs c).wrr.wrr_list := by
  rw [enqueue_task_wrr_wrr_list]
  simp only [set_task_cpu, mod_task_rqs, dequeue_task_wrr_wrr_list]

/-- Weight sums after a migration of `p` between distinct CPUs. -/
theorem move_weight_sum (HZ : Int) (s : State n) (lo hi c : Fin n) (p : Nat) (hne : lo ≠ hi) :
    ((enqueue_task_wrr HZ (set_task_cpu (dequeue_task_wrr s hi p) p lo) lo p).rqs c).wrr.weight_sum =
      if c = lo then (s.rqs c).wrr.weight_sum + (s.tasks p).wrr_weight
      else if on_wrr_rq s p = true ∧ c = hi then
        (if (s.rqs c).wrr.weight_sum - (s.tasks p).wrr_weight < 0 then 0
          else (s.rqs c).wrr.weight_sum - (s.tasks p).wrr_weight)
      else (s.rqs c).wrr.weight_sum := by
  rw [enqueue_task_wrr_weight_sum]
  simp only [set_task_cpu, mod_task_rqs, dequeue_task_wrr_weight_sum, mod_task_tasks_same,
    dequeue_task_wrr_weight]
  by_cases hc : c = lo
  · subst hc
    simp [hne]
  · simp [hc]



/-- The scan of `find_highest_wrr_rq` ends on its start CPU or on a scanned CPU. -/
theorem highest_scan_mem (s : State n) (l : List (Fin n)) (acc : Int × Fin n) :
    (l.foldl (highest_step s) acc).2 = acc.2 ∨ (l.foldl (highest_step s) acc).2 ∈ l := by
  induction l generalizing acc with
  | nil => left; rfl
  | cons x xs ih =>
    rw [List.foldl_cons]
    rcases ih (highest_step s acc x) with h | h
    · by_cases hgt : (s.rqs x).wrr.weight_sum > acc.1
      · right
        rw [h]
        simp [highest_step, hgt]
      · left
        rw [h]
        simp [highest_step, hgt]
    · right
      exact List.mem_cons_of_mem _ h

/-- The CPU chosen by `find_highest_wrr_rq` is the current CPU or an online CPU. -/
theorem find_highest_wrr_rq_mem (s : State n) (this_cpu : Fin n) :
    find_highest_wrr_rq s this_cpu = this_cpu ∨
      s.cpu_online_mask (find_highest_wrr_rq s this_cpu) = true := by
  unfold find_highest_wrr_rq
  rcases highest_scan_mem s (for_each_cpu s.cpu_online_mask) (0, this_cpu) with h | h
  · left; exact h
  · right; exact (mem_for_each_cpu _ _).1 h

/-- The CPU chosen by `find_lowest_wrr_rq` is the current CPU or an online CPU. -/
theorem find_lowest_wrr_rq_mem (s : State n) (this_cpu : Fin n) :
    find_lowest_wrr_rq s this_cpu = this_cpu ∨
      s.cpu_online_mask (find_lowest_wrr_rq s this_cpu) = true := by
  unfold find_lowest_wrr_rq
  rcases lowest_scan_spec s (for_each_cpu s.cpu_online_mask) (for_each_cpu_sorted _)
      (INT_MAX, this_cpu) with ⟨h, _⟩ | ⟨h, _⟩
  · left; rw [h]
  · right; exact (mem_for_each_cpu _ _).1 h

/-- C2: whenever `find_and_move_job` migrates a task between two distinct CPUs, the
destination queue's `weight_sum` after the move is strictly less than the source queue's
`weight_sum` after the move.  The queue state is any state in which every task of the
source's migratable index is linked on a run list or has a non-negative weight (both
are true of every state the scheduler builds). -/
theorem migration_keeps_destination_lighter (HZ : Int) (s : State n) (lo hi : Fin n) (p : Nat)
    (hne : lo ≠ hi)
    (hidx : ∀ x ∈ (s.rqs hi).wrr.movable_tasks,
      on_wrr_rq s x.task = true ∨ 0 ≤ (s.tasks x.task).wrr_weight)
    (hmove : find_job s lo hi (s.rqs hi).wrr.movable_tasks = some p) :
    ((find_and_move_job HZ s lo hi).rqs lo).wrr.weight_sum <
      ((find_and_move_job HZ s lo hi).rqs hi).wrr.weight_sum := by
  obtain ⟨⟨x, hx, hxp⟩, _, _, hlt⟩ := find_job_some s lo hi _ p hmove
  have hp := hidx x hx
  rw [hxp] at hp
  rw [find_and_move_job_some HZ s lo hi p hne hmove, move_weight_sum HZ s lo hi lo p hne,
    move_weight_sum HZ s lo hi hi p hne]
  have hne2 : hi ≠ lo := fun h => hne h.symm
  simp only [if_true, if_neg hne2, and_true]
  by_cases hq : on_wrr_rq s p = true
  · rw [if_pos hq]
    split <;> omega
  · rw [if_neg hq]
    rcases hp with hp | hp
    · exact absurd hp hq
    · omega

/-- C3: a task that `find_and_move_job` picks for migration has `lowest_cpu` in its
`cpus_allowed`, and a task whose affinity excludes `lowest_cpu` is never moved: it is on
the same run lists before and after, and its CPU is unchanged. -/
theorem migration_respects_affinity (HZ : Int) (s : State n) (lo hi : Fin n) (q : Nat)
    (hq : (s.tasks q).cpus_allowed lo = false) :
    find_job s lo hi (s.rqs hi).wrr.movable_tasks ≠ some q ∧
    (∀ p, find_job s lo hi (s.rqs hi).wrr.movable_tasks = some p →
      (s.tasks p).cpus_allowed lo = true) ∧
    (∀ c, q ∈ ((find_and_move_job HZ s lo hi).rqs c).wrr.wrr_list ↔
      q ∈ (s.rqs c).wrr.wrr_list) ∧
    ((find_and_move_job HZ s lo hi).tasks q).cpu = (s.tasks q).cpu := by
  have hnot : find_job s lo hi (s.rqs hi).wrr.movable_tasks ≠ some q := by
    intro h
    have := (find_job_some s lo hi _ q h).2.2.1
    rw [hq] at this
    exact Bool.false_ne_true this
  have hall : ∀ p, find_job s lo hi (s.rqs hi).wrr.movable_tasks = some p →
      (s.tasks p).cpus_allowed lo = true := fun p h => (find_job_some s lo hi _ p h).2.2.1
  refine ⟨hnot, hall, ?_⟩
  by_cases hne : lo = hi
  · have : find_and_move_job HZ s lo hi = s := by
      unfold find_and_move_job; rw [if_pos hne]
    rw [this]
    exact ⟨fun _ => Iff.rfl, rfl⟩
  · rcases hf : find_job s lo hi (s.rqs hi).wrr.movable_tasks with _ | p
    · rw [find_and_move_job_none HZ s lo hi hf]
      exact ⟨fun _ => Iff.rfl, rfl⟩
    · have hqp : q ≠ p := by
        rintro rfl
        exact hnot hf
      rw [find_and_move_job_some HZ s lo hi p hne hf]
      constructor
      · intro c
        rw [move_wrr_list]
        by_cases hc : c = lo <;> by_cases ho : on_wrr_rq s p = true <;>
          simp [hc, ho, hqp, List.mem_filter]
      · rw [enqueue_task_wrr_tasks, mod_task_tasks_ne _ _ hqp]
        simp only [set_task_cpu]
        rw [mod_task_tasks_ne _ _ hqp]
        exact dequeue_task_wrr_cpu s hi p q

/-- C6: for tasks of weight in [1,20] that are linked on a run list and a destination
whose `weight_sum` is not negative, a migration by `find_and_move_job` leaves the
difference source minus destination non-negative and strictly smaller than before, and
leaves the sum of the two `weight_sum` values unchanged. -/
theorem migration_narrows_imbalance (HZ : Int) (s : State n) (lo hi : Fin n) (p : Nat)
    (hne : lo ≠ hi)
    (hw : ∀ x ∈ (s.rqs hi).wrr.movable_tasks,
      1 ≤ (s.tasks x.task).wrr_weight ∧ (s.tasks x.task).wrr_weight ≤ 20)
    (hon : ∀ x ∈ (s.rqs hi).wrr.movable_tasks, on_wrr_rq s x.task = true)
    (hlo : 0 ≤ (s.rqs lo).wrr.weight_sum)
    (hmove : find_job s lo hi (s.rqs hi).wrr.movable_tasks = some p) :
    0 ≤ ((find_and_move_job HZ s lo hi).rqs hi).wrr.weight_sum -
        ((find_and_move_job HZ s lo hi).rqs lo).wrr.weight_sum ∧
    ((find_and_move_job HZ s lo hi).rqs hi).wrr.weight_sum -
        ((find_and_move_job HZ s lo hi).rqs lo).wrr.weight_sum <
      (s.rqs hi).wrr.weight_sum - (s.rqs lo).wrr.weight_sum ∧
    ((find_and_move_job HZ s lo hi).rqs hi).wrr.weight_sum +
        ((find_and_move_job HZ s lo hi).rqs lo).wrr.weight_sum =
      (s.rqs hi).wrr.weight_sum + (s.rqs lo).wrr.weight_sum := by
  obtain ⟨⟨x, hx, hxp⟩, _, _, hlt⟩ := find_job_some s lo hi _ p hmove
  have hwp := hw x hx
  have hq := hon x hx
  rw [hxp] at hwp hq
  rw [find_and_move_job_some HZ s lo hi p hne hmove, move_weight_sum HZ s lo hi lo p hne,
    move_weight_sum HZ s lo hi hi p hne]
  have hne2 : hi ≠ lo := fun h => hne h.symm
  simp only [if_true, if_neg hne2, and_true, if_pos hq]
  have hnc : ¬ ((s.rqs hi).wrr.weight_sum - (s.tasks p).wrr_weight < 0) := by omega
  rw [if_neg hnc]
  omega

/-- C4: when every online CPU has the same `weight_sum` (whatever the common value, zero
included), one run of `do_sched_wrr_load_timer` on any online CPU leaves the whole state,
and so every queue's task list, unchanged.  Weights of migratable tasks are not negative,
as in the data model. -/
theorem balanced_queues_no_migration (HZ : Int) (s : State n) (this_cpu : Fin n)
    (hthis : s.cpu_online_mask this_cpu = true)
    (heq : ∀ c d, s.cpu_online_mask c = true → s.cpu_online_mask d = true →
      (s.rqs c).wrr.weight_sum = (s.rqs d).wrr.weight_sum)
    (hw : ∀ c, ∀ x ∈ (s.rqs c).wrr.movable_tasks, 0 ≤ (s.tasks x.task).wrr_weight) :
    do_sched_wrr_load_timer HZ s this_cpu = s := by
  unfold do_sched_wrr_load_timer
  simp only []
  split
  · rfl
  · have hlo : s.cpu_online_mask (find_lowest_wrr_rq s this_cpu) = true := by
      rcases find_lowest_wrr_rq_mem s this_cpu with h | h
      · rw [h]; exact hthis
      · exact h
    have hhi : s.cpu_online_mask (find_highest_wrr_rq s this_cpu) = true := by
      rcases find_highest_wrr_rq_mem s this_cpu with h | h
      · rw [h]; exact hthis
      · exact h
    apply find_and_move_job_none
    rw [find_job_none_iff]
    intro x hx
    have h0 := hw _ x hx
    have h1 := heq _ _ hlo hhi
    simp only [job_eligible, Bool.and_eq_false_imp, Bool.and_eq_true, decide_eq_false_iff_not,
      not_lt]
    intro _
    omega



/-! ## The weight-sum invariant -/

/-- Removing a task that occurs once lowers the sum of the weights by its weight. -/
theorem sum_filter_ne (f : Nat → Int) (l : List Nat) (p : Nat) (hn : l.Nodup) (hp : p ∈ l) :
    (l.map f).sum = ((l.filter (fun q => q != p)).map f).sum + f p := by
  induction l with
  | nil => simp at hp
  | cons x xs ih =>
    rw [List.nodup_cons] at hn
    by_cases hx : x = p
    · subst hx
      have hfil : xs.filter (fun q => q != x) = xs := by
        rw [List.filter_eq_self]
        intro a ha
        have : a ≠ x := fun h => hn.1 (h ▸ ha)
        simpa using this
      simp [hfil, add_comm]
    · have hp2 : p ∈ xs := by
        rcases List.mem_cons.1 hp with h | h
        · exact absurd h.symm hx
        · exact h
      have := ih hn.2 hp2
      simp [hx, this, add_assoc]

/-- Filtering out a task that is not on the list changes nothing. -/
theorem filter_ne_of_not_mem (l : List Nat) (p : Nat) (hp : p ∉ l) :
    l.filter (fun q => q != p) = l := by
  rw [List.filter_eq_self]
  intro a ha
  have : a ≠ p := fun h => hp (h ▸ ha)
  simpa using this

theorem mem_plist_insert (x node : plist_node) (l : List plist_node) :
    x ∈ plist_insert node l ↔ x = node ∨ x ∈ l := by
  induction l with
  | nil => simp [plist_insert]
  | cons y ys ih =>
    unfold plist_insert
    split
    · simp
    · simp only [List.mem_cons, ih]
      tauto

/-- Consistency depends only on the run queues and the weights. -/
theorem queues_wf_congr (s t : State n) (hr : t.rqs = s.rqs)
    (hw : ∀ p, (t.tasks p).wrr_weight = (s.tasks p).wrr_weight) (h : queues_wf s) :
    queues_wf t := by
  refine ⟨?_, ?_, ?_, ?_, ?_⟩
  · intro p; rw [hw]; exact h.weight_nonneg p
  · intro c; rw [hr]; exact h.nodup c
  · intro c d q; rw [hr]; exact h.one_list c d q
  · intro c; rw [hr]; exact h.index_queued c
  · intro c
    unfold list_weight
    rw [hr, h.weight_sum_eq c]
    unfold list_weight
    congr 1
    apply List.map_congr_left
    intro p _
    exact (hw p).symm

/-- Enqueueing a task that is on no run list keeps the queues consistent. -/
theorem queues_wf_enqueue (HZ : Int) (s : State n) (cpu : Fin n) (p : Nat)
    (h : queues_wf s) (hp : on_wrr_rq s p = false) :
    queues_wf (enqueue_task_wrr HZ s cpu p) := by
  have hnot : ∀ c, p ∉ (s.rqs c).wrr.wrr_list := by
    intro c hc
    have : on_wrr_rq s p = true := (on_wrr_rq_iff s p).2 ⟨c, hc⟩
    rw [hp] at this
    exact Bool.false_ne_true this
  have hmem : ∀ c q, q ∈ ((enqueue_task_wrr HZ s cpu p).rqs c).wrr.wrr_list ↔
      q ∈ (s.rqs c).wrr.wrr_list ∨ (c = cpu ∧ q = p) := by
    intro c q
    rw [enqueue_task_wrr_wrr_list]
    by_cases hc : c = cpu <;> simp [hc]
  refine ⟨?_, ?_, ?_, ?_, ?_⟩
  · intro q; rw [enqueue_task_wrr_weight]; exact h.weight_nonneg q
  · intro c
    rw [enqueue_task_wrr_wrr_list]
    by_cases hc : c = cpu
    · rw [if_pos hc]
      apply List.Nodup.append (h.nodup c) (List.nodup_singleton p)
      intro a ha hb
      rw [List.mem_singleton] at hb
      exact hnot c (hb ▸ ha)
    · rw [if_neg hc]; exact h.nodup c
  · intro c d q hc hd
    rw [hmem] at hc hd
    rcases hc with hc | ⟨hc, hq⟩
    · rcases hd with hd | ⟨_, hq⟩
      · exact h.one_list c d q hc hd
      · exact absurd (hq ▸ hc) (hnot c)
    · rcases hd with hd | ⟨hd, _⟩
      · exact absurd (hq ▸ hd) (hnot d)
      · rw [hc, hd]
  · intro c x hx
    rw [hmem]
    rw [enqueue_task_wrr_movable] at hx
    by_cases hcur : (s.rqs cpu).curr = p
    · rw [if_pos hcur] at hx
      exact Or.inl (h.index_queued c x hx)
    · rw [if_neg hcur] at hx
      by_cases hc : c = cpu
      · rw [if_pos hc, mem_plist_insert] at hx
        rcases hx with hx | hx
        · right; exact ⟨hc, by rw [hx]⟩
        · left; exact h.index_queued c x (List.mem_filter.1 hx).1
      · rw [if_neg hc] at hx
        left; exact h.index_queued c x (List.mem_filter.1 hx).1
  · intro c
    unfold list_weight
    rw [enqueue_task_wrr_weight_sum, enqueue_task_wrr_wrr_list]
    have hmap : ∀ l : List Nat,
        l.map (fun q => ((enqueue_task_wrr HZ s cpu p).tasks q).wrr_weight) =
          l.map (fun q => (s.tasks q).wrr_weight) := by
      intro l
      apply List.map_congr_left
      intro q _
      exact enqueue_task_wrr_weight HZ s cpu p q
    rw [hmap]
    have := h.weight_sum_eq c
    unfold list_weight at this
    by_cases hc : c = cpu
    · simp [hc, ← this]
      rw [← hc]; exact this
    · simp [hc, this]



/-- After `dequeue_task_wrr` the task is on no run list. -/
theorem dequeue_task_wrr_not_on_rq (s : State n) (cpu : Fin n) (p : Nat) :
    on_wrr_rq (dequeue_task_wrr s cpu p) p = false := by
  rw [Bool.eq_false_iff]
  intro hon
  obtain ⟨c, hc⟩ := (on_wrr_rq_iff _ _).1 hon
  rw [dequeue_task_wrr_wrr_list] at hc
  by_cases hq : on_wrr_rq s p = true
  · rw [if_pos hq] at hc
    simp at hc
  · rw [if_neg hq] at hc
    exact hq ((on_wrr_rq_iff _ _).2 ⟨c, hc⟩)

/-- Dequeueing a task from the run queue it is on keeps the queues consistent. -/
theorem queues_wf_dequeue (s : State n) (cpu : Fin n) (p : Nat)
    (h : queues_wf s) (hp : on_wrr_rq s p = true → p ∈ (s.rqs cpu).wrr.wrr_list) :
    queues_wf (dequeue_task_wrr s cpu p) := by
  by_cases hq : on_wrr_rq s p = true
  · have hpc := hp hq
    have hmap : ∀ l : List Nat,
        l.map (fun q => ((dequeue_task_wrr s cpu p).tasks q).wrr_weight) =
          l.map (fun q => (s.tasks q).wrr_weight) := by
      intro l
      apply List.map_congr_left
      intro q _
      exact dequeue_task_wrr_weight s cpu p q
    refine ⟨?_, ?_, ?_, ?_, ?_⟩
    · intro q; rw [dequeue_task_wrr_weight]; exact h.weight_nonneg q
    · intro c
      rw [dequeue_task_wrr_wrr_list, if_pos hq]
      exact (h.nodup c).filter _
    · intro c d q hc hd
      rw [dequeue_task_wrr_wrr_list, if_pos hq] at hc hd
      exact h.one_list c d q (List.mem_filter.1 hc).1 (List.mem_filter.1 hd).1
    · intro c x hx
      rw [dequeue_task_wrr_movable, if_pos hq] at hx
      rw [dequeue_task_wrr_wrr_list, if_pos hq]
      obtain ⟨hx1, hx2⟩ := List.mem_filter.1 hx
      exact List.mem_filter.2 ⟨h.index_queued c x hx1, hx2⟩
    · intro c
      unfold list_weight
      rw [dequeue_task_wrr_weight_sum, dequeue_task_wrr_wrr_list, if_pos hq, hmap]
      have hsum := h.weight_sum_eq c
      unfold list_weight at hsum
      by_cases hc : c = cpu
      · subst hc
        have hsplit := sum_filter_ne (fun q => (s.tasks q).wrr_weight) _ p (h.nodup c) hpc
        simp only [] at hsplit
        have hnn : 0 ≤ (((s.rqs c).wrr.wrr_list.filter (fun q => q != p)).map
            (fun q => (s.tasks q).wrr_weight)).sum := by
          apply List.sum_nonneg
          intro x hx
          obtain ⟨q, _, rfl⟩ := List.mem_map.1 hx
          exact h.weight_nonneg q
        simp only [hq, and_self, if_true]
        split <;> omega
      · have hnp : p ∉ (s.rqs c).wrr.wrr_list := fun hm => hc (h.one_list c cpu p hm hpc)
        rw [filter_ne_of_not_mem _ _ hnp]
        simp [hc, hsum]
  · have hrq : (dequeue_task_wrr s cpu p).rqs = s.rqs := by
      unfold dequeue_task_wrr
      have h1 : on_wrr_rq (update_curr_wrr s cpu) p = on_wrr_rq s p :=
        on_wrr_rq_congr _ _ _ (update_curr_wrr_rqs s cpu)
      simp only [h1, hq, if_false, update_curr_wrr_rqs]
      simp
    exact queues_wf_congr s _ hrq (dequeue_task_wrr_weight s cpu p) h

/-- A migration step keeps the queues consistent. -/
theorem queues_wf_migrate (HZ : Int) (s : State n) (lo hi : Fin n) (h : queues_wf s) :
    queues_wf (find_and_move_job HZ s lo hi) := by
  by_cases hne : lo = hi
  · have : find_and_move_job HZ s lo hi = s := by
      unfold find_and_move_job; rw [if_pos hne]
    rw [this]; exact h
  · rcases hf : find_job s lo hi (s.rqs hi).wrr.movable_tasks with _ | p
    · rw [find_and_move_job_none HZ s lo hi hf]; exact h
    · rw [find_and_move_job_some HZ s lo hi p hne hf]
      obtain ⟨⟨x, hx, hxp⟩, _⟩ := find_job_some s lo hi _ p hf
      have hpl : p ∈ (s.rqs hi).wrr.wrr_list := hxp ▸ h.index_queued hi x hx
      have h1 := queues_wf_dequeue s hi p h (fun _ => hpl)
      have h2 : queues_wf (set_task_cpu (dequeue_task_wrr s hi p) p lo) := by
        refine queues_wf_congr (dequeue_task_wrr s hi p) _ rfl ?_ h1
        intro q
        by_cases hqp : q = p
        · subst hqp; simp [set_task_cpu]
        · simp [set_task_cpu, mod_task_tasks_ne _ _ hqp]
      apply queues_wf_enqueue HZ _ lo p h2
      rw [on_wrr_rq_congr (set_task_cpu (dequeue_task_wrr s hi p) p lo)
        (dequeue_task_wrr s hi p) p rfl]
      exact dequeue_task_wrr_not_on_rq s hi p

/-- One admissible operation keeps the queues consistent. -/
theorem queues_wf_apply (HZ : Int) (s : State n) (op : Op n) (h : queues_wf s)
    (ha : op.admissible s = true) : queues_wf (op.apply HZ s) := by
  cases op with
  | enqueue cpu p =>
    simp only [Op.admissible, Bool.not_eq_true'] at ha
    exact queues_wf_enqueue HZ s cpu p h ha
  | dequeue cpu p =>
    simp only [Op.admissible, Bool.or_eq_true, Bool.not_eq_true', decide_eq_true_eq] at ha
    apply queues_wf_dequeue s cpu p h
    intro hq
    rcases ha with ha | ha
    · rw [ha] at hq; exact absurd hq Bool.false_ne_true
    · exact ha
  | migrate lo hi => exact queues_wf_migrate HZ s lo hi h

/-- An admissible sequence of operations keeps the queues consistent. -/
theorem queues_wf_run (HZ : Int) (ops : List (Op n)) (s : State n) (h : queues_wf s)
    (ha : admissible_run HZ s ops = true) : queues_wf (run HZ s ops) := by
  induction ops generalizing s with
  | nil => exact h
  | cons op ops ih =>
    simp only [admissible_run, Bool.and_eq_true] at ha
    exact ih _ (queues_wf_apply HZ s op h ha.1) ha.2

/-- C1: starting from empty run queues with `weight_sum = 0`, after any sequence of
`enqueue_task_wrr` (of a task that is not queued), `dequeue_task_wrr` (on the run queue
the task is on) and migrations by `find_and_move_job`, every queue's `weight_sum` equals
the sum of `wrr_weight` over the tasks on its `wrr_list`.  Weights are not negative, as in
the data model. -/
theorem weight_sum_invariant (HZ : Int) (s : State n) (ops : List (Op n))
    (hempty : ∀ c, (s.rqs c).wrr.wrr_list = [] ∧ (s.rqs c).wrr.weight_sum = 0 ∧
      (s.rqs c).wrr.movable_tasks = [])
    (hw : ∀ p, 0 ≤ (s.tasks p).wrr_weight)
    (ha : admissible_run HZ s ops = true) :
    ∀ c, ((run HZ s ops).rqs c).wrr.weight_sum =
      (((run HZ s ops).rqs c).wrr.wrr_list.map
        (fun p => ((run HZ s ops).tasks p).wrr_weight)).sum := by
  have h0 : queues_wf s := by
    refine ⟨hw, ?_, ?_, ?_, ?_⟩
    · intro c; rw [(hempty c).1]; exact List.nodup_nil
    · intro c d q hc; rw [(hempty c).1] at hc; simp at hc
    · intro c x hx; rw [(hempty c).2.2] at hx; simp at hx
    · intro c; unfold list_weight; rw [(hempty c).1, (hempty c).2.1]; rfl
  exact (queues_wf_run HZ ops s h0 ha).weight_sum_eq



/-- Migration writes the CPU of the moved task and of no other task. -/
theorem move_cpu (HZ : Int) (s : State n) (lo hi : Fin n) (p q : Nat) :
    ((enqueue_task_wrr HZ (set_task_cpu (dequeue_task_wrr s hi p) p lo) lo p).tasks q).cpu =
      if q = p then lo else (s.tasks q).cpu := by
  rw [enqueue_task_wrr_tasks]
  by_cases hqp : q = p
  · subst hqp
    simp [set_task_cpu]
  · rw [mod_task_tasks_ne _ _ hqp, if_neg hqp]
    simp only [set_task_cpu]
    rw [mod_task_tasks_ne _ _ hqp]
    exact dequeue_task_wrr_cpu s hi p q

/-- C7: one run of `do_sched_wrr_load_timer` moves at most one task.  Either the state
(and so every `wrr_list`) is unchanged, or one task `p` of `highest_cpu`'s `wrr_list` is
taken off that list, gets `lowest_cpu` as its CPU and is appended at the tail of
`lowest_cpu`'s `wrr_list`; the other tasks stay on their lists in the same order and
keep their CPU.  The queues are consistent: nodes of a migratable index are on the run
list of the same CPU, and a task is on at most one run list. -/
theorem balancer_moves_at_most_one_task (HZ : Int) (s : State n) (this_cpu : Fin n)
    (hidx : ∀ c, ∀ x ∈ (s.rqs c).wrr.movable_tasks, x.task ∈ (s.rqs c).wrr.wrr_list)
    (hone : ∀ c d q, q ∈ (s.rqs c).wrr.wrr_list → q ∈ (s.rqs d).wrr.wrr_list → c = d) :
    do_sched_wrr_load_timer HZ s this_cpu = s ∨
    ∃ p, find_lowest_wrr_rq s this_cpu ≠ find_highest_wrr_rq s this_cpu ∧
      p ∈ (s.rqs (find_highest_wrr_rq s this_cpu)).wrr.wrr_list ∧
      ((do_sched_wrr_load_timer HZ s this_cpu).rqs (find_highest_wrr_rq s this_cpu)).wrr.wrr_list =
        (s.rqs (find_highest_wrr_rq s this_cpu)).wrr.wrr_list.filter (fun q => q != p) ∧
      ((do_sched_wrr_load_timer HZ s this_cpu).rqs (find_lowest_wrr_rq s this_cpu)).wrr.wrr_list =
        (s.rqs (find_lowest_wrr_rq s this_cpu)).wrr.wrr_list ++ [p] ∧
      (∀ c, c ≠ find_lowest_wrr_rq s this_cpu → c ≠ find_highest_wrr_rq s this_cpu →
        ((do_sched_wrr_load_timer HZ s this_cpu).rqs c).wrr.wrr_list = (s.rqs c).wrr.wrr_list) ∧
      ((do_sched_wrr_load_timer HZ s this_cpu).tasks p).cpu = find_lowest_wrr_rq s this_cpu ∧
      (∀ q, q ≠ p →
        ((do_sched_wrr_load_timer HZ s this_cpu).tasks q).cpu = (s.tasks q).cpu) := by
  unfold do_sched_wrr_load_timer
  simp only []
  generalize find_lowest_wrr_rq s this_cpu = lo
  generalize find_highest_wrr_rq s this_cpu = hi
  by_cases hne : lo = hi
  · left; rw [if_pos hne]
  · rw [if_neg hne]
    rcases hf : find_job s lo hi (s.rqs hi).wrr.movable_tasks with _ | p
    · left; exact find_and_move_job_none HZ s lo hi hf
    · right
      obtain ⟨⟨x, hx, hxp⟩, _⟩ := find_job_some s lo hi _ p hf
      have hpl : p ∈ (s.rqs hi).wrr.wrr_list := hxp ▸ hidx hi x hx
      have hon : on_wrr_rq s p = true := (on_wrr_rq_iff s p).2 ⟨hi, hpl⟩
      have hnot : ∀ c, c ≠ hi → p ∉ (s.rqs c).wrr.wrr_list :=
        fun c hc hm => hc (hone c hi p hm hpl)
      have hne2 : hi ≠ lo := fun h => hne h.symm
      refine ⟨p, hne, hpl, ?_, ?_, ?_, ?_, ?_⟩
      · rw [find_and_move_job_some HZ s lo hi p hne hf, move_wrr_list, if_neg hne2, if_pos hon]
      · rw [find_and_move_job_some HZ s lo hi p hne hf, move_wrr_list, if_pos rfl, if_pos hon,
          filter_ne_of_not_mem _ _ (hnot lo hne)]
      · intro c hc1 hc2
        rw [find_and_move_job_some HZ s lo hi p hne hf, move_wrr_list, if_neg hc1, if_pos hon,
          filter_ne_of_not_mem _ _ (hnot c hc2)]
      · rw [find_and_move_job_some HZ s lo hi p hne hf, move_cpu, if_pos rfl]
      · intro q hq
        rw [find_and_move_job_some HZ s lo hi p hne hf, move_cpu, if_neg hq]

/-- C5: CPU0 holds three distinct tasks `a`, `b`, `c` of weight 10 (`weight_sum = 30`), at
most one of them running and the others in its migratable index, all allowed on CPU1;
CPU1 is empty (`weight_sum = 0`); both CPUs are online.  One run of
`do_sched_wrr_load_timer`, on either CPU, moves exactly one of the three tasks, of weight
10, to CPU1 and leaves `weight_sum = 20` on CPU0 and `weight_sum = 10` on CPU1. -/
theorem three_tasks_one_migration (HZ : Int) (s : State 2) (this_cpu : Fin 2) (a b c : Nat)
    (hab : a ≠ b) (hac : a ≠ c) (hbc : b ≠ c)
    (honline : ∀ k, s.cpu_online_mask k = true)
    (hlist0 : (s.rqs 0).wrr.wrr_list = [a, b, c])
    (hweight : ∀ t ∈ [a, b, c], (s.tasks t).wrr_weight = 10)
    (hsum0 : (s.rqs 0).wrr.weight_sum = 30)
    (hlist1 : (s.rqs 1).wrr.wrr_list = [])
    (hsum1 : (s.rqs 1).wrr.weight_sum = 0)
    (hrun : ([a, b, c].filter (fun t => (s.tasks t).on_cpu)).length ≤ 1)
    (hidx : ∀ x ∈ (s.rqs 0).wrr.movable_tasks, x.task ∈ [a, b, c])
    (hmov : ∀ t ∈ [a, b, c], (s.tasks t).on_cpu = false →
      ∃ x ∈ (s.rqs 0).wrr.movable_tasks, x.task = t)
    (hallowed : ∀ t ∈ [a, b, c], (s.tasks t).cpus_allowed 1 = true) :
    ∃ p ∈ [a, b, c],
      ((do_sched_wrr_load_timer HZ s this_cpu).rqs 0).wrr.wrr_list =
        [a, b, c].filter (fun q => q != p) ∧
      ((do_sched_wrr_load_timer HZ s this_cpu).rqs 0).wrr.wrr_list.length = 2 ∧
      ((do_sched_wrr_load_timer HZ s this_cpu).rqs 1).wrr.wrr_list = [p] ∧
      ((do_sched_wrr_load_timer HZ s this_cpu).tasks p).wrr_weight = 10 ∧
      ((do_sched_wrr_load_timer HZ s this_cpu).tasks p).cpu = 1 ∧
      ((do_sched_wrr_load_timer HZ s this_cpu).rqs 0).wrr.weight_sum = 20 ∧
      ((do_sched_wrr_load_timer HZ s this_cpu).rqs 1).wrr.weight_sum = 10 := by
  have hfr : for_each_cpu s.cpu_online_mask = [0, 1] := by
    have : List.finRange 2 = [0, 1] := by decide
    simp [for_each_cpu, this, honline]
  have hlo : find_lowest_wrr_rq s this_cpu = 1 := by
    simp [find_lowest_wrr_rq, hfr, lowest_step, hsum0, hsum1, INT_MAX]
  have hhi : find_highest_wrr_rq s this_cpu = 0 := by
    simp [find_highest_wrr_rq, hfr, highest_step, hsum0, hsum1]
  have hne : (1 : Fin 2) ≠ 0 := by decide
  have hdo : do_sched_wrr_load_timer HZ s this_cpu = find_and_move_job HZ s 1 0 := by
    unfold do_sched_wrr_load_timer
    simp only [hlo, hhi, if_neg hne]
  -- a task that is not running
  have hfree : ∃ t ∈ [a, b, c], (s.tasks t).on_cpu = false := by
    by_cases ha : (s.tasks a).on_cpu = true
    · by_cases hb : (s.tasks b).on_cpu = true
      · simp [List.filter_cons, ha, hb] at hrun
      · exact ⟨b, by simp, by simpa using hb⟩
    · exact ⟨a, by simp, by simpa using ha⟩
  obtain ⟨t, ht, htfree⟩ := hfree
  obtain ⟨x, hx, hxt⟩ := hmov t ht htfree
  rcases hf : find_job s 1 0 (s.rqs 0).wrr.movable_tasks with _ | p
  · have hnone := (find_job_none_iff s 1 0 _).1 hf x hx
    have hwt := hweight t ht
    have hat := hallowed t ht
    simp [job_eligible, hxt, htfree, hat, hwt, hsum0, hsum1] at hnone
  · obtain ⟨⟨y, hy, hyp⟩, _⟩ := find_job_some s 1 0 _ p hf
    have hp : p ∈ [a, b, c] := hyp ▸ hidx y hy
    have hpl : p ∈ (s.rqs 0).wrr.wrr_list := by rw [hlist0]; exact hp
    have hon : on_wrr_rq s p = true := (on_wrr_rq_iff s p).2 ⟨0, hpl⟩
    have hwp := hweight p hp
    have hl0 : ((do_sched_wrr_load_timer HZ s this_cpu).rqs 0).wrr.wrr_list =
        [a, b, c].filter (fun q => q != p) := by
      rw [hdo, find_and_move_job_some HZ s 1 0 p hne hf, move_wrr_list, if_neg hne.symm,
        if_pos hon, hlist0]
    refine ⟨p, hp, hl0, ?_, ?_, ?_, ?_, ?_, ?_⟩
    · rw [hl0]
      simp only [List.mem_cons, List.mem_singleton, List.not_mem_nil, or_false] at hp
      rcases hp with rfl | rfl | rfl
      · simp [List.filter_cons, hab.symm, hac.symm]
      · simp [List.filter_cons, hab, hbc.symm]
      · simp [List.filter_cons, hac, hbc]
    · rw [hdo, find_and_move_job_some HZ s 1 0 p hne hf, move_wrr_list, if_pos rfl, if_pos hon,
        hlist1]
      rfl
    · rw [hdo, find_and_move_job_some HZ s 1 0 p hne hf, enqueue_task_wrr_weight]
      simp only [set_task_cpu, mod_task_tasks_same]
      rw [dequeue_task_wrr_weight, hwp]
    · rw [hdo, find_and_move_job_some HZ s 1 0 p hne hf, move_cpu, if_pos rfl]
    · rw [hdo, find_and_move_job_some HZ s 1 0 p hne hf, move_weight_sum HZ s 1 0 0 p hne,
        if_neg hne.symm, hsum0, hwp]
      simp [hon]
    · rw [hdo, find_and_move_job_some HZ s 1 0 p hne hf, move_weight_sum HZ s 1 0 1 p hne,
        if_pos rfl, hsum1, hwp]
      rfl



/-! ## Concrete instances -/

theorem demo_empty_weight (p : Nat) : (demo_empty.tasks p).wrr_weight = 10 := rfl

theorem demo_loaded_weight (p : Nat) : (demo_loaded.tasks p).wrr_weight = 10 := by
  simp [demo_loaded, enqueue_task_wrr_weight, demo_empty_weight]

theorem demo_balanced_weight (p : Nat) : (demo_balanced.tasks p).wrr_weight = 10 := by
  simp [demo_balanced, enqueue_task_wrr_weight, demo_empty_weight]

theorem demo_loaded_list0 : (demo_loaded.rqs 0).wrr.wrr_list = [1, 2, 3] := by decide!

theorem demo_loaded_list1 : (demo_loaded.rqs 1).wrr.wrr_list = [] := by decide!

theorem demo_loaded_one_list (c d : Fin 2) (q : Nat)
    (hc : q ∈ (demo_loaded.rqs c).wrr.wrr_list) (hd : q ∈ (demo_loaded.rqs d).wrr.wrr_list) :
    c = d := by
  fin_cases c <;> fin_cases d
  · rfl
  · exact absurd hd (by simp [demo_loaded_list1])
  · exact absurd hc (by simp [demo_loaded_list1])
  · rfl

/-- Witness for C1: an admissible sequence of enqueues, dequeues and migrations. -/
theorem weight_sum_invariant_witness :
    admissible_run 100 demo_empty demo_ops = true ∧
    ((run 100 demo_empty demo_ops).rqs 1).wrr.weight_sum =
      (((run 100 demo_empty demo_ops).rqs 1).wrr.wrr_list.map
        (fun p => ((run 100 demo_empty demo_ops).tasks p).wrr_weight)).sum :=
  ⟨by decide!,
   weight_sum_invariant 100 demo_empty demo_ops (fun _ => ⟨rfl, rfl, rfl⟩)
     (fun p => by rw [demo_empty_weight]; decide) (by decide!) 1⟩

/-- Witness for C2: task 1 moves from CPU0 (weight 30) to CPU1 (weight 0). -/
theorem migration_keeps_destination_lighter_witness :
    find_job demo_loaded 1 0 (demo_loaded.rqs 0).wrr.movable_tasks = some 1 ∧
    ((find_and_move_job 100 demo_loaded 1 0).rqs 1).wrr.weight_sum <
      ((find_and_move_job 100 demo_loaded 1 0).rqs 0).wrr.weight_sum :=
  ⟨by decide!,
   migration_keeps_destination_lighter 100 demo_loaded 1 0 1 (by decide)
     (fun x _ => Or.inr (by rw [demo_loaded_weight]; decide)) (by decide!)⟩

/-- Witness for C3: task 1 is pinned to CPU0 and stays, task 2 is moved instead. -/
theorem migration_respects_affinity_witness :
    (demo_pinned.tasks 1).cpus_allowed 1 = false ∧
    (find_job demo_pinned 1 0 (demo_pinned.rqs 0).wrr.movable_tasks ≠ some 1 ∧
    (∀ p, find_job demo_pinned 1 0 (demo_pinned.rqs 0).wrr.movable_tasks = some p →
      (demo_pinned.tasks p).cpus_allowed 1 = true) ∧
    (∀ c, 1 ∈ ((find_and_move_job 100 demo_pinned 1 0).rqs c).wrr.wrr_list ↔
      1 ∈ (demo_pinned.rqs c).wrr.wrr_list) ∧
    ((find_and_move_job 100 demo_pinned 1 0).tasks 1).cpu = (demo_pinned.tasks 1).cpu) :=
  ⟨by decide!, migration_respects_affinity 100 demo_pinned 1 0 1 (by decide!)⟩

/-- Witness for C4: both queues weigh 10 and the balancer changes nothing. -/
theorem balanced_queues_no_migration_witness :
    (demo_balanced.rqs 0).wrr.weight_sum = 10 ∧ (demo_balanced.rqs 1).wrr.weight_sum = 10 ∧
    do_sched_wrr_load_timer 100 demo_balanced 0 = demo_balanced :=
  ⟨by decide!, by decide!,
   balanced_queues_no_migration 100 demo_balanced 0 rfl (by decide!)
     (fun _ x _ => by rw [demo_balanced_weight]; decide)⟩

/-- Witness for C5: tasks 1, 2, 3 on CPU0, none running. -/
theorem three_tasks_one_migration_witness :
    (demo_loaded.rqs 0).wrr.weight_sum = 30 ∧ (demo_loaded.rqs 1).wrr.weight_sum = 0 ∧
    ∃ p ∈ [1, 2, 3],
      ((do_sched_wrr_load_timer 100 demo_loaded 0).rqs 0).wrr.wrr_list =
        [1, 2, 3].filter (fun q => q != p) ∧
      ((do_sched_wrr_load_timer 100 demo_loaded 0).rqs 0).wrr.wrr_list.length = 2 ∧
      ((do_sched_wrr_load_timer 100 demo_loaded 0).rqs 1).wrr.wrr_list = [p] ∧
      ((do_sched_wrr_load_timer 100 demo_loaded 0).tasks p).wrr_weight = 10 ∧
      ((do_sched_wrr_load_timer 100 demo_loaded 0).tasks p).cpu = 1 ∧
      ((do_sched_wrr_load_timer 100 demo_loaded 0).rqs 0).wrr.weight_sum = 20 ∧
      ((do_sched_wrr_load_timer 100 demo_loaded 0).rqs 1).wrr.weight_sum = 10 :=
  ⟨by decide!, by decide!,
   three_tasks_one_migration 100 demo_loaded 0 1 2 3 (by decide) (by decide) (by decide)
     (fun _ => rfl) demo_loaded_list0 (by decide!) (by decide!) demo_loaded_list1 (by decide!)
     (by decide!) (by decide!) (by decide!) (by decide!)⟩

/-- Witness for C6: moving task 1 narrows the gap from 30 to 10. -/
theorem migration_narrows_imbalance_witness :
    find_job demo_loaded 1 0 (demo_loaded.rqs 0).wrr.movable_tasks = some 1 ∧
    (0 ≤ ((find_and_move_job 100 demo_loaded 1 0).rqs 0).wrr.weight_sum -
        ((find_and_move_job 100 demo_loaded 1 0).rqs 1).wrr.weight_sum ∧
    ((find_and_move_job 100 demo_loaded 1 0).rqs 0).wrr.weight_sum -
        ((find_and_move_job 100 demo_loaded 1 0).rqs 1).wrr.weight_sum <
      (demo_loaded.rqs 0).wrr.weight_sum - (demo_loaded.rqs 1).wrr.weight_sum ∧
    ((find_and_move_job 100 demo_loaded 1 0).rqs 0).wrr.weight_sum +
        ((find_and_move_job 100 demo_loaded 1 0).rqs 1).wrr.weight_sum =
      (demo_loaded.rqs 0).wrr.weight_sum + (demo_loaded.rqs 1).wrr.weight_sum) :=
  ⟨by decide!,
   migration_narrows_imbalance 100 demo_loaded 1 0 1 (by decide)
     (fun x _ => by rw [demo_loaded_weight]; decide) (by decide!) (by decide!) (by decide!)⟩

/-- Witness for C7: one balancer run on the loaded state. -/
theorem balancer_moves_at_most_one_task_witness :
    find_lowest_wrr_rq demo_loaded 0 = 1 ∧ find_highest_wrr_rq demo_loaded 0 = 0 ∧
    (do_sched_wrr_load_timer 100 demo_loaded 0 = demo_loaded ∨
    ∃ p, find_lowest_wrr_rq demo_loaded 0 ≠ find_highest_wrr_rq demo_loaded 0 ∧
      p ∈ (demo_loaded.rqs (find_highest_wrr_rq demo_loaded 0)).wrr.wrr_list ∧
      ((do_sched_wrr_load_timer 100 demo_loaded 0).rqs
          (find_highest_wrr_rq demo_loaded 0)).wrr.wrr_list =
        (demo_loaded.rqs (find_highest_wrr_rq demo_loaded 0)).wrr.wrr_list.filter
          (fun q => q != p) ∧
      ((do_sched_wrr_load_timer 100 demo_loaded 0).rqs
          (find_lowest_wrr_rq demo_loaded 0)).wrr.wrr_list =
        (demo_loaded.rqs (find_lowest_wrr_rq demo_loaded 0)).wrr.wrr_list ++ [p] ∧
      (∀ c, c ≠ find_lowest_wrr_rq demo_loaded 0 → c ≠ find_highest_wrr_rq demo_loaded 0 →
        ((do_sched_wrr_load_timer 100 demo_loaded 0).rqs c).wrr.wrr_list =
          (demo_loaded.rqs c).wrr.wrr_list) ∧
      ((do_sched_wrr_load_timer 100 demo_loaded 0).tasks p).cpu =
        find_lowest_wrr_rq demo_loaded 0 ∧
      (∀ q, q ≠ p →
        ((do_sched_wrr_load_timer 100 demo_loaded 0).tasks q).cpu = (demo_loaded.tasks q).cpu)) :=
  ⟨by decide!, by decide!,
   balancer_moves_at_most_one_task 100 demo_loaded 0 (by decide!) demo_loaded_one_list⟩

/-- Witness for C8: a task of the policy is placed on the empty CPU1. -/
theorem select_task_rq_wrr_least_loaded_witness :
    select_task_rq_wrr 6 demo_loaded 0 1 = 1 ∧
    ∃ c : Fin 2, select_task_rq_wrr 6 demo_loaded 0 1 = ((c : Nat) : Int) ∧
      demo_loaded.cpu_online_mask c = true ∧
      (∀ d, demo_loaded.cpu_online_mask d = true →
        (demo_loaded.rqs c).wrr.weight_sum ≤ (demo_loaded.rqs d).wrr.weight_sum) ∧
      (∀ d, demo_loaded.cpu_online_mask d = true →
        (demo_loaded.rqs d).wrr.weight_sum = (demo_loaded.rqs c).wrr.weight_sum → c ≤ d) :=
  ⟨by decide!,
   (select_task_rq_wrr_least_loaded 6 demo_loaded 0 1 ⟨1, rfl, by decide!⟩).1 (by decide!)⟩

/-- Witness for C9: a requested weight of 25 is stored as 10. -/
theorem task_fork_wrr_clamps_witness :
    (demo_wide.tasks 7).wrr_weight = 25 ∧
    ((task_fork_wrr 100 demo_wide 7).tasks 7).wrr_weight = 10 ∧
    (((task_fork_wrr 100 demo_wide 7).tasks 7).time_slice : Int) =
      BASE_WRR_TIMESLICE 100 * ((task_fork_wrr 100 demo_wide 7).tasks 7).wrr_weight :=
  ⟨rfl,
   (task_fork_wrr_clamps 100 demo_wide 7 (by decide) (by decide)).2.2.1 rfl,
   (task_fork_wrr_clamps 100 demo_wide 7 (by decide) (by decide)).2.2.2.2.2⟩

/-- Witness for C10: task 1 of weight 10 with one tick left at tick rate 100. -/
theorem fresh_slice_is_base_times_weight_witness :
    (demo_empty.tasks 1).wrr_weight = 10 ∧ (demo_empty.tasks 1).time_slice = 1 ∧
    ((((enqueue_task_wrr 100 demo_empty 0 1).tasks 1).time_slice : Nat) : Int) =
      BASE_WRR_TIMESLICE 100 * 10 ∧
    ((((task_tick_wrr 100 demo_empty 0 1).tasks 1).time_slice : Nat) : Int) =
      BASE_WRR_TIMESLICE 100 * 10 :=
  ⟨rfl, rfl,
   (fresh_slice_is_base_times_weight 100 demo_empty 0 1 (by decide) (by decide)).1,
   ((fresh_slice_is_base_times_weight 100 demo_empty 0 1 (by decide) (by decide)).2.2 rfl).1⟩



/-! ## Requeue, yield, tick, weight change -/

/-- Run list of every CPU after `requeue_task_wrr`. -/
theorem requeue_task_wrr_wrr_list (HZ : Int) (s : State n) (cpu c : Fin n) (p : Nat) :
    ((requeue_task_wrr HZ s cpu p).rqs c).wrr.wrr_list =
      if c = cpu then (s.rqs c).wrr.wrr_list.filter (fun q => q != p) ++ [p]
      else (s.rqs c).wrr.wrr_list.filter (fun q => q != p) := by
  unfold requeue_task_wrr
  by_cases hc : c = cpu
  · subst hc
    simp [list_move_tail, list_add_tail, list_del_init, __enqueue_plist_task, plist_add,
      plist_del, mod_wrr_wrr, State.mod_task]
  · simp [list_move_tail, list_add_tail, list_del_init, __enqueue_plist_task, plist_add,
      plist_del, mod_wrr_wrr, State.mod_task, hc]

/-- Requeueing changes no `weight_sum` and no `wrr_nr_running`. -/
theorem requeue_task_wrr_counters (HZ : Int) (s : State n) (cpu c : Fin n) (p : Nat) :
    ((requeue_task_wrr HZ s cpu p).rqs c).wrr.weight_sum = (s.rqs c).wrr.weight_sum ∧
    ((requeue_task_wrr HZ s cpu p).rqs c).wrr.wrr_nr_running = (s.rqs c).wrr.wrr_nr_running := by
  unfold requeue_task_wrr
  by_cases hc : c = cpu
  · subst hc
    simp [list_move_tail, list_add_tail, list_del_init, __enqueue_plist_task, plist_add,
      plist_del, mod_wrr_wrr, State.mod_task]
  · simp [list_move_tail, list_add_tail, list_del_init, __enqueue_plist_task, plist_add,
      plist_del, mod_wrr_wrr, State.mod_task, hc]

/-- Migratable index of every CPU after `requeue_task_wrr`. -/
theorem requeue_task_wrr_movable (HZ : Int) (s : State n) (cpu c : Fin n) (p : Nat) :
    ((requeue_task_wrr HZ s cpu p).rqs c).wrr.movable_tasks =
      if c = cpu then
        plist_insert { prio := (s.tasks p).wrr_weight, task := p }
          ((s.rqs c).wrr.movable_tasks.filter (fun x => x.task != p))
      else (s.rqs c).wrr.movable_tasks.filter (fun x => x.task != p) := by
  unfold requeue_task_wrr
  by_cases hc : c = cpu
  · subst hc
    simp [list_move_tail, list_add_tail, list_del_init, __enqueue_plist_task, plist_add,
      plist_del, mod_wrr_wrr, State.mod_task]
  · simp [list_move_tail, list_add_tail, list_del_init, __enqueue_plist_task, plist_add,
      plist_del, mod_wrr_wrr, State.mod_task, hc]

/-- The field `curr` and the clock of every run queue are the same after `requeue_task_wrr`. -/
theorem requeue_task_wrr_curr (HZ : Int) (s : State n) (cpu c : Fin n) (p : Nat) :
    ((requeue_task_wrr HZ s cpu p).rqs c).curr = (s.rqs c).curr := by
  unfold requeue_task_wrr
  by_cases hc : c = cpu
  · subst hc
    simp [list_move_tail, list_add_tail, list_del_init, __enqueue_plist_task, plist_add,
      plist_del, State.mod_wrr, State.mod_task]
  · simp [list_move_tail, list_add_tail, list_del_init, __enqueue_plist_task, plist_add,
      plist_del, State.mod_wrr, State.mod_task, Function.update, hc]

/-- The run queues after `__wrr_set_weight`, apart from the migratable index. -/
theorem wrr_set_weight_queue (s : State n) (cpu c : Fin n) (p : Nat) (weight : Int) :
    ((__wrr_set_weight s cpu p weight).rqs c).wrr.wrr_list = (s.rqs c).wrr.wrr_list ∧
    ((__wrr_set_weight s cpu p weight).rqs c).wrr.wrr_nr_running =
      (s.rqs c).wrr.wrr_nr_running ∧
    ((__wrr_set_weight s cpu p weight).rqs c).wrr.weight_sum =
      if c = cpu then
        (if (s.rqs c).wrr.weight_sum - (s.tasks p).wrr_weight < 0 then 0
          else (s.rqs c).wrr.weight_sum - (s.tasks p).wrr_weight) + weight
      else (s.rqs c).wrr.weight_sum := by
  unfold __wrr_set_weight
  simp only []
  split <;>
  · by_cases hc : c = cpu
    · subst hc
      simp [__enqueue_plist_task, plist_add, plist_del, add_wrr_rq_weight, sub_wrr_rq_weight,
        mod_wrr_wrr, State.mod_task]
    · simp [__enqueue_plist_task, plist_add, plist_del, add_wrr_rq_weight, sub_wrr_rq_weight,
        mod_wrr_wrr, State.mod_task, hc]

/-- The task table after `__wrr_set_weight`: only the weight of `p` is written. -/
theorem wrr_set_weight_tasks (s : State n) (cpu : Fin n) (p : Nat) (weight : Int) :
    (__wrr_set_weight s cpu p weight).tasks =
      (s.mod_task p (fun t => { t with wrr_weight := weight })).tasks := by
  unfold __wrr_set_weight
  simp only []
  split <;> rfl



/-! ## The queue operations one by one -/

/-- On an empty queue with a zero counter `pick_next_task_wrr` returns `NULL` and changes
nothing. -/
theorem pick_next_task_wrr_null (s : State n) (cpu : Fin n)
    (h : (s.rqs cpu).wrr.wrr_nr_running = 0) :
    pick_next_task_wrr s cpu = (s, pick_result.null) := by
  simp [pick_next_task_wrr, __pick_next_entity_wrr, h]

/-- On a queue with a non-zero counter and head `p`, `pick_next_task_wrr` returns `p`,
stamps its `exec_start` and takes it out of the migratable index. -/
theorem pick_next_task_wrr_task (s : State n) (cpu : Fin n) (p : Nat) (l : List Nat)
    (hnr : (s.rqs cpu).wrr.wrr_nr_running ≠ 0) (hl : (s.rqs cpu).wrr.wrr_list = p :: l) :
    pick_next_task_wrr s cpu =
      (__dequeue_plist_task
        (s.mod_task p (fun t => { t with exec_start := (s.rqs cpu).clock_task })) cpu p,
       pick_result.task p) := by
  simp [pick_next_task_wrr, __pick_next_entity_wrr, get_first_entity, hnr, hl]

/-- C15: `pick_next_task_wrr` returns none when the queue is empty and otherwise returns
the task at the head of `wrr_list`; in both cases `wrr_list`, `wrr_nr_running` and
`weight_sum` (of every queue) are unchanged, and in the non-empty case the returned task
is in no `movable_tasks` any more and its `exec_start` equals the queue's `clock_task`.
The counter agrees with the list on emptiness, as it does on every queue the class
builds (the code tests the counter). -/
theorem pick_next_task_wrr_head (s : State n) (cpu : Fin n)
    (hcnt : (s.rqs cpu).wrr.wrr_nr_running = 0 ↔ (s.rqs cpu).wrr.wrr_list = []) :
    ((s.rqs cpu).wrr.wrr_list = [] → pick_next_task_wrr s cpu = (s, pick_result.null)) ∧
    (∀ p l, (s.rqs cpu).wrr.wrr_list = p :: l →
      (pick_next_task_wrr s cpu).2 = pick_result.task p ∧
      (∀ c, (((pick_next_task_wrr s cpu).1).rqs c).wrr.wrr_list = (s.rqs c).wrr.wrr_list ∧
        (((pick_next_task_wrr s cpu).1).rqs c).wrr.wrr_nr_running =
          (s.rqs c).wrr.wrr_nr_running ∧
        (((pick_next_task_wrr s cpu).1).rqs c).wrr.weight_sum = (s.rqs c).wrr.weight_sum ∧
        (((pick_next_task_wrr s cpu).1).rqs c).wrr.movable_tasks =
          (s.rqs c).wrr.movable_tasks.filter (fun x => x.task != p) ∧
        ∀ x ∈ (((pick_next_task_wrr s cpu).1).rqs c).wrr.movable_tasks, x.task ≠ p) ∧
      (((pick_next_task_wrr s cpu).1).tasks p).exec_start = (s.rqs cpu).clock_task) := by
  constructor
  · intro he
    exact pick_next_task_wrr_null s cpu (hcnt.2 he)
  · intro p l hl
    have hnr : (s.rqs cpu).wrr.wrr_nr_running ≠ 0 := by
      intro h0
      have := hcnt.1 h0
      rw [hl] at this
      exact List.cons_ne_nil _ _ this
    rw [pick_next_task_wrr_task s cpu p l hnr hl]
    refine ⟨rfl, ?_, ?_⟩
    · intro c
      refine ⟨rfl, rfl, rfl, rfl, ?_⟩
      intro x hx
      have hx2 : x ∈ (s.rqs c).wrr.movable_tasks.filter (fun x => x.task != p) := hx
      simpa using (List.mem_filter.1 hx2).2
    · simp [__dequeue_plist_task]

/-- C16: for a task `p` of weight `w` that is not on the queue (nor in its index),
`enqueue_task_wrr` makes `wrr_list` the old list with `p` appended at the tail, raises
`weight_sum` by exactly `w` and `wrr_nr_running` by 1 (the counter is below its largest
value), and inserts `p` into `movable_tasks` with key `w` exactly when `p` is not the
queue's current task. -/
theorem enqueue_task_wrr_effect (HZ : Int) (s : State n) (cpu : Fin n) (p : Nat)
    (hidx : ∀ x ∈ (s.rqs cpu).wrr.movable_tasks, x.task ≠ p)
    (hnr : (s.rqs cpu).wrr.wrr_nr_running + 1 < ULONG_MOD) :
    ((enqueue_task_wrr HZ s cpu p).rqs cpu).wrr.wrr_list = (s.rqs cpu).wrr.wrr_list ++ [p] ∧
    ((enqueue_task_wrr HZ s cpu p).rqs cpu).wrr.weight_sum =
      (s.rqs cpu).wrr.weight_sum + (s.tasks p).wrr_weight ∧
    ((enqueue_task_wrr HZ s cpu p).rqs cpu).wrr.wrr_nr_running =
      (s.rqs cpu).wrr.wrr_nr_running + 1 ∧
    ((s.rqs cpu).curr ≠ p →
      ((enqueue_task_wrr HZ s cpu p).rqs cpu).wrr.movable_tasks =
        plist_insert { prio := (s.tasks p).wrr_weight, task := p }
          (s.rqs cpu).wrr.movable_tasks) ∧
    ((s.rqs cpu).curr = p →
      ((enqueue_task_wrr HZ s cpu p).rqs cpu).wrr.movable_tasks =
        (s.rqs cpu).wrr.movable_tasks) ∧
    ((∃ x ∈ ((enqueue_task_wrr HZ s cpu p).rqs cpu).wrr.movable_tasks, x.task = p) ↔
      (s.rqs cpu).curr ≠ p) := by
  have hfil : (s.rqs cpu).wrr.movable_tasks.filter (fun x => x.task != p) =
      (s.rqs cpu).wrr.movable_tasks := by
    rw [List.filter_eq_self]
    intro x hx
    simpa using hidx x hx
  have hnrr : ((enqueue_task_wrr HZ s cpu p).rqs cpu).wrr.wrr_nr_running =
      (s.rqs cpu).wrr.wrr_nr_running + 1 := by
    unfold enqueue_task_wrr __enqueue_wrr_entity
    simp only []
    split <;>
    simp [__enqueue_plist_task, plist_add, plist_del, add_wrr_rq_weight, inc_wrr_tasks,
        list_add_tail, mod_wrr_wrr, State.mod_task, Nat.mod_eq_of_lt hnr]
  have hm1 : (s.rqs cpu).curr ≠ p →
      ((enqueue_task_wrr HZ s cpu p).rqs cpu).wrr.movable_tasks =
        plist_insert { prio := (s.tasks p).wrr_weight, task := p }
          (s.rqs cpu).wrr.movable_tasks := by
    intro hc
    rw [enqueue_task_wrr_movable, if_neg hc, if_pos rfl, hfil]
  have hm2 : (s.rqs cpu).curr = p →
      ((enqueue_task_wrr HZ s cpu p).rqs cpu).wrr.movable_tasks =
        (s.rqs cpu).wrr.movable_tasks := by
    intro hc
    rw [enqueue_task_wrr_movable, if_pos hc]
  refine ⟨?_, ?_, hnrr, hm1, hm2, ?_⟩
  · rw [enqueue_task_wrr_wrr_list, if_pos rfl]
  · rw [enqueue_task_wrr_weight_sum, if_pos rfl]
  · constructor
    · rintro ⟨x, hx, hxp⟩ hc
      rw [hm2 hc] at hx
      exact hidx x hx hxp
    · intro hc
      rw [hm1 hc]
      exact ⟨_, (mem_plist_insert _ _ _).2 (Or.inl rfl), rfl⟩

/-- Counter of every CPU after `dequeue_task_wrr`. -/
theorem dequeue_task_wrr_nr_running (s : State n) (cpu c : Fin n) (p : Nat) :
    ((dequeue_task_wrr s cpu p).rqs c).wrr.wrr_nr_running =
      if on_wrr_rq s p = true ∧ c = cpu then
        ((s.rqs c).wrr.wrr_nr_running + ULONG_MOD - 1) % ULONG_MOD
      else (s.rqs c).wrr.wrr_nr_running := by
  unfold dequeue_task_wrr __dequeue_wrr_entity
  simp only []
  have h1 : on_wrr_rq (update_curr_wrr s cpu) p = on_wrr_rq s p :=
    on_wrr_rq_congr _ _ _ (update_curr_wrr_rqs s cpu)
  rw [h1]
  by_cases hq : on_wrr_rq s p = true
  · by_cases hc : c = cpu
    · subst hc
      simp [hq, __dequeue_plist_task, plist_del, sub_wrr_rq_weight, dec_wrr_tasks,
        list_del_init, mod_wrr_wrr]
    · simp [hq, __dequeue_plist_task, plist_del, sub_wrr_rq_weight, dec_wrr_tasks,
        list_del_init, mod_wrr_wrr, hc]
  · simp [hq]

/-- Moving a task that occurs once on a list to the tail rearranges the list. -/
theorem perm_filter_ne_append (l : List Nat) (p : Nat) (hn : l.Nodup) (hp : p ∈ l) :
    (l.filter (fun q => q != p) ++ [p]).Perm l := by
  induction l with
  | nil => simp at hp
  | cons x xs ih =>
    rw [List.nodup_cons] at hn
    by_cases hx : x = p
    · subst hx
      rw [List.filter_cons_of_neg (by simp), filter_ne_of_not_mem xs x hn.1]
      exact (List.perm_append_singleton x xs)
    · have hp2 : p ∈ xs := by
        rcases List.mem_cons.1 hp with h | h
        · exact absurd h.symm hx
        · exact h
      rw [List.filter_cons_of_pos (by simpa using hx)]
      exact List.Perm.cons x (ih hn.2 hp2)

/-- C18: `yield_task_wrr` is `requeue_task_wrr` applied to the current task: when that
task is on `wrr_list`, afterwards it is the last element of `wrr_list`, the other tasks
keep their relative order, the list holds the same tasks as before, and `weight_sum` and
`wrr_nr_running` are unchanged. -/
theorem yield_task_wrr_requeues_curr (HZ : Int) (s : State n) (cpu : Fin n)
    (hnd : (s.rqs cpu).wrr.wrr_list.Nodup)
    (hcur : (s.rqs cpu).curr ∈ (s.rqs cpu).wrr.wrr_list) :
    yield_task_wrr HZ s cpu = requeue_task_wrr HZ s cpu (s.rqs cpu).curr ∧
    ((yield_task_wrr HZ s cpu).rqs cpu).wrr.wrr_list =
      (s.rqs cpu).wrr.wrr_list.filter (fun q => q != (s.rqs cpu).curr) ++ [(s.rqs cpu).curr] ∧
    ((yield_task_wrr HZ s cpu).rqs cpu).wrr.wrr_list.getLast? = some (s.rqs cpu).curr ∧
    (((yield_task_wrr HZ s cpu).rqs cpu).wrr.wrr_list).Perm (s.rqs cpu).wrr.wrr_list ∧
    ((yield_task_wrr HZ s cpu).rqs cpu).wrr.weight_sum = (s.rqs cpu).wrr.weight_sum ∧
    ((yield_task_wrr HZ s cpu).rqs cpu).wrr.wrr_nr_running = (s.rqs cpu).wrr.wrr_nr_running := by
  have hl : ((yield_task_wrr HZ s cpu).rqs cpu).wrr.wrr_list =
      (s.rqs cpu).wrr.wrr_list.filter (fun q => q != (s.rqs cpu).curr) ++ [(s.rqs cpu).curr] := by
    unfold yield_task_wrr
    rw [requeue_task_wrr_wrr_list, if_pos rfl]
  refine ⟨rfl, hl, ?_, ?_, ?_, ?_⟩
  · rw [hl]; simp
  · rw [hl]; exact perm_filter_ne_append _ _ hnd hcur
  · exact (requeue_task_wrr_counters HZ s cpu cpu _).1
  · exact (requeue_task_wrr_counters HZ s cpu cpu _).2



/-! ## The tick -/

theorem run_list_prev_ne_next_congr (s t : State n) (p : Nat) (h : s.rqs = t.rqs) :
    run_list_prev_ne_next s p = run_list_prev_ne_next t p := by
  simp [run_list_prev_ne_next, h]

@[simp] theorem update_curr_wrr_need_resched (s : State n) (cpu : Fin n) (q : Nat) :
    ((update_curr_wrr s cpu).tasks q).need_resched = (s.tasks q).need_resched := by
  unfold update_curr_wrr
  by_cases hc : (s.tasks (s.rqs cpu).curr).wrr_class = false
  · simp [hc]
  · by_cases hq : q = (s.rqs cpu).curr
    · subst hq; simp [hc]
    · simp [hc, mod_task_tasks_ne _ _ hq]

/-- A task that is alone on its run list and on no other list has `prev == next`. -/
theorem run_list_prev_ne_next_single (s : State n) (cpu : Fin n) (p : Nat)
    (hl : (s.rqs cpu).wrr.wrr_list = [p])
    (hone : ∀ c, c ≠ cpu → p ∉ (s.rqs c).wrr.wrr_list) :
    run_list_prev_ne_next s p = false := by
  rw [Bool.eq_false_iff]
  intro h
  simp only [run_list_prev_ne_next, decide_eq_true_eq] at h
  obtain ⟨c, hc, hlen⟩ := h
  by_cases hcc : c = cpu
  · subst hcc
    rw [hl] at hlen
    simp at hlen
  · exact hone c hcc hc

/-- A task on a run list of at least two tasks has `prev != next`. -/
theorem run_list_prev_ne_next_many (s : State n) (cpu : Fin n) (p : Nat)
    (hp : p ∈ (s.rqs cpu).wrr.wrr_list) (hlen : 2 ≤ (s.rqs cpu).wrr.wrr_list.length) :
    run_list_prev_ne_next s p = true := by
  simp only [run_list_prev_ne_next, decide_eq_true_eq]
  exact ⟨cpu, hp, hlen⟩

/-- A tick that leaves the slice above zero only charges the running task and lowers the
slice by one. -/
theorem task_tick_wrr_running (HZ : Int) (s : State n) (cpu : Fin n) (p : Nat)
    (h : slice_exhausted s p = false) :
    task_tick_wrr HZ s cpu p =
      (update_curr_wrr s cpu).mod_task p
        (fun t => { t with time_slice := (t.time_slice + UINT_MOD - 1) % UINT_MOD }) := by
  unfold task_tick_wrr
  simp only [slice_exhausted, decide_eq_false_iff_not] at h
  simp only [mod_task_tasks_same, update_curr_wrr_time_slice]
  rw [if_pos (Nat.pos_of_ne_zero h)]

/-- A tick that finds the slice exhausted refills it, and requeues and flags the task
when it is not alone on its run list. -/
theorem task_tick_wrr_exhausted (HZ : Int) (s : State n) (cpu : Fin n) (p : Nat)
    (h : slice_exhausted s p = true) :
    task_tick_wrr HZ s cpu p =
      if run_list_prev_ne_next s p then
        (requeue_task_wrr HZ
          (((update_curr_wrr s cpu).mod_task p
            (fun t => { t with time_slice := (t.time_slice + UINT_MOD - 1) % UINT_MOD })).mod_task p
            (fun t => { t with time_slice := get_wrr_timeslice HZ t.wrr_weight })) cpu p).mod_task p
          (fun t => { t with need_resched := true })
      else
        ((update_curr_wrr s cpu).mod_task p
          (fun t => { t with time_slice := (t.time_slice + UINT_MOD - 1) % UINT_MOD })).mod_task p
          (fun t => { t with time_slice := get_wrr_timeslice HZ t.wrr_weight }) := by
  unfold task_tick_wrr
  simp only [slice_exhausted, decide_eq_true_eq] at h
  simp only [mod_task_tasks_same, update_curr_wrr_time_slice, h, lt_irrefl, if_false]
  have hr : run_list_prev_ne_next
      (((update_curr_wrr s cpu).mod_task p
        (fun t => { t with time_slice := (t.time_slice + UINT_MOD - 1) % UINT_MOD })).mod_task p
        (fun t => { t with time_slice := get_wrr_timeslice HZ t.wrr_weight })) p =
      run_list_prev_ne_next s p :=
    run_list_prev_ne_next_congr _ _ _ (by simp)
  rw [hr]

theorem slice_exhausted_of_one (s : State n) (p : Nat) (h : (s.tasks p).time_slice = 1) :
    slice_exhausted s p = true := by
  simp [slice_exhausted, h, UINT_MOD]

/-- The slice and the weight of the ticked task after a tick that finds the slice
exhausted. -/
theorem task_tick_wrr_refill (HZ : Int) (s : State n) (cpu : Fin n) (p : Nat)
    (h : slice_exhausted s p = true) :
    ((task_tick_wrr HZ s cpu p).tasks p).time_slice =
        get_wrr_timeslice HZ (s.tasks p).wrr_weight ∧
      ((task_tick_wrr HZ s cpu p).tasks p).wrr_weight = (s.tasks p).wrr_weight := by
  rw [task_tick_wrr_exhausted HZ s cpu p h]
  split
  · simp [requeue_task_wrr_tasks]
  · simp

/-- On a queue that holds only `p`, a tick of `p` changes no run queue and does not flag
a reschedule, whatever the slice. -/
theorem task_tick_wrr_single (HZ : Int) (s : State n) (cpu : Fin n) (p : Nat)
    (hl : (s.rqs cpu).wrr.wrr_list = [p])
    (hone : ∀ c, c ≠ cpu → p ∉ (s.rqs c).wrr.wrr_list) :
    (task_tick_wrr HZ s cpu p).rqs = s.rqs ∧
    ((task_tick_wrr HZ s cpu p).tasks p).need_resched = (s.tasks p).need_resched := by
  by_cases h : slice_exhausted s p = true
  · rw [task_tick_wrr_exhausted HZ s cpu p h, run_list_prev_ne_next_single s cpu p hl hone]
    simp
  · rw [task_tick_wrr_running HZ s cpu p (by simpa using h)]
    simp

/-- On a queue that holds only `p`, any number of ticks of `p` changes no run queue and
does not flag a reschedule. -/
theorem task_tick_wrr_single_iterate (HZ : Int) (cpu : Fin n) (p : Nat) (k : Nat)
    (s : State n) (hl : (s.rqs cpu).wrr.wrr_list = [p])
    (hone : ∀ c, c ≠ cpu → p ∉ (s.rqs c).wrr.wrr_list) :
    (((fun t => task_tick_wrr HZ t cpu p)^[k]) s).rqs = s.rqs ∧
    ((((fun t => task_tick_wrr HZ t cpu p)^[k]) s).tasks p).need_resched =
      (s.tasks p).need_resched := by
  induction k generalizing s with
  | zero => exact ⟨rfl, rfl⟩
  | succ k ih =>
    rw [Function.iterate_succ_apply]
    obtain ⟨h1, h2⟩ := task_tick_wrr_single HZ s cpu p hl hone
    have hl2 : ((task_tick_wrr HZ s cpu p).rqs cpu).wrr.wrr_list = [p] := by rw [h1]; exact hl
    have hone2 : ∀ c, c ≠ cpu → p ∉ ((task_tick_wrr HZ s cpu p).rqs c).wrr.wrr_list := by
      intro c hc; rw [h1]; exact hone c hc
    obtain ⟨h3, h4⟩ := ih (task_tick_wrr HZ s cpu p) hl2 hone2
    exact ⟨h3.trans h1, h4.trans h2⟩

/-- C13: when `task_tick_wrr` finds the slice of a queued task exhausted (`time_slice` was
1), the task is moved to the tail of `wrr_list` and flagged for reschedule if the queue
holds more than one task; if it is the only task, the run queues are unchanged, the task
stays at the head and the reschedule flag is not touched - and so it is after any number
of further ticks, exhausting or not. -/
theorem task_tick_wrr_requeues_iff_not_alone (HZ : Int) (s : State n) (cpu : Fin n) (p : Nat)
    (hts : (s.tasks p).time_slice = 1)
    (hp : p ∈ (s.rqs cpu).wrr.wrr_list)
    (hone : ∀ c, c ≠ cpu → p ∉ (s.rqs c).wrr.wrr_list) :
    (2 ≤ (s.rqs cpu).wrr.wrr_list.length →
      ((task_tick_wrr HZ s cpu p).rqs cpu).wrr.wrr_list =
        (s.rqs cpu).wrr.wrr_list.filter (fun q => q != p) ++ [p] ∧
      ((task_tick_wrr HZ s cpu p).tasks p).need_resched = true) ∧
    ((s.rqs cpu).wrr.wrr_list = [p] →
      (task_tick_wrr HZ s cpu p).rqs = s.rqs ∧
      ((task_tick_wrr HZ s cpu p).rqs cpu).wrr.wrr_list.head? = some p ∧
      ((task_tick_wrr HZ s cpu p).tasks p).need_resched = (s.tasks p).need_resched ∧
      ∀ k, (((fun t => task_tick_wrr HZ t cpu p)^[k]) s).rqs = s.rqs ∧
        ((((fun t => task_tick_wrr HZ t cpu p)^[k]) s).tasks p).need_resched =
          (s.tasks p).need_resched) := by
  have hex := slice_exhausted_of_one s p hts
  constructor
  · intro hlen
    rw [task_tick_wrr_exhausted HZ s cpu p hex, run_list_prev_ne_next_many s cpu p hp hlen]
    simp only [if_true, mod_task_rqs, mod_task_tasks_same]
    constructor
    · rw [requeue_task_wrr_wrr_list, if_pos rfl]
      simp
    · trivial
  · intro hl
    obtain ⟨h1, h2⟩ := task_tick_wrr_single HZ s cpu p hl hone
    refine ⟨h1, ?_, h2, fun k => task_tick_wrr_single_iterate HZ cpu p k s hl hone⟩
    rw [h1, hl]
    rfl



/-! ## Round-robin order -/

theorem same_run_refl (s : State n) : same_run s s :=
  ⟨fun _ => ⟨rfl, rfl⟩, fun _ => rfl⟩

theorem same_run_trans {s t u : State n} (h1 : same_run s t) (h2 : same_run t u) :
    same_run s u :=
  ⟨fun c => ⟨((h2.1 c).1).trans (h1.1 c).1, ((h2.1 c).2).trans (h1.1 c).2⟩,
   fun q => (h2.2 q).trans (h1.2 q)⟩

/-- A fresh queue stays fresh when lists, counters, weights and slices are the same. -/
theorem fresh_queue_congr (HZ : Int) (s t : State n) (cpu : Fin n) (l : List Nat) (w : Int)
    (h : fresh_queue HZ s cpu l w) (hr : same_run s t)
    (hs : ∀ q ∈ l, (t.tasks q).time_slice = (s.tasks q).time_slice) :
    fresh_queue HZ t cpu l w := by
  refine ⟨?_, h.nodup, ?_, ?_, ?_, ?_⟩
  · rw [(hr.1 cpu).1]; exact h.list_eq
  · intro c hc p hp; rw [(hr.1 c).1]; exact h.alone c hc p hp
  · rw [(hr.1 cpu).2]; exact h.counter
  · intro p hp; rw [hr.2]; exact h.weight p hp
  · intro p hp; rw [hs p hp]; exact h.slice p hp

/-- Charging the running task keeps lists, counters and weights. -/
theorem same_run_update_curr (s : State n) (cpu : Fin n) : same_run s (update_curr_wrr s cpu) :=
  ⟨fun c => by simp, fun q => by simp⟩

/-- Picking keeps lists, counters, weights and slices. -/
theorem pick_next_task_wrr_same_run (s : State n) (cpu : Fin n) (p : Nat) (l : List Nat)
    (hnr : (s.rqs cpu).wrr.wrr_nr_running ≠ 0) (hl : (s.rqs cpu).wrr.wrr_list = p :: l) :
    same_run s (pick_next_task_wrr s cpu).1 ∧
    ∀ q, (((pick_next_task_wrr s cpu).1).tasks q).time_slice = (s.tasks q).time_slice := by
  rw [pick_next_task_wrr_task s cpu p l hnr hl]
  refine ⟨⟨fun c => ⟨rfl, rfl⟩, ?_⟩, ?_⟩
  · intro q
    by_cases hq : q = p
    · subst hq; simp [__dequeue_plist_task]
    · simp [__dequeue_plist_task, mod_task_tasks_ne _ _ hq]
  · intro q
    by_cases hq : q = p
    · subst hq; simp [__dequeue_plist_task]
    · simp [__dequeue_plist_task, mod_task_tasks_ne _ _ hq]

/-- Putting the previous task back keeps lists, counters, weights and slices. -/
theorem put_prev_task_wrr_same_run (s : State n) (cpu : Fin n) (p : Nat) :
    same_run s (put_prev_task_wrr s cpu p) ∧
    ∀ q, ((put_prev_task_wrr s cpu p).tasks q).time_slice = (s.tasks q).time_slice := by
  unfold put_prev_task_wrr
  simp only []
  have ht : ∀ q, (((update_curr_wrr s cpu).mod_task p
      (fun t => { t with exec_start := 0 })).tasks q).wrr_weight = (s.tasks q).wrr_weight ∧
      (((update_curr_wrr s cpu).mod_task p
      (fun t => { t with exec_start := 0 })).tasks q).time_slice = (s.tasks q).time_slice := by
    intro q
    by_cases hq : q = p
    · subst hq; simp
    · simp [mod_task_tasks_ne _ _ hq]
  split
  · refine ⟨⟨fun c => ?_, fun q => (ht q).1⟩, fun q => (ht q).2⟩
    by_cases hc : c = cpu
    · subst hc
      simp [__enqueue_plist_task, plist_add, plist_del, mod_wrr_wrr]
    · simp [__enqueue_plist_task, plist_add, plist_del, mod_wrr_wrr, hc]
  · exact ⟨⟨fun c => by simp, fun q => (ht q).1⟩, fun q => (ht q).2⟩

/-- Ticking a task whose slice is `k + 1` exhausts the slice at tick `k + 1` exactly: the
first `k` ticks only charge the running task and lower the slice to 1. -/
theorem tick_until_exhausted_spec (HZ : Int) (cpu : Fin n) (p : Nat) (k : Nat) :
    ∀ (fuel : Nat) (s : State n), (s.tasks p).time_slice = k + 1 → k + 1 < UINT_MOD →
      k + 1 ≤ fuel →
      ∃ s1, s1.rqs = s.rqs ∧ (∀ q, (s1.tasks q).wrr_weight = (s.tasks q).wrr_weight) ∧
        (∀ q, q ≠ p → (s1.tasks q).time_slice = (s.tasks q).time_slice) ∧
        (s1.tasks p).time_slice = 1 ∧
        tick_until_exhausted HZ cpu p fuel s = some (task_tick_wrr HZ s1 cpu p, k + 1) := by
  induction k with
  | zero =>
    intro fuel s hts _ hfuel
    obtain ⟨f, rfl⟩ : ∃ f, fuel = f + 1 := ⟨fuel - 1, by omega⟩
    refine ⟨s, rfl, fun _ => rfl, fun _ _ => rfl, hts, ?_⟩
    simp [tick_until_exhausted, slice_exhausted_of_one s p hts]
  | succ k ih =>
    intro fuel s hts hlt hfuel
    obtain ⟨f, rfl⟩ : ∃ f, fuel = f + 1 := ⟨fuel - 1, by omega⟩
    have hne : slice_exhausted s p = false := by
      simp only [slice_exhausted, decide_eq_false_iff_not, hts]
      have : (k + 1 + 1 + UINT_MOD - 1) % UINT_MOD = k + 1 := by
        have h2 : k + 1 + 1 + UINT_MOD - 1 = (k + 1) + UINT_MOD := by omega
        rw [h2, Nat.add_mod_right, Nat.mod_eq_of_lt (by omega)]
      omega
    have htick := task_tick_wrr_running HZ s cpu p hne
    have hts2 : ((task_tick_wrr HZ s cpu p).tasks p).time_slice = k + 1 := by
      rw [htick]
      simp only [mod_task_tasks_same, update_curr_wrr_time_slice, hts]
      have h2 : k + 1 + 1 + UINT_MOD - 1 = (k + 1) + UINT_MOD := by omega
      rw [h2, Nat.add_mod_right, Nat.mod_eq_of_lt (by omega)]
    obtain ⟨s1, hr, hw, hs, h1, hrun⟩ := ih f (task_tick_wrr HZ s cpu p) hts2 (by omega) (by omega)
    refine ⟨s1, ?_, ?_, ?_, h1, ?_⟩
    · rw [hr, htick]; simp
    · intro q
      rw [hw, htick]
      by_cases hq : q = p
      · subst hq; simp
      · simp [mod_task_tasks_ne _ _ hq]
    · intro q hq
      rw [hs q hq, htick]
      simp [mod_task_tasks_ne _ _ hq]
    · simp [tick_until_exhausted, hne, hrun]



/-- A tick of `p` changes neither the weight nor the slice of another task. -/
theorem task_tick_wrr_other (HZ : Int) (s : State n) (cpu : Fin n) (p q : Nat) (hq : q ≠ p) :
    ((task_tick_wrr HZ s cpu p).tasks q).wrr_weight = (s.tasks q).wrr_weight ∧
    ((task_tick_wrr HZ s cpu p).tasks q).time_slice = (s.tasks q).time_slice := by
  by_cases h : slice_exhausted s p = true
  · rw [task_tick_wrr_exhausted HZ s cpu p h]
    split
    · simp [requeue_task_wrr_tasks, mod_task_tasks_ne _ _ hq]
    · simp [mod_task_tasks_ne _ _ hq]
  · rw [task_tick_wrr_running HZ s cpu p (by simpa using h)]
    simp [mod_task_tasks_ne _ _ hq]

/-- Run lists and counters after a tick that finds the slice exhausted. -/
theorem task_tick_wrr_exhausted_lists (HZ : Int) (s : State n) (cpu c : Fin n) (p : Nat)
    (h : slice_exhausted s p = true) :
    ((task_tick_wrr HZ s cpu p).rqs c).wrr.wrr_list =
      (if run_list_prev_ne_next s p then
        (if c = cpu then (s.rqs c).wrr.wrr_list.filter (fun q => q != p) ++ [p]
          else (s.rqs c).wrr.wrr_list.filter (fun q => q != p))
        else (s.rqs c).wrr.wrr_list) ∧
    ((task_tick_wrr HZ s cpu p).rqs c).wrr.wrr_nr_running = (s.rqs c).wrr.wrr_nr_running := by
  rw [task_tick_wrr_exhausted HZ s cpu p h]
  split
  · simp only [mod_task_rqs]
    rw [requeue_task_wrr_wrr_list, (requeue_task_wrr_counters _ _ _ _ _).2]
    simp
  · simp

/-- The exhausting tick of the head of a fresh queue moves it behind the others, whether
or not there are others, and gives it a fresh slice. -/
theorem task_tick_wrr_rotates (HZ : Int) (s : State n) (cpu : Fin n) (x : Nat) (xs : List Nat)
    (hl : (s.rqs cpu).wrr.wrr_list = x :: xs) (hnd : (x :: xs).Nodup)
    (halone : ∀ c, c ≠ cpu → x ∉ (s.rqs c).wrr.wrr_list)
    (hts : (s.tasks x).time_slice = 1) :
    ((task_tick_wrr HZ s cpu x).rqs cpu).wrr.wrr_list = xs ++ [x] ∧
    (∀ c, c ≠ cpu →
      ((task_tick_wrr HZ s cpu x).rqs c).wrr.wrr_list = (s.rqs c).wrr.wrr_list) ∧
    (∀ c, ((task_tick_wrr HZ s cpu x).rqs c).wrr.wrr_nr_running =
      (s.rqs c).wrr.wrr_nr_running) ∧
    (∀ q, ((task_tick_wrr HZ s cpu x).tasks q).wrr_weight = (s.tasks q).wrr_weight) ∧
    ((task_tick_wrr HZ s cpu x).tasks x).time_slice =
      get_wrr_timeslice HZ (s.tasks x).wrr_weight ∧
    (∀ q, q ≠ x → ((task_tick_wrr HZ s cpu x).tasks q).time_slice = (s.tasks q).time_slice) := by
  have hex := slice_exhausted_of_one s x hts
  have hx : x ∉ xs := (List.nodup_cons.1 hnd).1
  have hfil : (x :: xs).filter (fun q => q != x) = xs := by
    rw [List.filter_cons_of_neg (by simp), filter_ne_of_not_mem xs x hx]
  refine ⟨?_, ?_, fun c => (task_tick_wrr_exhausted_lists HZ s cpu c x hex).2, ?_,
    (task_tick_wrr_refill HZ s cpu x hex).1,
    fun q hq => (task_tick_wrr_other HZ s cpu x q hq).2⟩
  · rw [(task_tick_wrr_exhausted_lists HZ s cpu cpu x hex).1]
    cases xs with
    | nil =>
      rw [run_list_prev_ne_next_single s cpu x hl halone]
      simp [hl]
    | cons y ys =>
      rw [run_list_prev_ne_next_many s cpu x (by rw [hl]; simp) (by rw [hl]; simp)]
      simp only [if_true]
      rw [hl, hfil]
  · intro c hc
    rw [(task_tick_wrr_exhausted_lists HZ s cpu c x hex).1]
    split
    · exact filter_ne_of_not_mem _ _ (halone c hc)
    · rfl
  · intro q
    by_cases hq : q = x
    · subst hq; exact (task_tick_wrr_refill HZ s cpu q hex).2
    · exact (task_tick_wrr_other HZ s cpu x q hq).1

/-- One cycle on a fresh queue picks the head, runs it for exactly its slice, and leaves
a fresh queue with the head moved behind the others. -/
theorem pick_run_put_fresh (HZ : Int) (fuel : Nat) (cpu : Fin n) (s : State n) (x : Nat)
    (xs : List Nat) (w : Int) (h : fresh_queue HZ s cpu (x :: xs) w)
    (hT : 1 ≤ get_wrr_timeslice HZ w) (hfuel : get_wrr_timeslice HZ w ≤ fuel) :
    ∃ s1, pick_run_put HZ fuel cpu s = some (s1, x, get_wrr_timeslice HZ w) ∧
      fresh_queue HZ s1 cpu (xs ++ [x]) w := by
  have hnr : (s.rqs cpu).wrr.wrr_nr_running ≠ 0 := by
    rw [h.counter]; simp
  obtain ⟨hpr, hps⟩ := pick_next_task_wrr_same_run s cpu x xs hnr h.list_eq
  have hpick : pick_next_task_wrr s cpu = ((pick_next_task_wrr s cpu).1, pick_result.task x) := by
    rw [pick_next_task_wrr_task s cpu x xs hnr h.list_eq]
  have hf1 : fresh_queue HZ (pick_next_task_wrr s cpu).1 cpu (x :: xs) w :=
    fresh_queue_congr HZ s _ cpu _ w h hpr (fun q _ => hps q)
  generalize (pick_next_task_wrr s cpu).1 = sp at hpick hf1
  have hlt : get_wrr_timeslice HZ w < UINT_MOD := by
    unfold get_wrr_timeslice
    have hpos : (0 : Int) < (UINT_MOD : Int) := by unfold UINT_MOD; norm_num
    have h1 := Int.emod_lt_of_pos (BASE_WRR_TIMESLICE HZ * w) hpos
    have h2 := Int.emod_nonneg (BASE_WRR_TIMESLICE HZ * w) (ne_of_gt hpos)
    omega
  obtain ⟨k, hk⟩ : ∃ k, get_wrr_timeslice HZ w = k + 1 := ⟨get_wrr_timeslice HZ w - 1, by omega⟩
  have hxs : (sp.tasks x).time_slice = k + 1 := by
    rw [hf1.slice x (by simp), hk]
  obtain ⟨s1, hr1, hw1, hs1, hone1, hrun⟩ :=
    tick_until_exhausted_spec HZ cpu x k fuel sp hxs (by omega) (by omega)
  have hl1 : (s1.rqs cpu).wrr.wrr_list = x :: xs := by rw [hr1]; exact hf1.list_eq
  have halone1 : ∀ c, c ≠ cpu → x ∉ (s1.rqs c).wrr.wrr_list := by
    intro c hc; rw [hr1]; exact hf1.alone c hc x (by simp)
  obtain ⟨t1, t2, t3, t4, t5, t6⟩ :=
    task_tick_wrr_rotates HZ s1 cpu x xs hl1 hf1.nodup halone1 hone1
  obtain ⟨hqr, hqs⟩ := put_prev_task_wrr_same_run (task_tick_wrr HZ s1 cpu x) cpu x
  refine ⟨put_prev_task_wrr (task_tick_wrr HZ s1 cpu x) cpu x, ?_, ?_⟩
  · unfold pick_run_put
    rw [hpick]
    simp only [hrun, hk]
  · have hnd2 : (xs ++ [x]).Nodup := by
      have := hf1.nodup
      rw [List.nodup_cons] at this
      rw [List.nodup_append]
      refine ⟨this.2, List.nodup_singleton x, ?_⟩
      intro a ha hb
      rw [List.mem_singleton] at hb
      exact this.1 (hb ▸ ha)
    have hmem : ∀ q, q ∈ xs ++ [x] → q ∈ x :: xs := by
      intro q hq
      simp only [List.mem_append, List.mem_singleton, List.mem_cons] at hq ⊢
      tauto
    refine ⟨?_, hnd2, ?_, ?_, ?_, ?_⟩
    · rw [(hqr.1 cpu).1, t1]
    · intro c hc q hq
      rw [(hqr.1 c).1, t2 c hc, hr1]
      exact hf1.alone c hc q (hmem q hq)
    · rw [(hqr.1 cpu).2, t3 cpu, hr1, hf1.counter]
      simp
    · intro q hq
      rw [hqr.2 q, t4 q, hw1 q]
      exact hf1.weight q (hmem q hq)
    · intro q hq
      rw [hqs q]
      by_cases hqx : q = x
      · subst hqx
        rw [t5, hw1 q, hf1.weight q (by simp)]
      · rw [t6 q hqx, hs1 q hqx]
        exact hf1.slice q (hmem q hq)

/-- Cycling through a prefix `a` of a fresh queue `a ++ b` picks the tasks of `a` in
order, each for exactly its slice, and leaves the fresh queue `b ++ a`. -/
theorem rounds_prefix (HZ : Int) (fuel : Nat) (cpu : Fin n) (w : Int)
    (hT : 1 ≤ get_wrr_timeslice HZ w) (hfuel : get_wrr_timeslice HZ w ≤ fuel) (a : List Nat) :
    ∀ (b : List Nat) (s : State n), fresh_queue HZ s cpu (a ++ b) w →
      ∃ s1, rounds HZ fuel cpu a.length s =
          some (s1, a.map (fun p => (p, get_wrr_timeslice HZ w))) ∧
        fresh_queue HZ s1 cpu (b ++ a) w := by
  induction a with
  | nil =>
    intro b s h
    exact ⟨s, rfl, by simpa using h⟩
  | cons x a ih =>
    intro b s h
    obtain ⟨s1, hstep, hf1⟩ := pick_run_put_fresh HZ fuel cpu s x (a ++ b) w h hT hfuel
    rw [List.append_assoc] at hf1
    obtain ⟨s2, hrounds, hf2⟩ := ih (b ++ [x]) s1 hf1
    refine ⟨s2, ?_, ?_⟩
    · simp only [List.length_cons, rounds, hstep, hrounds, List.map_cons]
    · simpa using hf2



/-- Cycles compose: `a + b` cycles are `a` cycles followed by `b` cycles. -/
theorem rounds_add (HZ : Int) (fuel : Nat) (cpu : Fin n) (a b : Nat) :
    ∀ (s s1 s2 : State n) (t1 t2 : List (Nat × Nat)),
      rounds HZ fuel cpu a s = some (s1, t1) → rounds HZ fuel cpu b s1 = some (s2, t2) →
      rounds HZ fuel cpu (a + b) s = some (s2, t1 ++ t2) := by
  induction a with
  | zero =>
    intro s s1 s2 t1 t2 h1 h2
    simp only [rounds, Option.some.injEq, Prod.mk.injEq] at h1
    obtain ⟨rfl, rfl⟩ := h1
    simpa using h2
  | succ a ih =>
    intro s s1 s2 t1 t2 h1 h2
    rw [Nat.add_right_comm]
    simp only [rounds] at h1 ⊢
    rcases hc : pick_run_put HZ fuel cpu s with _ | ⟨sa, p, k⟩
    · rw [hc] at h1; simp at h1
    · rw [hc] at h1
      simp only at h1 ⊢
      rcases hr : rounds HZ fuel cpu a sa with _ | ⟨sb, tb⟩
      · rw [hr] at h1; simp at h1
      · rw [hr] at h1
        simp only [Option.some.injEq, Prod.mk.injEq] at h1
        obtain ⟨rfl, rfl⟩ := h1
        rw [ih sa sb s2 tb t2 hr h2]
        simp

/-- C14: on a queue of `N` freshly enqueued tasks of equal weight `w` (no migration, no
blocking), the cycle "`pick_next_task_wrr`, `task_tick_wrr` until the slice is exhausted,
`put_prev_task_wrr`" run `N` times picks the `N` tasks in their queue order, each once,
and each pick runs for exactly `BASE_WRR_TIMESLICE * w` ticks; the queue is then as it
started, so the next `N` cycles pick the same tasks in the same order again.  The slice
`BASE_WRR_TIMESLICE * w` is at least one tick and fits `unsigned int`. -/
theorem round_robin_fairness (HZ : Int) (fuel : Nat) (cpu : Fin n) (s : State n)
    (l : List Nat) (w : Int)
    (hfresh : fresh_queue HZ s cpu l w)
    (hT1 : 1 ≤ BASE_WRR_TIMESLICE HZ * w) (hT2 : BASE_WRR_TIMESLICE HZ * w < 2 ^ 32)
    (hfuel : (BASE_WRR_TIMESLICE HZ * w).toNat ≤ fuel) :
    ∃ s1, rounds HZ fuel cpu l.length s =
        some (s1, l.map (fun p => (p, (BASE_WRR_TIMESLICE HZ * w).toNat))) ∧
      fresh_queue HZ s1 cpu l w ∧
      ∃ s2, rounds HZ fuel cpu (l.length + l.length) s =
          some (s2, l.map (fun p => (p, (BASE_WRR_TIMESLICE HZ * w).toNat)) ++
            l.map (fun p => (p, (BASE_WRR_TIMESLICE HZ * w).toNat))) ∧
        fresh_queue HZ s2 cpu l w := by
  have hT : ((get_wrr_timeslice HZ w : Nat) : Int) = BASE_WRR_TIMESLICE HZ * w :=
    get_wrr_timeslice_eq HZ w (by omega) hT2
  have hTn : (BASE_WRR_TIMESLICE HZ * w).toNat = get_wrr_timeslice HZ w := by
    rw [← hT]; simp
  rw [hTn] at hfuel ⊢
  have h1 : 1 ≤ get_wrr_timeslice HZ w := by omega
  obtain ⟨s1, hr1, hf1⟩ := rounds_prefix HZ fuel cpu w h1 hfuel l [] s (by simpa using hfresh)
  simp only [List.nil_append] at hf1
  obtain ⟨s2, hr2, hf2⟩ := rounds_prefix HZ fuel cpu w h1 hfuel l [] s1 (by simpa using hf1)
  simp only [List.nil_append] at hf2
  exact ⟨s1, hr1, hf1, s2, rounds_add HZ fuel cpu _ _ s s1 s2 _ _ hr1 hr2, hf2⟩

/-! ## Changing the weight -/

/-- C11 (as amended): `__wrr_set_weight(rq, p, w)` stores `w` as the weight of `p` and
leaves the remaining `time_slice` of `p` as it was; the slice becomes
`BASE_WRR_TIMESLICE * w` at the next `requeue_task_wrr` of `p` and at the next
`task_tick_wrr` that finds the slice exhausted (the product fits `unsigned int`). -/
theorem wrr_set_weight_keeps_slice (HZ : Int) (s : State n) (cpu : Fin n) (p : Nat) (w : Int)
    (h0 : 0 ≤ BASE_WRR_TIMESLICE HZ * w) (h1 : BASE_WRR_TIMESLICE HZ * w < 2 ^ 32) :
    ((__wrr_set_weight s cpu p w).tasks p).time_slice = (s.tasks p).time_slice ∧
    ((__wrr_set_weight s cpu p w).tasks p).wrr_weight = w ∧
    (((requeue_task_wrr HZ (__wrr_set_weight s cpu p w) cpu p).tasks p).time_slice : Int) =
      BASE_WRR_TIMESLICE HZ * w ∧
    ((s.tasks p).time_slice = 1 →
      (((task_tick_wrr HZ (__wrr_set_weight s cpu p w) cpu p).tasks p).time_slice : Int) =
        BASE_WRR_TIMESLICE HZ * w) := by
  have hts : ((__wrr_set_weight s cpu p w).tasks p).time_slice = (s.tasks p).time_slice := by
    rw [wrr_set_weight_tasks]; simp
  have hw : ((__wrr_set_weight s cpu p w).tasks p).wrr_weight = w := by
    rw [wrr_set_weight_tasks]; simp
  refine ⟨hts, hw, ?_, ?_⟩
  · rw [requeue_task_wrr_tasks]
    simp only [mod_task_tasks_same, hw]
    exact get_wrr_timeslice_eq HZ w h0 h1
  · intro hone
    have hex := slice_exhausted_of_one (__wrr_set_weight s cpu p w) p (hts.trans hone)
    rw [(task_tick_wrr_refill HZ _ cpu p hex).1, hw]
    exact get_wrr_timeslice_eq HZ w h0 h1

/-- Counterexample to C11: task 1 was enqueued with weight 10 at tick rate 100 and has a
slice of 10 ticks; after its weight is set to 20 the slice is still 10, not 20. -/
theorem wrr_set_weight_stale_slice :
    (demo_loaded.tasks 1).time_slice = 10 ∧
    ((__wrr_set_weight demo_loaded 0 1 20).tasks 1).wrr_weight = 20 ∧
    ((__wrr_set_weight demo_loaded 0 1 20).tasks 1).time_slice = 10 ∧
    ¬ ((((__wrr_set_weight demo_loaded 0 1 20).tasks 1).time_slice : Int) =
      BASE_WRR_TIMESLICE 100 * 20) := by
  decide!

/-- Witness for C11 as amended. -/
theorem wrr_set_weight_keeps_slice_witness :
    ((__wrr_set_weight demo_loaded 0 1 20).tasks 1).time_slice = (demo_loaded.tasks 1).time_slice ∧
    ((__wrr_set_weight demo_loaded 0 1 20).tasks 1).wrr_weight = 20 ∧
    (((requeue_task_wrr 100 (__wrr_set_weight demo_loaded 0 1 20) 0 1).tasks 1).time_slice : Int) =
      BASE_WRR_TIMESLICE 100 * 20 :=
  ⟨(wrr_set_weight_keeps_slice 100 demo_loaded 0 1 20 (by decide) (by decide)).1,
   (wrr_set_weight_keeps_slice 100 demo_loaded 0 1 20 (by decide) (by decide)).2.1,
   (wrr_set_weight_keeps_slice 100 demo_loaded 0 1 20 (by decide) (by decide)).2.2.1⟩

/-! ## The migratable index and the running task -/

/-- C12 at its failing input: CPU0 runs task 1 with task 2 waiting, and the index holds
exactly the waiting task.  The tick that exhausts the slice of task 1, and likewise a
yield, put task 1 into the index although it is still the current task and on the CPU. -/
theorem requeue_indexes_running_task :
    index_matches demo_running 0 ∧
    ((task_tick_wrr 100 demo_running 0 1).rqs 0).curr = 1 ∧
    ((task_tick_wrr 100 demo_running 0 1).tasks 1).on_cpu = true ∧
    ((task_tick_wrr 100 demo_running 0 1).rqs 0).wrr.movable_tasks =
      [{ prio := 10, task := 2 }, { prio := 10, task := 1 }] ∧
    ¬ index_matches (task_tick_wrr 100 demo_running 0 1) 0 ∧
    ((yield_task_wrr 100 demo_running 0).rqs 0).wrr.movable_tasks =
      [{ prio := 10, task := 2 }, { prio := 10, task := 1 }] ∧
    ¬ index_matches (yield_task_wrr 100 demo_running 0) 0 := by
  have hm1 : ((task_tick_wrr 100 demo_running 0 1).rqs 0).wrr.movable_tasks =
      [{ prio := 10, task := 2 }, { prio := 10, task := 1 }] := by decide!
  have hc1 : ((task_tick_wrr 100 demo_running 0 1).rqs 0).curr = 1 := by decide!
  have hm2 : ((yield_task_wrr 100 demo_running 0).rqs 0).wrr.movable_tasks =
      [{ prio := 10, task := 2 }, { prio := 10, task := 1 }] := by decide!
  have hc2 : ((yield_task_wrr 100 demo_running 0).rqs 0).curr = 1 := by decide!
  refine ⟨?_, hc1, by decide!, hm1, ?_, hm2, ?_⟩
  · intro p
    have hl : (demo_running.rqs 0).wrr.wrr_list = [1, 2] := rfl
    have hm : (demo_running.rqs 0).wrr.movable_tasks = [{ prio := 10, task := 2 }] := rfl
    have hc : (demo_running.rqs 0).curr = 1 := rfl
    rw [hl, hm, hc]
    simp only [List.mem_singleton, exists_eq_left, List.mem_cons, List.not_mem_nil, or_false]
    omega
  · intro h
    have := (h 1).1 (by rw [hm1]; exact ⟨{ prio := 10, task := 1 }, by simp, rfl⟩)
    exact this.2 hc1
  · intro h
    have := (h 1).1 (by rw [hm2]; exact ⟨{ prio := 10, task := 1 }, by simp, rfl⟩)
    exact this.2 hc2



/-! ## Concrete instances, continued -/

/-- Witness for C13: task 1 runs on CPU0 with task 2 behind it and one tick left. -/
theorem task_tick_wrr_requeues_iff_not_alone_witness :
    (demo_running.tasks 1).time_slice = 1 ∧ (demo_running.rqs 0).wrr.wrr_list = [1, 2] ∧
    (((task_tick_wrr 100 demo_running 0 1).rqs 0).wrr.wrr_list =
        (demo_running.rqs 0).wrr.wrr_list.filter (fun q => q != 1) ++ [1] ∧
      ((task_tick_wrr 100 demo_running 0 1).tasks 1).need_resched = true) :=
  ⟨rfl, rfl,
   (task_tick_wrr_requeues_iff_not_alone 100 demo_running 0 1 rfl (by decide!) (by decide!)).1
     (by decide!)⟩

/-- Witness for C14: tasks 1, 2, 3 of weight 10 freshly enqueued on CPU0, tick rate 100. -/
theorem round_robin_fairness_witness :
    ∃ s1, rounds 100 10 0 [1, 2, 3].length demo_loaded =
        some (s1, [1, 2, 3].map (fun p => (p, (BASE_WRR_TIMESLICE 100 * 10).toNat))) ∧
      fresh_queue 100 s1 0 [1, 2, 3] 10 ∧
      ∃ s2, rounds 100 10 0 ([1, 2, 3].length + [1, 2, 3].length) demo_loaded =
          some (s2, [1, 2, 3].map (fun p => (p, (BASE_WRR_TIMESLICE 100 * 10).toNat)) ++
            [1, 2, 3].map (fun p => (p, (BASE_WRR_TIMESLICE 100 * 10).toNat))) ∧
        fresh_queue 100 s2 0 [1, 2, 3] 10 :=
  round_robin_fairness 100 10 0 demo_loaded [1, 2, 3] 10
    ⟨by decide!, by decide, by decide!, by decide!, by decide!, by decide!⟩
    (by decide) (by decide) (by decide)

/-- Witness for C15: the head of CPU0's queue is task 1. -/
theorem pick_next_task_wrr_head_witness :
    (demo_loaded.rqs 0).wrr.wrr_list = [1, 2, 3] ∧
    (pick_next_task_wrr demo_loaded 0).2 = pick_result.task 1 ∧
    (((pick_next_task_wrr demo_loaded 0).1).tasks 1).exec_start = (demo_loaded.rqs 0).clock_task :=
  ⟨by decide!,
   ((pick_next_task_wrr_head demo_loaded 0 (by decide!)).2 1 [2, 3] (by decide!)).1,
   ((pick_next_task_wrr_head demo_loaded 0 (by decide!)).2 1 [2, 3] (by decide!)).2.2⟩

/-- Witness for C16: task 1 is enqueued on the empty CPU0. -/
theorem enqueue_task_wrr_effect_witness :
    ((enqueue_task_wrr 100 demo_empty 0 1).rqs 0).wrr.wrr_list =
      (demo_empty.rqs 0).wrr.wrr_list ++ [1] ∧
    ((enqueue_task_wrr 100 demo_empty 0 1).rqs 0).wrr.weight_sum =
      (demo_empty.rqs 0).wrr.weight_sum + (demo_empty.tasks 1).wrr_weight ∧
    ((enqueue_task_wrr 100 demo_empty 0 1).rqs 0).wrr.wrr_nr_running =
      (demo_empty.rqs 0).wrr.wrr_nr_running + 1 :=
  ⟨(enqueue_task_wrr_effect 100 demo_empty 0 1 (by decide!) (by decide)).1,
   (enqueue_task_wrr_effect 100 demo_empty 0 1 (by decide!) (by decide)).2.1,
   (enqueue_task_wrr_effect 100 demo_empty 0 1 (by decide!) (by decide)).2.2.1⟩

/-- Witness for C18: the running task 1 yields on CPU0 and goes behind task 2. -/
theorem yield_task_wrr_requeues_curr_witness :
    (demo_running.rqs 0).curr = 1 ∧
    ((yield_task_wrr 100 demo_running 0).rqs 0).wrr.wrr_list =
      (demo_running.rqs 0).wrr.wrr_list.filter (fun q => q != (demo_running.rqs 0).curr) ++
        [(demo_running.rqs 0).curr] ∧
    ((yield_task_wrr 100 demo_running 0).rqs 0).wrr.wrr_list.getLast? =
      some (demo_running.rqs 0).curr :=
  ⟨rfl,
   (yield_task_wrr_requeues_curr 100 demo_running 0 (by decide!) (by decide!)).2.1,
   (yield_task_wrr_requeues_curr 100 demo_running 0 (by decide!) (by decide!)).2.2.1⟩



/-! ## The most loaded CPU -/

/-- The scan of `find_highest_wrr_rq` over an ascending list either keeps its start value
(no queue is above it) or stops on the first CPU of greatest weight. -/
theorem highest_scan_spec (s : State n) (l : List (Fin n))
    (hl : l.Pairwise (fun a b => a < b)) (acc : Int × Fin n) :
    (l.foldl (highest_step s) acc = acc ∧ ∀ d ∈ l, (s.rqs d).wrr.weight_sum ≤ acc.1) ∨
    ((l.foldl (highest_step s) acc).2 ∈ l ∧
      (l.foldl (highest_step s) acc).1 = (s.rqs (l.foldl (highest_step s) acc).2).wrr.weight_sum ∧
      acc.1 < (l.foldl (highest_step s) acc).1 ∧
      (∀ d ∈ l, (s.rqs d).wrr.weight_sum ≤ (l.foldl (highest_step s) acc).1) ∧
      (∀ d ∈ l, (s.rqs d).wrr.weight_sum = (l.foldl (highest_step s) acc).1 →
        (l.foldl (highest_step s) acc).2 ≤ d)) := by
  induction l generalizing acc with
  | nil => left; simp
  | cons x xs ih =>
    rw [List.pairwise_cons] at hl
    obtain ⟨hx, hxs⟩ := hl
    rw [List.foldl_cons]
    by_cases hgt : (s.rqs x).wrr.weight_sum > acc.1
    · have hstep : highest_step s acc x = ((s.rqs x).wrr.weight_sum, x) := by
        simp [highest_step, hgt]
      rw [hstep]
      rcases ih hxs ((s.rqs x).wrr.weight_sum, x) with ⟨he, hall⟩ | ⟨hm, hw, hlt2, hall, hfirst⟩
      · right
        rw [he]
        refine ⟨by simp, rfl, hgt, ?_, ?_⟩
        · intro d hd
          rcases List.mem_cons.1 hd with rfl | hd
          · exact le_refl _
          · exact hall d hd
        · intro d hd _
          rcases List.mem_cons.1 hd with rfl | hd
          · exact le_refl _
          · exact le_of_lt (hx d hd)
      · right
        simp only at hlt2
        refine ⟨List.mem_cons_of_mem _ hm, hw, lt_trans hgt hlt2, ?_, ?_⟩
        · intro d hd
          rcases List.mem_cons.1 hd with rfl | hd
          · exact le_of_lt hlt2
          · exact hall d hd
        · intro d hd hd2
          rcases List.mem_cons.1 hd with rfl | hd
          · exact absurd hd2 (ne_of_lt hlt2)
          · exact hfirst d hd hd2
    · have hstep : highest_step s acc x = acc := by
        simp [highest_step, hgt]
      rw [hstep]
      have hle : (s.rqs x).wrr.weight_sum ≤ acc.1 := not_lt.1 hgt
      rcases ih hxs acc with ⟨he, hall⟩ | ⟨hm, hw, hlt2, hall, hfirst⟩
      · left
        refine ⟨he, ?_⟩
        intro d hd
        rcases List.mem_cons.1 hd with rfl | hd
        · exact hle
        · exact hall d hd
      · right
        refine ⟨List.mem_cons_of_mem _ hm, hw, hlt2, ?_, ?_⟩
        · intro d hd
          rcases List.mem_cons.1 hd with rfl | hd
          · exact le_of_lt (lt_of_le_of_lt hle hlt2)
          · exact hall d hd
        · intro d hd hd2
          rcases List.mem_cons.1 hd with rfl | hd
          · exact absurd hd2 (ne_of_lt (lt_of_le_of_lt hle hlt2))
          · exact hfirst d hd hd2

/-- C23 (as amended): for non-negative `weight_sum` values and a balancer running on an
online CPU, `find_highest_wrr_rq` returns an online CPU whose `weight_sum` is the
greatest over the online CPUs; when that greatest value is positive the CPU returned is
the one of lowest identity among those that have it, and when every online `weight_sum`
is 0 the CPU returned is the one the balancer runs on. -/
theorem find_highest_wrr_rq_greatest (s : State n) (this_cpu : Fin n)
    (hthis : s.cpu_online_mask this_cpu = true)
    (hnn : ∀ c, s.cpu_online_mask c = true → 0 ≤ (s.rqs c).wrr.weight_sum) :
    s.cpu_online_mask (find_highest_wrr_rq s this_cpu) = true ∧
    (∀ d, s.cpu_online_mask d = true →
      (s.rqs d).wrr.weight_sum ≤ (s.rqs (find_highest_wrr_rq s this_cpu)).wrr.weight_sum) ∧
    (0 < (s.rqs (find_highest_wrr_rq s this_cpu)).wrr.weight_sum →
      ∀ d, s.cpu_online_mask d = true →
        (s.rqs d).wrr.weight_sum = (s.rqs (find_highest_wrr_rq s this_cpu)).wrr.weight_sum →
        find_highest_wrr_rq s this_cpu ≤ d) ∧
    ((∀ d, s.cpu_online_mask d = true → (s.rqs d).wrr.weight_sum = 0) →
      find_highest_wrr_rq s this_cpu = this_cpu) := by
  unfold find_highest_wrr_rq
  rcases highest_scan_spec s (for_each_cpu s.cpu_online_mask) (for_each_cpu_sorted _)
      (0, this_cpu) with ⟨he, hall⟩ | ⟨hm, hw, hpos, hall, hfirst⟩
  · rw [he]
    have hz : (s.rqs this_cpu).wrr.weight_sum = 0 :=
      le_antisymm (hall this_cpu ((mem_for_each_cpu _ _).2 hthis)) (hnn this_cpu hthis)
    refine ⟨hthis, ?_, ?_, fun _ => rfl⟩
    · intro d hd
      simp only
      rw [hz]
      exact hall d ((mem_for_each_cpu _ _).2 hd)
    · intro hp
      simp only at hp
      rw [hz] at hp
      exact absurd hp (lt_irrefl 0)
  · refine ⟨(mem_for_each_cpu _ _).1 hm, ?_, ?_, ?_⟩
    · intro d hd
      rw [← hw]
      exact hall d ((mem_for_each_cpu _ _).2 hd)
    · intro _ d hd hd2
      rw [← hw] at hd2
      exact hfirst d ((mem_for_each_cpu _ _).2 hd) hd2
    · intro hzero
      have := hzero _ ((mem_for_each_cpu _ _).1 hm)
      rw [← hw] at this
      simp only at hpos
      omega

/-- Counterexample to C23: both CPUs are online with `weight_sum = 0` and the balancer
runs on CPU1; `find_highest_wrr_rq` returns CPU1 although CPU0 has the same (greatest)
`weight_sum` and the lower identity. -/
theorem find_highest_wrr_rq_idle_tie :
    demo_empty.cpu_online_mask 0 = true ∧
    (demo_empty.rqs 0).wrr.weight_sum = 0 ∧ (demo_empty.rqs 1).wrr.weight_sum = 0 ∧
    find_highest_wrr_rq demo_empty 1 = 1 ∧
    ¬ (∀ d, demo_empty.cpu_online_mask d = true →
        (demo_empty.rqs d).wrr.weight_sum =
          (demo_empty.rqs (find_highest_wrr_rq demo_empty 1)).wrr.weight_sum →
        find_highest_wrr_rq demo_empty 1 ≤ d) := by
  decide!

/-- Witness for C23 as amended: the loaded CPU0 is found from CPU1. -/
theorem find_highest_wrr_rq_greatest_witness :
    find_highest_wrr_rq demo_loaded 1 = 0 ∧
    demo_loaded.cpu_online_mask (find_highest_wrr_rq demo_loaded 1) = true ∧
    (∀ d, demo_loaded.cpu_online_mask d = true →
      (demo_loaded.rqs d).wrr.weight_sum ≤
        (demo_loaded.rqs (find_highest_wrr_rq demo_loaded 1)).wrr.weight_sum) :=
  ⟨by decide!,
   (find_highest_wrr_rq_greatest demo_loaded 1 rfl (by decide!)).1,
   (find_highest_wrr_rq_greatest demo_loaded 1 rfl (by decide!)).2.1⟩

/-! ## The order of the candidates -/

/-- The insertion of `plist_add` keeps an index sorted by ascending key. -/
theorem plist_insert_sorted (node : plist_node) (l : List plist_node)
    (h : l.Pairwise (fun a b => a.prio ≤ b.prio)) :
    (plist_insert node l).Pairwise (fun a b => a.prio ≤ b.prio) := by
  induction l with
  | nil => simp [plist_insert]
  | cons x xs ih =>
    rw [List.pairwise_cons] at h
    unfold plist_insert
    split
    · rename_i hlt
      rw [List.pairwise_cons]
      refine ⟨?_, List.pairwise_cons.2 h⟩
      intro y hy
      rcases List.mem_cons.1 hy with rfl | hy
      · exact le_of_lt hlt
      · exact le_trans (le_of_lt hlt) (h.1 y hy)
    · rename_i hge
      rw [List.pairwise_cons]
      refine ⟨?_, ih h.2⟩
      intro y hy
      rcases (mem_plist_insert y node xs).1 hy with rfl | hy
      · exact not_lt.1 hge
      · exact h.1 y hy

/-- A node whose key is not below any key of the index is added at the end: among equal
keys `plist_add` keeps the order of insertion. -/
theorem plist_insert_behind_equal (node : plist_node) (l : List plist_node)
    (h : ∀ x ∈ l, x.prio ≤ node.prio) : plist_insert node l = l ++ [node] := by
  induction l with
  | nil => rfl
  | cons x xs ih =>
    unfold plist_insert
    have hx : ¬ node.prio < x.prio := not_lt.2 (h x (by simp))
    rw [if_neg hx, ih (fun y hy => h y (List.mem_cons_of_mem _ hy))]
    rfl

/-- Sortedness of the indexes depends only on the indexes. -/
theorem index_sorted_congr (s t : State n)
    (h : ∀ c, (t.rqs c).wrr.movable_tasks = (s.rqs c).wrr.movable_tasks)
    (hs : index_sorted s) : index_sorted t := by
  intro c
  rw [h c]
  exact hs c

/-- Unlinking a node keeps the indexes sorted. -/
theorem index_sorted_plist_del (s : State n) (p : Nat) (hs : index_sorted s) :
    index_sorted (plist_del s p) := by
  intro c
  exact (hs c).filter _

/-- The function `__enqueue_plist_task` keeps the indexes sorted. -/
theorem index_sorted_enqueue_plist (s : State n) (cpu : Fin n) (p : Nat) (hs : index_sorted s) :
    index_sorted (__enqueue_plist_task s cpu p) := by
  intro c
  unfold __enqueue_plist_task plist_add
  by_cases hc : c = cpu
  · subst hc
    simp only [mod_wrr_rqs_same]
    exact plist_insert_sorted _ _ (index_sorted_plist_del s p hs c)
  · rw [mod_wrr_rqs_ne _ _ hc]
    exact index_sorted_plist_del s p hs c

/-- The function `enqueue_task_wrr` keeps the indexes sorted. -/
theorem index_sorted_enqueue (HZ : Int) (s : State n) (cpu : Fin n) (p : Nat)
    (hs : index_sorted s) : index_sorted (enqueue_task_wrr HZ s cpu p) := by
  intro c
  rw [enqueue_task_wrr_movable]
  split
  · exact hs c
  · split
    · exact plist_insert_sorted _ _ ((hs c).filter _)
    · exact (hs c).filter _

/-- The function `dequeue_task_wrr` keeps the indexes sorted. -/
theorem index_sorted_dequeue (s : State n) (cpu : Fin n) (p : Nat)
    (hs : index_sorted s) : index_sorted (dequeue_task_wrr s cpu p) := by
  intro c
  rw [dequeue_task_wrr_movable]
  split
  · exact (hs c).filter _
  · exact hs c

/-- The function `requeue_task_wrr`, and so `yield_task_wrr`, keeps the indexes sorted. -/
theorem index_sorted_requeue (HZ : Int) (s : State n) (cpu : Fin n) (p : Nat)
    (hs : index_sorted s) : index_sorted (requeue_task_wrr HZ s cpu p) := by
  intro c
  rw [requeue_task_wrr_movable]
  split
  · exact plist_insert_sorted _ _ ((hs c).filter _)
  · exact (hs c).filter _

/-- The function `task_tick_wrr` keeps the indexes sorted. -/
theorem index_sorted_tick (HZ : Int) (s : State n) (cpu : Fin n) (p : Nat)
    (hs : index_sorted s) : index_sorted (task_tick_wrr HZ s cpu p) := by
  by_cases h : slice_exhausted s p = true
  · rw [task_tick_wrr_exhausted HZ s cpu p h]
    have h0 : index_sorted (((update_curr_wrr s cpu).mod_task p
        (fun t => { t with time_slice := (t.time_slice + UINT_MOD - 1) % UINT_MOD })).mod_task p
        (fun t => { t with time_slice := get_wrr_timeslice HZ t.wrr_weight })) :=
      index_sorted_congr s _ (fun c => by simp) hs
    split
    · exact index_sorted_congr _ _ (fun c => by simp) (index_sorted_requeue HZ _ cpu p h0)
    · exact h0
  · rw [task_tick_wrr_running HZ s cpu p (by simpa using h)]
    exact index_sorted_congr s _ (fun c => by simp) hs

/-- The function `pick_next_task_wrr` keeps the indexes sorted. -/
theorem index_sorted_pick_next (s : State n) (cpu : Fin n) (hs : index_sorted s) :
    index_sorted (pick_next_task_wrr s cpu).1 := by
  by_cases hnr : (s.rqs cpu).wrr.wrr_nr_running = 0
  · rw [pick_next_task_wrr_null s cpu hnr]
    exact hs
  · cases hl : (s.rqs cpu).wrr.wrr_list with
    | nil =>
      have : pick_next_task_wrr s cpu = (s, pick_result.list_head) := by
        simp [pick_next_task_wrr, __pick_next_entity_wrr, get_first_entity, hnr, hl]
      rw [this]
      exact hs
    | cons p l =>
      rw [pick_next_task_wrr_task s cpu p l hnr hl]
      exact index_sorted_plist_del _ p (index_sorted_congr s _ (fun c => by simp) hs)

/-- The function `put_prev_task_wrr` keeps the indexes sorted. -/
theorem index_sorted_put_prev (s : State n) (cpu : Fin n) (prev : Nat) (hs : index_sorted s) :
    index_sorted (put_prev_task_wrr s cpu prev) := by
  unfold put_prev_task_wrr
  simp only []
  have h0 : index_sorted ((update_curr_wrr s cpu).mod_task prev
      (fun t => { t with exec_start := 0 })) :=
    index_sorted_congr s _ (fun c => by simp) hs
  split
  · exact index_sorted_enqueue_plist _ cpu prev h0
  · exact h0

/-- The function `set_curr_task_wrr` keeps the indexes sorted. -/
theorem index_sorted_set_curr (s : State n) (cpu : Fin n) (hs : index_sorted s) :
    index_sorted (set_curr_task_wrr s cpu) := by
  unfold set_curr_task_wrr
  exact index_sorted_plist_del _ _ (index_sorted_congr s _ (fun c => by simp) hs)

/-- The function `__wrr_set_weight` keeps the indexes sorted. -/
theorem index_sorted_set_weight (s : State n) (cpu : Fin n) (p : Nat) (weight : Int)
    (hs : index_sorted s) : index_sorted (__wrr_set_weight s cpu p weight) := by
  unfold __wrr_set_weight
  simp only []
  have h0 : index_sorted (add_wrr_rq_weight
      ((sub_wrr_rq_weight s cpu (s.tasks p).wrr_weight).mod_task p
        (fun t => { t with wrr_weight := weight })) cpu
      (((sub_wrr_rq_weight s cpu (s.tasks p).wrr_weight).mod_task p
        (fun t => { t with wrr_weight := weight })).tasks p).wrr_weight) := by
    apply index_sorted_congr s _ _ hs
    intro c
    by_cases hc : c = cpu
    · subst hc
      simp [add_wrr_rq_weight, sub_wrr_rq_weight, mod_wrr_wrr]
    · simp [add_wrr_rq_weight, sub_wrr_rq_weight, mod_wrr_wrr, hc]
  split
  · exact index_sorted_enqueue_plist _ cpu p h0
  · exact h0

/-- The function `find_and_move_job` keeps the indexes sorted. -/
theorem index_sorted_migrate (HZ : Int) (s : State n) (lo hi : Fin n) (hs : index_sorted s) :
    index_sorted (find_and_move_job HZ s lo hi) := by
  by_cases hne : lo = hi
  · have : find_and_move_job HZ s lo hi = s := by
      unfold find_and_move_job; rw [if_pos hne]
    rw [this]; exact hs
  · rcases hf : find_job s lo hi (s.rqs hi).wrr.movable_tasks with _ | p
    · rw [find_and_move_job_none HZ s lo hi hf]; exact hs
    · rw [find_and_move_job_some HZ s lo hi p hne hf]
      apply index_sorted_enqueue
      exact index_sorted_congr (dequeue_task_wrr s hi p) _ (fun c => rfl)
        (index_sorted_dequeue s hi p hs)

/-- The function `yield_task_wrr` keeps the indexes sorted. -/
theorem index_sorted_yield (HZ : Int) (s : State n) (cpu : Fin n) (hs : index_sorted s) :
    index_sorted (yield_task_wrr HZ s cpu) :=
  index_sorted_requeue HZ s cpu _ hs

/-- The function `task_fork_wrr` keeps the indexes sorted. -/
theorem index_sorted_fork (HZ : Int) (s : State n) (p : Nat) (hs : index_sorted s) :
    index_sorted (task_fork_wrr HZ s p) := by
  apply index_sorted_congr s _ _ hs
  intro c
  unfold task_fork_wrr
  simp only []
  split <;> simp

/-- The function `do_sched_wrr_load_timer` keeps the indexes sorted. -/
theorem index_sorted_load_timer (HZ : Int) (s : State n) (this_cpu : Fin n)
    (hs : index_sorted s) : index_sorted (do_sched_wrr_load_timer HZ s this_cpu) := by
  unfold do_sched_wrr_load_timer
  simp only []
  split
  · exact hs
  · exact index_sorted_migrate HZ s _ _ hs

/-- Every index of the state with empty queues is sorted. -/
theorem index_sorted_demo_empty : index_sorted demo_empty := by
  intro c
  exact List.Pairwise.nil

/-- C22 (as amended): the balancer examines `highest_cpu`'s migratable tasks in the
order of the priority list, which is ascending order of the keys the tasks were indexed
with, and accepts the first acceptable one: whenever `find_and_move_job` picks a task, no
node before that task's node passes the three tests (task not running, allowed on
`lowest_cpu`, `lowest.weight_sum + weight < highest.weight_sum - weight`), and its key
is the least among the keys of all nodes of `movable_tasks` that pass them; when the
keys of those nodes are the current weights of their tasks, the picked task has the
least weight among them.  The index is sorted by key, which every operation of the
class keeps. -/
theorem balancer_moves_lightest_eligible (s : State n) (lo hi : Fin n) (p : Nat)
    (hsorted : (s.rqs hi).wrr.movable_tasks.Pairwise (fun a b => a.prio ≤ b.prio))
    (hmove : find_job s lo hi (s.rqs hi).wrr.movable_tasks = some p) :
    ∃ before x after, (s.rqs hi).wrr.movable_tasks = before ++ x :: after ∧ x.task = p ∧
      job_eligible s lo hi x = true ∧ (∀ y ∈ before, job_eligible s lo hi y = false) ∧
      (∀ y ∈ (s.rqs hi).wrr.movable_tasks, job_eligible s lo hi y = true →
        x.prio ≤ y.prio) ∧
      ((∀ y ∈ (s.rqs hi).wrr.movable_tasks, job_eligible s lo hi y = true →
          y.prio = (s.tasks y.task).wrr_weight) →
        ∀ y ∈ (s.rqs hi).wrr.movable_tasks, job_eligible s lo hi y = true →
          (s.tasks p).wrr_weight ≤ (s.tasks y.task).wrr_weight) := by
  rw [find_job_eq_find] at hmove
  rcases hx : (s.rqs hi).wrr.movable_tasks.find? (job_eligible s lo hi) with _ | x
  · rw [hx] at hmove; simp at hmove
  · rw [hx] at hmove
    simp only [Option.map_some', Option.some.injEq] at hmove
    obtain ⟨hel, before, after, hsplit, hbefore⟩ := List.find?_eq_some.1 hx
    have hb : ∀ y ∈ before, job_eligible s lo hi y = false := by
      intro y hy
      simpa using hbefore y hy
    have hxm : x ∈ (s.rqs hi).wrr.movable_tasks := by rw [hsplit]; simp
    have hmin : ∀ y ∈ (s.rqs hi).wrr.movable_tasks, job_eligible s lo hi y = true →
        x.prio ≤ y.prio := by
      intro y hy hye
      rw [hsplit] at hy hsorted
      rcases List.mem_append.1 hy with hy | hy
      · rw [hb y hy] at hye
        exact absurd hye Bool.false_ne_true
      · rcases List.mem_cons.1 hy with rfl | hy
        · exact le_refl _
        · exact (List.pairwise_cons.1 (List.pairwise_append.1 hsorted).2.1).1 y hy
    refine ⟨before, x, after, hsplit, hmove, hel, hb, hmin, ?_⟩
    intro hkey y hy hye
    rw [← hmove, ← hkey x hxm hel, ← hkey y hy hye]
    exact hmin y hy hye

/-- Counterexample to C22: CPU0 holds tasks of weight 5, 1 and 14 (`weight_sum = 20`),
CPU1 is empty.  The tasks of weight 1 and 5 both pass the three tests; the balancer
moves the task of weight 1, not the one of weight 5. -/
theorem balancer_moves_lighter_task :
    (demo_mixed.rqs 0).wrr.movable_tasks =
      [{ prio := 1, task := 2 }, { prio := 5, task := 1 }, { prio := 14, task := 3 }] ∧
    job_eligible demo_mixed 1 0 { prio := 5, task := 1 } = true ∧
    find_job demo_mixed 1 0 (demo_mixed.rqs 0).wrr.movable_tasks = some 2 ∧
    (demo_mixed.tasks 2).wrr_weight = 1 ∧ (demo_mixed.tasks 1).wrr_weight = 5 ∧
    ((find_and_move_job 100 demo_mixed 1 0).rqs 1).wrr.wrr_list = [2] ∧
    ¬ (∀ y ∈ (demo_mixed.rqs 0).wrr.movable_tasks, job_eligible demo_mixed 1 0 y = true →
        (demo_mixed.tasks y.task).wrr_weight ≤ (demo_mixed.tasks 2).wrr_weight) := by
  decide!

/-- Witness for C22 as amended, on the same queue: the node of task 2, of key 1, comes
first and is picked. -/
theorem balancer_moves_lightest_eligible_witness :
    find_job demo_mixed 1 0 (demo_mixed.rqs 0).wrr.movable_tasks = some 2 ∧
    ∃ before x after, (demo_mixed.rqs 0).wrr.movable_tasks = before ++ x :: after ∧
      x.task = 2 ∧ job_eligible demo_mixed 1 0 x = true ∧
      (∀ y ∈ before, job_eligible demo_mixed 1 0 y = false) ∧
      (∀ y ∈ (demo_mixed.rqs 0).wrr.movable_tasks, job_eligible demo_mixed 1 0 y = true →
        x.prio ≤ y.prio) ∧
      ((∀ y ∈ (demo_mixed.rqs 0).wrr.movable_tasks, job_eligible demo_mixed 1 0 y = true →
          y.prio = (demo_mixed.tasks y.task).wrr_weight) →
        ∀ y ∈ (demo_mixed.rqs 0).wrr.movable_tasks, job_eligible demo_mixed 1 0 y = true →
          (demo_mixed.tasks 2).wrr_weight ≤ (demo_mixed.tasks y.task).wrr_weight) :=
  ⟨by decide!,
   balancer_moves_lightest_eligible demo_mixed 1 0 2 (by decide!) (by decide!)⟩



/-! ## The counter of queued tasks -/

/-- Counter of every CPU after `enqueue_task_wrr`. -/
theorem enqueue_task_wrr_nr_running (HZ : Int) (s : State n) (cpu c : Fin n) (p : Nat) :
    ((enqueue_task_wrr HZ s cpu p).rqs c).wrr.wrr_nr_running =
      if c = cpu then ((s.rqs c).wrr.wrr_nr_running + 1) % ULONG_MOD
      else (s.rqs c).wrr.wrr_nr_running := by
  unfold enqueue_task_wrr __enqueue_wrr_entity
  simp only []
  split <;>
  · by_cases hc : c = cpu
    · subst hc
      simp [__enqueue_plist_task, plist_add, plist_del, add_wrr_rq_weight, inc_wrr_tasks,
        list_add_tail, mod_wrr_wrr, State.mod_task]
    · simp [__enqueue_plist_task, plist_add, plist_del, add_wrr_rq_weight, inc_wrr_tasks,
        list_add_tail, mod_wrr_wrr, State.mod_task, hc]

/-- Removing a task that occurs once shortens the list by one. -/
theorem length_filter_ne (l : List Nat) (p : Nat) (hn : l.Nodup) (hp : p ∈ l) :
    (l.filter (fun q => q != p)).length + 1 = l.length := by
  have := (perm_filter_ne_append l p hn hp).length_eq
  simpa using this

/-- Enqueueing a task that is on no run list keeps queues and counters consistent. -/
theorem counted_wf_enqueue (HZ : Int) (s : State n) (cpu : Fin n) (p : Nat)
    (h : counted_wf s) (hp : on_wrr_rq s p = false) :
    counted_wf (enqueue_task_wrr HZ s cpu p) := by
  have hnot : ∀ c, p ∉ (s.rqs c).wrr.wrr_list := by
    intro c hc
    have : on_wrr_rq s p = true := (on_wrr_rq_iff s p).2 ⟨c, hc⟩
    rw [hp] at this
    exact Bool.false_ne_true this
  have hmem : ∀ c q, q ∈ ((enqueue_task_wrr HZ s cpu p).rqs c).wrr.wrr_list ↔
      q ∈ (s.rqs c).wrr.wrr_list ∨ (c = cpu ∧ q = p) := by
    intro c q
    rw [enqueue_task_wrr_wrr_list]
    by_cases hc : c = cpu <;> simp [hc]
  refine ⟨?_, ?_, ?_, ?_⟩
  · intro c
    rw [enqueue_task_wrr_wrr_list]
    by_cases hc : c = cpu
    · rw [if_pos hc]
      apply List.Nodup.append (h.nodup c) (List.nodup_singleton p)
      intro a ha hb
      rw [List.mem_singleton] at hb
      exact hnot c (hb ▸ ha)
    · rw [if_neg hc]; exact h.nodup c
  · intro c d q hc hd
    rw [hmem] at hc hd
    rcases hc with hc | ⟨hc, hq⟩
    · rcases hd with hd | ⟨_, hq⟩
      · exact h.one_list c d q hc hd
      · exact absurd (hq ▸ hc) (hnot c)
    · rcases hd with hd | ⟨hd, _⟩
      · exact absurd (hq ▸ hd) (hnot d)
      · rw [hc, hd]
  · intro c x hx
    rw [hmem]
    rw [enqueue_task_wrr_movable] at hx
    by_cases hcur : (s.rqs cpu).curr = p
    · rw [if_pos hcur] at hx
      exact Or.inl (h.index_queued c x hx)
    · rw [if_neg hcur] at hx
      by_cases hc : c = cpu
      · rw [if_pos hc, mem_plist_insert] at hx
        rcases hx with hx | hx
        · right; exact ⟨hc, by rw [hx]⟩
        · left; exact h.index_queued c x (List.mem_filter.1 hx).1
      · rw [if_neg hc] at hx
        left; exact h.index_queued c x (List.mem_filter.1 hx).1
  · intro c
    rw [enqueue_task_wrr_nr_running, enqueue_task_wrr_wrr_list]
    by_cases hc : c = cpu
    · subst hc
      rw [if_pos rfl, if_pos rfl, h.counter c, Nat.mod_add_mod]
      simp
    · rw [if_neg hc, if_neg hc]; exact h.counter c

/-- Dequeueing a task from the run queue it is on keeps queues and counters consistent. -/
theorem counted_wf_dequeue (s : State n) (cpu : Fin n) (p : Nat)
    (h : counted_wf s) (hp : on_wrr_rq s p = true → p ∈ (s.rqs cpu).wrr.wrr_list) :
    counted_wf (dequeue_task_wrr s cpu p) := by
  by_cases hq : on_wrr_rq s p = true
  · have hpc := hp hq
    refine ⟨?_, ?_, ?_, ?_⟩
    · intro c
      rw [dequeue_task_wrr_wrr_list, if_pos hq]
      exact (h.nodup c).filter _
    · intro c d q hc hd
      rw [dequeue_task_wrr_wrr_list, if_pos hq] at hc hd
      exact h.one_list c d q (List.mem_filter.1 hc).1 (List.mem_filter.1 hd).1
    · intro c x hx
      rw [dequeue_task_wrr_movable, if_pos hq] at hx
      rw [dequeue_task_wrr_wrr_list, if_pos hq]
      obtain ⟨hx1, hx2⟩ := List.mem_filter.1 hx
      exact List.mem_filter.2 ⟨h.index_queued c x hx1, hx2⟩
    · intro c
      rw [dequeue_task_wrr_nr_running, dequeue_task_wrr_wrr_list, if_pos hq]
      by_cases hc : c = cpu
      · subst hc
        rw [if_pos ⟨hq, rfl⟩, h.counter c]
        have hlen := length_filter_ne _ p (h.nodup c) hpc
        have hM : 0 < ULONG_MOD := by decide
        have e1 : (s.rqs c).wrr.wrr_list.length % ULONG_MOD + ULONG_MOD - 1 =
            (s.rqs c).wrr.wrr_list.length % ULONG_MOD + (ULONG_MOD - 1) := by omega
        have e2 : (s.rqs c).wrr.wrr_list.length + (ULONG_MOD - 1) =
            ((s.rqs c).wrr.wrr_list.filter (fun q => q != p)).length + ULONG_MOD := by omega
        rw [e1, Nat.mod_add_mod, e2, Nat.add_mod_right]
      · have hnp : p ∉ (s.rqs c).wrr.wrr_list := fun hm => hc (h.one_list c cpu p hm hpc)
        rw [filter_ne_of_not_mem _ _ hnp, if_neg (fun hh => hc hh.2)]
        exact h.counter c
  · have hrq : (dequeue_task_wrr s cpu p).rqs = s.rqs := by
      unfold dequeue_task_wrr
      have h1 : on_wrr_rq (update_curr_wrr s cpu) p = on_wrr_rq s p :=
        on_wrr_rq_congr _ _ _ (update_curr_wrr_rqs s cpu)
      simp only [h1, hq, if_false, update_curr_wrr_rqs]
      simp
    refine ⟨?_, ?_, ?_, ?_⟩
    · intro c; rw [hrq]; exact h.nodup c
    · intro c d q; rw [hrq]; exact h.one_list c d q
    · intro c; rw [hrq]; exact h.index_queued c
    · intro c; rw [hrq]; exact h.counter c

/-- A migration step keeps queues and counters consistent. -/
theorem counted_wf_migrate (HZ : Int) (s : State n) (lo hi : Fin n) (h : counted_wf s) :
    counted_wf (find_and_move_job HZ s lo hi) := by
  by_cases hne : lo = hi
  · have : find_and_move_job HZ s lo hi = s := by
      unfold find_and_move_job; rw [if_pos hne]
    rw [this]; exact h
  · rcases hf : find_job s lo hi (s.rqs hi).wrr.movable_tasks with _ | p
    · rw [find_and_move_job_none HZ s lo hi hf]; exact h
    · rw [find_and_move_job_some HZ s lo hi p hne hf]
      obtain ⟨⟨x, hx, hxp⟩, _⟩ := find_job_some s lo hi _ p hf
      have hpl : p ∈ (s.rqs hi).wrr.wrr_list := hxp ▸ h.index_queued hi x hx
      have h1 := counted_wf_dequeue s hi p h (fun _ => hpl)
      have h2 : counted_wf (set_task_cpu (dequeue_task_wrr s hi p) p lo) :=
        ⟨h1.nodup, h1.one_list, h1.index_queued, h1.counter⟩
      apply counted_wf_enqueue HZ _ lo p h2
      rw [on_wrr_rq_congr (set_task_cpu (dequeue_task_wrr s hi p) p lo)
        (dequeue_task_wrr s hi p) p rfl]
      exact dequeue_task_wrr_not_on_rq s hi p

/-- An admissible sequence of operations, of any length, keeps queues and counters
consistent. -/
theorem counted_wf_run (HZ : Int) (ops : List (Op n)) (s : State n) (h : counted_wf s)
    (ha : admissible_run HZ s ops = true) : counted_wf (run HZ s ops) := by
  induction ops generalizing s with
  | nil => exact h
  | cons op ops ih =>
    simp only [admissible_run, Bool.and_eq_true] at ha
    have hstep : counted_wf (op.apply HZ s) := by
      cases op with
      | enqueue cpu p =>
        have ha1 := ha.1
        simp only [Op.admissible, Bool.not_eq_true'] at ha1
        exact counted_wf_enqueue HZ s cpu p h ha1
      | dequeue cpu p =>
        have ha1 := ha.1
        simp only [Op.admissible, Bool.or_eq_true, Bool.not_eq_true', decide_eq_true_eq] at ha1
        apply counted_wf_dequeue s cpu p h
        intro hq
        rcases ha1 with ha1 | ha1
        · rw [ha1] at hq; exact absurd hq Bool.false_ne_true
        · exact ha1
      | migrate lo hi =>
        exact counted_wf_migrate HZ s lo hi h
    exact ih _ hstep ha.2

/-- With the counter equal to the length of the list, `pick_next_task_wrr` returns `NULL`
exactly on an empty list and never the entry of the empty list's head. -/
theorem pick_next_task_wrr_counted (s : State n) (c : Fin n)
    (h : (s.rqs c).wrr.wrr_nr_running = (s.rqs c).wrr.wrr_list.length) :
    ((pick_next_task_wrr s c).2 = pick_result.null ↔ (s.rqs c).wrr.wrr_list = []) ∧
    (pick_next_task_wrr s c).2 ≠ pick_result.list_head := by
  cases hl : (s.rqs c).wrr.wrr_list with
  | nil =>
    have h0 : (s.rqs c).wrr.wrr_nr_running = 0 := by rw [h, hl]; rfl
    rw [pick_next_task_wrr_null s c h0]
    simp
  | cons p l =>
    have hnr : (s.rqs c).wrr.wrr_nr_running ≠ 0 := by rw [h, hl]; simp
    rw [pick_next_task_wrr_task s c p l hnr hl]
    simp

/-- C25: starting from empty queues with `wrr_nr_running = 0`, after any sequence, of
any length, of `enqueue_task_wrr` (of a task that is not queued), `dequeue_task_wrr` (on
the run queue the task is on) and migrations, `wrr_nr_running` is the number of tasks on
`wrr_list` as the `unsigned long` counter holds it, that is modulo `2^32`; so on every
queue that holds fewer than `2^32` tasks `wrr_nr_running` equals the number of tasks
on `wrr_list`, `pick_next_task_wrr` returns none exactly when `wrr_list` is empty, and it
never returns the entry computed from the head of an empty list. -/
theorem nr_running_counts_queue (HZ : Int) (s : State n) (ops : List (Op n))
    (hempty : ∀ c, (s.rqs c).wrr.wrr_list = [] ∧ (s.rqs c).wrr.wrr_nr_running = 0 ∧
      (s.rqs c).wrr.movable_tasks = [])
    (ha : admissible_run HZ s ops = true) :
    ∀ c, ((run HZ s ops).rqs c).wrr.wrr_nr_running =
        ((run HZ s ops).rqs c).wrr.wrr_list.length % ULONG_MOD ∧
      (((run HZ s ops).rqs c).wrr.wrr_list.length < ULONG_MOD →
        ((run HZ s ops).rqs c).wrr.wrr_nr_running =
          ((run HZ s ops).rqs c).wrr.wrr_list.length ∧
        ((pick_next_task_wrr (run HZ s ops) c).2 = pick_result.null ↔
          ((run HZ s ops).rqs c).wrr.wrr_list = []) ∧
        (pick_next_task_wrr (run HZ s ops) c).2 ≠ pick_result.list_head) := by
  have h0 : counted_wf s := by
    refine ⟨?_, ?_, ?_, ?_⟩
    · intro c; rw [(hempty c).1]; exact List.nodup_nil
    · intro c d q hc; rw [(hempty c).1] at hc; simp at hc
    · intro c x hx; rw [(hempty c).2.2] at hx; simp at hx
    · intro c; rw [(hempty c).1, (hempty c).2.1]; rfl
  have hwf := counted_wf_run HZ ops s h0 ha
  intro c
  refine ⟨hwf.counter c, fun hlt => ?_⟩
  have hc : ((run HZ s ops).rqs c).wrr.wrr_nr_running =
      ((run HZ s ops).rqs c).wrr.wrr_list.length := by
    rw [hwf.counter c, Nat.mod_eq_of_lt hlt]
  exact ⟨hc, pick_next_task_wrr_counted _ c hc⟩

/-- Witness for C25: the sequence of enqueues, dequeues and migrations of `demo_ops`. -/
theorem nr_running_counts_queue_witness :
    admissible_run 100 demo_empty demo_ops = true ∧
    ((run 100 demo_empty demo_ops).rqs 0).wrr.wrr_list.length < ULONG_MOD ∧
    ((run 100 demo_empty demo_ops).rqs 0).wrr.wrr_nr_running =
      ((run 100 demo_empty demo_ops).rqs 0).wrr.wrr_list.length ∧
    (pick_next_task_wrr (run 100 demo_empty demo_ops) 0).2 ≠ pick_result.list_head :=
  ⟨by decide!, by decide!,
   ((nr_running_counts_queue 100 demo_empty demo_ops (fun _ => ⟨rfl, rfl, rfl⟩)
     (by decide!) 0).2 (by decide!)).1,
   ((nr_running_counts_queue 100 demo_empty demo_ops (fun _ => ⟨rfl, rfl, rfl⟩)
     (by decide!) 0).2 (by decide!)).2.2⟩



/-! ## Weight change and the weight sum -/

/-- Migratable index of the CPU after `__wrr_set_weight` of a queued task that is not
running: the task's node is taken out and inserted again with the new weight as key. -/
theorem wrr_set_weight_movable (s : State n) (cpu : Fin n) (p : Nat) (weight : Int)
    (hq : on_wrr_rq s p = true) (hr : (s.tasks p).on_cpu = false) :
    ((__wrr_set_weight s cpu p weight).rqs cpu).wrr.movable_tasks =
      plist_insert { prio := weight, task := p }
        ((s.rqs cpu).wrr.movable_tasks.filter (fun x => x.task != p)) := by
  have hq3 : on_wrr_rq (add_wrr_rq_weight ((sub_wrr_rq_weight s cpu (s.tasks p).wrr_weight).mod_task p
      (fun t => { t with wrr_weight := weight })) cpu weight) p = true := by
    rw [on_wrr_rq_iff] at hq ⊢
    obtain ⟨c, hc⟩ := hq
    refine ⟨c, ?_⟩
    by_cases hcc : c = cpu
    · subst hcc
      simpa [add_wrr_rq_weight, sub_wrr_rq_weight, mod_wrr_wrr] using hc
    · simpa [add_wrr_rq_weight, sub_wrr_rq_weight, mod_wrr_wrr, hcc] using hc
  unfold __wrr_set_weight
  simp only []
  split
  · simp [__enqueue_plist_task, plist_add, plist_del, add_wrr_rq_weight, sub_wrr_rq_weight,
      mod_wrr_wrr]
  · rename_i hneg
    exfalso
    apply hneg
    simp only [mod_task_tasks_same, Bool.and_eq_true, decide_eq_true_eq]
    exact ⟨by simp [task_running, hr], hq3⟩

/-- For a task that is queued on the run queue, `__wrr_set_weight` keeps `weight_sum`
equal to the sum of the queued weights, stores the new weight and, when the task is not
running, keys its node of the index with the new weight. -/
theorem wrr_set_weight_queued (s : State n) (cpu : Fin n) (p : Nat) (weight : Int)
    (hnd : (s.rqs cpu).wrr.wrr_list.Nodup) (hp : p ∈ (s.rqs cpu).wrr.wrr_list)
    (hnn : ∀ q ∈ (s.rqs cpu).wrr.wrr_list, 0 ≤ (s.tasks q).wrr_weight)
    (hsum : (s.rqs cpu).wrr.weight_sum = list_weight s cpu) :
    ((__wrr_set_weight s cpu p weight).rqs cpu).wrr.weight_sum =
      list_weight (__wrr_set_weight s cpu p weight) cpu ∧
    ((__wrr_set_weight s cpu p weight).tasks p).wrr_weight = weight ∧
    ((s.tasks p).on_cpu = false →
      ∀ x ∈ ((__wrr_set_weight s cpu p weight).rqs cpu).wrr.movable_tasks,
        x.task = p → x.prio = weight) := by
  have hw : ((__wrr_set_weight s cpu p weight).tasks p).wrr_weight = weight := by
    rw [wrr_set_weight_tasks]; simp
  refine ⟨?_, hw, ?_⟩
  · unfold list_weight at hsum ⊢
    rw [(wrr_set_weight_queue s cpu cpu p weight).2.2, (wrr_set_weight_queue s cpu cpu p weight).1,
      if_pos rfl]
    have h1 := sum_filter_ne (fun q => (s.tasks q).wrr_weight) _ p hnd hp
    have h2 := sum_filter_ne (fun q => ((__wrr_set_weight s cpu p weight).tasks q).wrr_weight)
      _ p hnd hp
    simp only [] at h1 h2
    have hsame : ((s.rqs cpu).wrr.wrr_list.filter (fun q => q != p)).map
        (fun q => ((__wrr_set_weight s cpu p weight).tasks q).wrr_weight) =
        ((s.rqs cpu).wrr.wrr_list.filter (fun q => q != p)).map
          (fun q => (s.tasks q).wrr_weight) := by
      apply List.map_congr_left
      intro q hq
      have hqp : q ≠ p := by simpa using (List.mem_filter.1 hq).2
      rw [wrr_set_weight_tasks, mod_task_tasks_ne _ _ hqp]
    have hnn2 : 0 ≤ (((s.rqs cpu).wrr.wrr_list.filter (fun q => q != p)).map
        (fun q => (s.tasks q).wrr_weight)).sum := by
      apply List.sum_nonneg
      intro x hx
      obtain ⟨q, hq, rfl⟩ := List.mem_map.1 hx
      exact hnn q (List.mem_filter.1 hq).1
    rw [h2, hsame, hw]
    split <;> omega
  · intro hr x hx hxp
    have hon : on_wrr_rq s p = true := (on_wrr_rq_iff s p).2 ⟨cpu, hp⟩
    rw [wrr_set_weight_movable s cpu p weight hon hr, mem_plist_insert] at hx
    rcases hx with rfl | hx
    · rfl
    · have := (List.mem_filter.1 hx).2
      simp [hxp] at this

/-- C24 at its failing input: CPU0 holds tasks 1, 2, 3 of weight 10 and `weight_sum` is
their sum, 30; task 7 of weight 10 is not queued.  After `__wrr_set_weight(rq0, task 7,
20)` the `wrr_list` and the queued weights are as before but `weight_sum` is 40. -/
theorem wrr_set_weight_unqueued_breaks_sum :
    (demo_loaded.rqs 0).wrr.weight_sum = list_weight demo_loaded 0 ∧
    on_wrr_rq demo_loaded 7 = false ∧
    ((__wrr_set_weight demo_loaded 0 7 20).rqs 0).wrr.wrr_list = [1, 2, 3] ∧
    list_weight (__wrr_set_weight demo_loaded 0 7 20) 0 = 30 ∧
    ((__wrr_set_weight demo_loaded 0 7 20).rqs 0).wrr.weight_sum = 40 ∧
    ((__wrr_set_weight demo_loaded 0 7 20).rqs 0).wrr.weight_sum ≠
      list_weight (__wrr_set_weight demo_loaded 0 7 20) 0 := by
  decide!

/-! ## The range of the slice -/

/-- C26: with `BASE_WRR_TIMESLICE ≥ 1` (and `10 * HZ` within `int`) and a task of weight
`w` in [1,20], the range `1 ≤ time_slice ≤ BASE_WRR_TIMESLICE * w` holds after
`task_fork_wrr` and after `enqueue_task_wrr` and is kept by every `task_tick_wrr`, of
this task or of another, together with the weight; the decrement of the tick takes a
slice in that range to `time_slice - 1` without wrapping (or refills it when it was 1),
and ticking a task with a fresh slice finds the slice exhausted at tick
`BASE_WRR_TIMESLICE * w` exactly, which refills it. -/
theorem time_slice_stays_in_range (HZ : Int) (s : State n) (p : Nat)
    (hB : 1 ≤ BASE_WRR_TIMESLICE HZ) (hz : 10 * HZ ≤ INT_MAX)
    (hw : 1 ≤ (s.tasks p).wrr_weight ∧ (s.tasks p).wrr_weight ≤ 20) :
    (((task_fork_wrr HZ s p).tasks p).wrr_weight = (s.tasks p).wrr_weight ∧
      1 ≤ ((task_fork_wrr HZ s p).tasks p).time_slice ∧
      (((task_fork_wrr HZ s p).tasks p).time_slice : Int) ≤
        BASE_WRR_TIMESLICE HZ * (s.tasks p).wrr_weight) ∧
    (∀ cpu, 1 ≤ ((enqueue_task_wrr HZ s cpu p).tasks p).time_slice ∧
      (((enqueue_task_wrr HZ s cpu p).tasks p).time_slice : Int) ≤
        BASE_WRR_TIMESLICE HZ * (s.tasks p).wrr_weight) ∧
    (∀ cpu q, 1 ≤ (s.tasks p).time_slice →
      ((s.tasks p).time_slice : Int) ≤ BASE_WRR_TIMESLICE HZ * (s.tasks p).wrr_weight →
      ((task_tick_wrr HZ s cpu q).tasks p).wrr_weight = (s.tasks p).wrr_weight ∧
      1 ≤ ((task_tick_wrr HZ s cpu q).tasks p).time_slice ∧
      (((task_tick_wrr HZ s cpu q).tasks p).time_slice : Int) ≤
        BASE_WRR_TIMESLICE HZ * (s.tasks p).wrr_weight ∧
      (q = p → ((s.tasks p).time_slice + UINT_MOD - 1) % UINT_MOD = (s.tasks p).time_slice - 1 ∧
        (((task_tick_wrr HZ s cpu q).tasks p).time_slice = (s.tasks p).time_slice - 1 ∨
          ((s.tasks p).time_slice = 1 ∧
            (((task_tick_wrr HZ s cpu q).tasks p).time_slice : Int) =
              BASE_WRR_TIMESLICE HZ * (s.tasks p).wrr_weight)))) ∧
    (∀ cpu fuel, ((s.tasks p).time_slice : Int) = BASE_WRR_TIMESLICE HZ * (s.tasks p).wrr_weight →
      (BASE_WRR_TIMESLICE HZ * (s.tasks p).wrr_weight).toNat ≤ fuel →
      ∃ s1, tick_until_exhausted HZ cpu p fuel s =
          some (s1, (BASE_WRR_TIMESLICE HZ * (s.tasks p).wrr_weight).toNat) ∧
        ((s1.tasks p).time_slice : Int) = BASE_WRR_TIMESLICE HZ * (s.tasks p).wrr_weight) := by
  have hz0 : 0 ≤ HZ := by
    by_contra hneg
    have hnegz : HZ < 0 := not_le.1 hneg
    have : BASE_WRR_TIMESLICE HZ ≤ 0 := by
      unfold BASE_WRR_TIMESLICE
      have hflip : (10 * HZ).tdiv 1000 = -((-(10 * HZ)).tdiv 1000) := by
        rw [Int.neg_tdiv, neg_neg]
      have hpos : 0 ≤ (-(10 * HZ)).tdiv 1000 := Int.tdiv_nonneg (by omega) (by norm_num)
      omega
    omega
  obtain ⟨_, hb1⟩ := BASE_WRR_TIMESLICE_bounds HZ hz0 hz
  have hT0 : 0 ≤ BASE_WRR_TIMESLICE HZ * (s.tasks p).wrr_weight := by nlinarith
  have hT1 : 1 ≤ BASE_WRR_TIMESLICE HZ * (s.tasks p).wrr_weight := by nlinarith
  have hT2 : BASE_WRR_TIMESLICE HZ * (s.tasks p).wrr_weight < 2 ^ 32 := by nlinarith
  have hT := get_wrr_timeslice_eq HZ (s.tasks p).wrr_weight hT0 hT2
  have hM : UINT_MOD = 4294967296 := by unfold UINT_MOD; norm_num
  refine ⟨?_, ?_, ?_, ?_⟩
  · have hfork : ((task_fork_wrr HZ s p).tasks p).wrr_weight = (s.tasks p).wrr_weight ∧
        ((task_fork_wrr HZ s p).tasks p).time_slice =
          get_wrr_timeslice HZ (s.tasks p).wrr_weight := by
      unfold task_fork_wrr
      have hno : ¬ ((s.tasks p).wrr_weight < 1 ∨ (s.tasks p).wrr_weight > 20) := by omega
      simp [hno]
    rw [hfork.1, hfork.2]
    refine ⟨rfl, ?_, ?_⟩ <;> omega
  · intro cpu
    rw [enqueue_task_wrr_tasks]
    simp only [mod_task_tasks_same]
    constructor <;> omega
  · intro cpu q h1 h2
    by_cases hq : q = p
    · subst hq
      have hdec : ((s.tasks q).time_slice + UINT_MOD - 1) % UINT_MOD =
          (s.tasks q).time_slice - 1 := by
        have h3 : (s.tasks q).time_slice + UINT_MOD - 1 =
            ((s.tasks q).time_slice - 1) + UINT_MOD := by omega
        rw [h3, Nat.add_mod_right, Nat.mod_eq_of_lt (by omega)]
      by_cases hex : slice_exhausted s q = true
      · have hone : (s.tasks q).time_slice = 1 := by
          simp only [slice_exhausted, decide_eq_true_eq, hdec] at hex
          omega
        obtain ⟨r1, r2⟩ := task_tick_wrr_refill HZ s cpu q hex
        rw [r1, r2]
        refine ⟨rfl, by omega, by omega, fun _ => ⟨hdec, Or.inr ⟨hone, hT⟩⟩⟩
      · have hne : slice_exhausted s q = false := by simpa using hex
        have hge : (s.tasks q).time_slice - 1 ≠ 0 := by
          simp only [slice_exhausted, decide_eq_false_iff_not, hdec] at hne
          exact hne
        have e1 : ((task_tick_wrr HZ s cpu q).tasks q).wrr_weight = (s.tasks q).wrr_weight := by
          rw [task_tick_wrr_running HZ s cpu q hne]; simp
        have e2 : ((task_tick_wrr HZ s cpu q).tasks q).time_slice =
            (s.tasks q).time_slice - 1 := by
          rw [task_tick_wrr_running HZ s cpu q hne]; simp [hdec]
        rw [e1, e2]
        exact ⟨rfl, by omega, by omega, fun _ => ⟨hdec, Or.inl rfl⟩⟩
    · obtain ⟨o1, o2⟩ := task_tick_wrr_other HZ s cpu q p (fun h => hq h.symm)
      rw [o1, o2]
      exact ⟨rfl, h1, h2, fun h => absurd h hq⟩
  · intro cpu fuel hfresh hfuel
    have hTn : (BASE_WRR_TIMESLICE HZ * (s.tasks p).wrr_weight).toNat =
        get_wrr_timeslice HZ (s.tasks p).wrr_weight := by
      rw [← hT]; simp
    rw [hTn] at hfuel ⊢
    obtain ⟨k, hk⟩ : ∃ k, get_wrr_timeslice HZ (s.tasks p).wrr_weight = k + 1 :=
      ⟨get_wrr_timeslice HZ (s.tasks p).wrr_weight - 1, by omega⟩
    have hts : (s.tasks p).time_slice = k + 1 := by omega
    obtain ⟨s1, _, hw1, _, hone1, hrun⟩ :=
      tick_until_exhausted_spec HZ cpu p k fuel s hts (by omega) (by omega)
    refine ⟨task_tick_wrr HZ s1 cpu p, by rw [hrun, hk], ?_⟩
    rw [(task_tick_wrr_refill HZ s1 cpu p (slice_exhausted_of_one s1 p hone1)).1, hw1 p]
    exact hT

/-- Witness for C26: task 1 of weight 10 at tick rate 100, with one tick left. -/
theorem time_slice_stays_in_range_witness :
    BASE_WRR_TIMESLICE 100 = 1 ∧ (demo_empty.tasks 1).time_slice = 1 ∧
    (((task_fork_wrr 100 demo_empty 1).tasks 1).wrr_weight = (demo_empty.tasks 1).wrr_weight ∧
      1 ≤ ((task_fork_wrr 100 demo_empty 1).tasks 1).time_slice ∧
      (((task_fork_wrr 100 demo_empty 1).tasks 1).time_slice : Int) ≤
        BASE_WRR_TIMESLICE 100 * (demo_empty.tasks 1).wrr_weight) ∧
    (1 ≤ ((task_tick_wrr 100 demo_empty 0 1).tasks 1).time_slice ∧
      (((task_tick_wrr 100 demo_empty 0 1).tasks 1).time_slice : Int) ≤
        BASE_WRR_TIMESLICE 100 * (demo_empty.tasks 1).wrr_weight) :=
  ⟨by decide, rfl,
   (time_slice_stays_in_range 100 demo_empty 1 (by decide) (by decide) (by decide)).1,
   ((time_slice_stays_in_range 100 demo_empty 1 (by decide) (by decide) (by decide)).2.2.1
      0 1 (by decide) (by decide)).2.1,
   ((time_slice_stays_in_range 100 demo_empty 1 (by decide) (by decide) (by decide)).2.2.1
      0 1 (by decide) (by decide)).2.2.1⟩


end WRR

namespace Shell

variable {α : Type}

/-! ## Command history -/

theorem numNodes_loop_eq (counter : Int) (x : Option α) (xs : List (Option α)) :
    numNodes_loop counter (x :: xs) = counter + xs.length := by
  induction xs generalizing counter x with
  | nil => simp [numNodes_loop]
  | cons y ys ih =>
    rw [numNodes_loop, ih]
    simp only [List.length_cons, Nat.cast_add, Nat.cast_one]
    ring

/-- The function `numNodes` counts the nodes. -/
theorem numNodes_eq_length (list : LinkedList α) : numNodes list = list.nodes.length := by
  unfold numNodes isEmptyList
  cases h : list.nodes with
  | nil => simp
  | cons x xs =>
    simp only [List.isEmpty_cons, Bool.false_eq_true, if_false, numNodes_loop_eq,
      List.length_cons, Nat.cast_add, Nat.cast_one]
    ring

/-- With a successful allocation `addNodeBack` appends the data at the end. -/
theorem addNodeBack_ok (list : LinkedList α) (data : Option α) :
    addNodeBack true list data = ({ nodes := list.nodes ++ [data] }, true) := by
  unfold addNodeBack
  cases h : list.nodes <;> simp

/-- One more command on a history that holds the last 100 of the commands so far. -/
theorem addToHistory_step (l : List (Option α)) (cmd : Option α) :
    addToHistory true { nodes := l.drop (l.length - 100) } cmd =
      some { nodes := (l ++ [cmd]).drop ((l ++ [cmd]).length - 100) } := by
  unfold addToHistory
  simp only [numNodes_eq_length, MAXHISTORY, addNodeBack_ok]
  by_cases hlen : 100 ≤ l.length
  · have hge : ((l.drop (l.length - 100)).length : Int) ≥ 100 := by
      rw [List.length_drop]
      omega
    rw [if_pos hge]
    have hne : l.drop (l.length - 100) ≠ [] := by
      intro h
      have := congrArg List.length h
      rw [List.length_drop] at this
      simp at this
      omega
    obtain ⟨x, xs, hx⟩ := List.exists_cons_of_ne_nil hne
    have htail : xs = l.drop (l.length - 100 + 1) := by
      have := congrArg List.tail hx
      rw [List.tail_drop, List.tail_cons] at this
      exact this.symm
    simp only [remvNodeFront, hx]
    rw [htail]
    have h2 : (l ++ [cmd]).length - 100 = l.length - 100 + 1 := by
      simp only [List.length_append, List.length_singleton]
      omega
    rw [h2, List.drop_append_of_le_length (by omega)]
  · have hlt : ¬ ((l.drop (l.length - 100)).length : Int) ≥ 100 := by
      rw [List.length_drop]
      omega
    rw [if_neg hlt]
    have h1 : l.length - 100 = 0 := by omega
    have h2 : (l ++ [cmd]).length - 100 = 0 := by
      simp only [List.length_append, List.length_singleton]
      omega
    rw [h1, h2]
    simp

/-- C20: starting from an empty history, after the calls `addToHistory(c1)`, ...,
`addToHistory(cn)` (every allocation succeeding) the history list holds exactly the most
recent `min(n, MAXHISTORY = 100)` commands in the order they were added, the oldest
dropped first, and `numNodes(&HISTORY)` is `min(n, 100)`, never more than 100. -/
theorem history_keeps_last_hundred (cmds : List (Option α)) :
    ∃ h, history_after cmds = some h ∧
      h.nodes = cmds.drop (cmds.length - 100) ∧
      numNodes h = min cmds.length 100 ∧
      numNodes h ≤ MAXHISTORY := by
  have key : history_after cmds = some { nodes := cmds.drop (cmds.length - 100) } := by
    unfold history_after
    induction cmds using List.reverseRecOn with
    | nil => rfl
    | append_singleton l cmd ih =>
      rw [List.foldl_append, ih]
      simp only [List.foldl_cons, List.foldl_nil, Option.bind_some]
      exact addToHistory_step l cmd
  refine ⟨_, key, rfl, ?_, ?_⟩
  · rw [numNodes_eq_length]
    simp only [List.length_drop]
    omega
  · rw [numNodes_eq_length]
    simp only [List.length_drop, MAXHISTORY]
    omega

/-! ## Emptying a list -/

/-- One round of the loop of `removeAllNodes` is one call of `remvNodeFront`, and the
loop goes on exactly when the returned pointer is not `NULL`. -/
theorem removeAllNodes_loop_unfold (l : List (Option α)) :
    removeAllNodes_loop l =
      if (remvNodeFront { nodes := l }).2.isNone then (remvNodeFront { nodes := l }).1.nodes
      else removeAllNodes_loop (remvNodeFront { nodes := l }).1.nodes := by
  cases l with
  | nil => simp [removeAllNodes_loop, remvNodeFront]
  | cons x xs =>
    cases x with
    | none => simp [removeAllNodes_loop, remvNodeFront]
    | some a => simp [removeAllNodes_loop, remvNodeFront]

/-- A list whose nodes all hold data is emptied by `removeAllNodes`. -/
theorem removeAllNodes_of_data (list : LinkedList α) (h : ∀ x ∈ list.nodes, x ≠ none) :
    (removeAllNodes list).nodes = [] := by
  have key : ∀ l : List (Option α), (∀ x ∈ l, x ≠ none) → removeAllNodes_loop l = [] := by
    intro l
    induction l with
    | nil => intro _; rfl
    | cons x xs ih =>
      intro hl
      cases x with
      | none => exact absurd rfl (hl none (by simp))
      | some a =>
        simp only [removeAllNodes_loop]
        exact ih (fun y hy => hl y (List.mem_cons_of_mem _ hy))
  unfold removeAllNodes
  by_cases he : isEmptyList list = true
  · rw [if_pos he]
    simpa [isEmptyList] using he
  · rw [if_neg he]
    exact key _ h

/-- C21 at its failing input: a list of two nodes whose first node holds `NULL`.  The
loop of `removeAllNodes` takes the `NULL` data returned for the first node as the end of
the list: the second node stays, `isEmptyList` is false and `numNodes` is 1. -/
theorem removeAllNodes_stops_at_null :
    (removeAllNodes ({ nodes := [none, some 7] } : LinkedList Nat)).nodes = [some 7] ∧
    isEmptyList (removeAllNodes ({ nodes := [none, some 7] } : LinkedList Nat)) = false ∧
    numNodes (removeAllNodes ({ nodes := [none, some 7] } : LinkedList Nat)) = 1 := by
  decide

end Shell
